import Mathlib

/-!
# lib/spawn.c and lib/pipe.c of the JOS labs

A shallow embedding of `init_stack` and `spawn` with its segment loops
(`trunk/5-lab/lab5/lib/spawn.c`) and of `pipe` and the pipe device
(`trunk/6-lab/lab6/lib/pipe.c`), with the properties established about them.

Conventions.
* Pointers, `size_t` and `uint32_t` values are natural numbers below `W32`;
  every arithmetic step of the source is reduced modulo `W32`.
* `int` and `off_t` values are integers reduced by `wrap32` to the signed
  32-bit range.
* Memory is a byte map `Nat → Nat` over the flat 32-bit address space. The
  stores of init_stack go through pointers into the page it has allocated at
  UTEMP; a store that leaves that page, like an index that leaves `p_buf` in
  the pipe, is undefined behaviour and ends the run with `none` or `fault`.
* A C string is the list of its bytes before the terminating NUL.
* Kernel and file-system calls are collaborators: their return codes and
  returned data are supplied by an environment record.
-/

namespace JOS

/-! ## Machine arithmetic -/

/-- Number of values of a 32-bit word. -/
def W32 : Nat := 4294967296

/-- Unsigned 32-bit subtraction `a - b`. -/
def sub32 (a b : Nat) : Nat := (a + (W32 - b % W32)) % W32

/-- Unsigned 32-bit addition `a + b`. -/
def add32 (a b : Nat) : Nat := (a + b) % W32

/-- Modelled from the spec: the macro ROUNDDOWN of `inc/types.h`, which is not
part of the sources; it rounds down to a multiple of `n` ("floor"), computing
`a - a % n` on `uint32_t`. -/
def ROUNDDOWN (a n : Nat) : Nat := a % W32 - (a % W32) % n

/-- Modelled from the spec: the macro ROUNDUP of `inc/types.h`, which is not
part of the sources; it rounds up to a multiple of `n` ("ceil"), computing
`ROUNDDOWN(a + n - 1, n)` on `uint32_t`. -/
def ROUNDUP (a n : Nat) : Nat := ROUNDDOWN (sub32 (add32 a n) 1) n

/-- Constants of `inc/mmu.h`, `inc/memlayout.h` and `inc/error.h` used by
`spawn.c`; the headers are not part of the sources, so the values are
parameters of the development. -/
structure Layout where
  /-- Bytes per page. -/
  PGSIZE : Nat
  /-- Address of the scratch page of the caller. -/
  UTEMP : Nat
  /-- Top of the normal user stack. -/
  USTACKTOP : Nat
  /-- Error number for "out of memory". -/
  E_NO_MEM : Nat

/-- Sanity conditions on the memory layout: pages have the 4 KiB of the i386
MMU, the scratch page and the stack page are page aligned and lie inside the
32-bit address space, and the error number is positive. -/
def Layout.WF (L : Layout) : Prop :=
  L.PGSIZE = 4096 ∧ L.UTEMP % L.PGSIZE = 0 ∧ L.USTACKTOP % L.PGSIZE = 0 ∧
  L.PGSIZE ≤ L.USTACKTOP ∧ L.UTEMP + L.PGSIZE < W32 ∧ L.USTACKTOP ≤ W32 ∧
  0 < L.E_NO_MEM

instance (L : Layout) : Decidable L.WF := by
  unfold Layout.WF; exact inferInstance

/-- The values of the JOS headers: 4 KiB pages, `UTEMP = 0x400000`,
`USTACKTOP = 0xeebfe000`, `E_NO_MEM = 4`. -/
def jos : Layout :=
  { PGSIZE := 4096, UTEMP := 4194304, USTACKTOP := 4005552128, E_NO_MEM := 4 }

/-- UTEMP2USTACK of spawn.c line 4: `addr + (USTACKTOP - PGSIZE) - UTEMP`. -/
def UTEMP2USTACK (L : Layout) (addr : Nat) : Nat :=
  sub32 (add32 addr (L.USTACKTOP - L.PGSIZE)) L.UTEMP

/-! ## Byte memory -/

/-- Byte-addressed memory of one address space. -/
abbrev Mem := Nat → Nat

/-- Store one byte. -/
def store8 (m : Mem) (a v : Nat) : Mem :=
  fun x => if x = a % W32 then v else m x

/-- Store a 32-bit word, little endian. -/
def store32 (m : Mem) (a v : Nat) : Mem :=
  store8 (store8 (store8 (store8 m a (v % 256)) (a + 1) (v / 256 % 256))
    (a + 2) (v / 65536 % 256)) (a + 3) (v / 16777216 % 256)

/-- Load a 32-bit word, little endian. -/
def load32 (m : Mem) (a : Nat) : Nat :=
  m (a % W32) + 256 * m ((a + 1) % W32) + 65536 * m ((a + 2) % W32)
    + 16777216 * m ((a + 3) % W32)

/-- A C string: its bytes before the terminating NUL. -/
abbrev CStr := List Nat

/-- Modelled from the spec: strlen of `lib/string.c`, which is not part of the
sources: the number of bytes before the NUL. -/
def strlen (s : CStr) : Nat := s.length

/-- What strcpy leaves in memory when every store succeeds: the bytes of `s`
and the terminating NUL at `dst`. -/
def strcpy_raw (m : Mem) (dst : Nat) : CStr → Mem
  | [] => store8 m dst 0
  | c :: cs => strcpy_raw (store8 m dst c) (dst + 1) cs

/-- Modelled from the spec: memset(a, 0, n) of `lib/string.c`, and the
zero-filled page that sys_page_alloc hands out (section 6); neither is part of
the sources. -/
def memset0 (m : Mem) (a n : Nat) : Mem :=
  fun x => if a ≤ x ∧ x < a + n then 0 else m x

/-- The addresses of the page that sys_page_alloc maps at UTEMP. -/
def in_page (L : Layout) (a : Nat) : Prop := L.UTEMP ≤ a ∧ a < L.UTEMP + L.PGSIZE

instance (L : Layout) (a : Nat) : Decidable (in_page L a) := by
  unfold in_page; exact inferInstance

/-- Store one byte through a pointer into the staging page. The page at UTEMP
is the only memory init_stack owns: a store to any other address is undefined
behaviour (a page fault, or the corruption of unrelated memory), rendered as
`none`. -/
def page_store8 (L : Layout) (m : Mem) (a v : Nat) : Option Mem :=
  if in_page L (a % W32) then some (store8 m a v) else none

/-- Store a 32-bit word, little endian, into the staging page. -/
def page_store32 (L : Layout) (m : Mem) (a v : Nat) : Option Mem :=
  (page_store8 L m a (v % 256)).bind fun m1 =>
  (page_store8 L m1 (a + 1) (v / 256 % 256)).bind fun m2 =>
  (page_store8 L m2 (a + 2) (v / 65536 % 256)).bind fun m3 =>
  page_store8 L m3 (a + 3) (v / 16777216 % 256)

/-- Modelled from the spec: strcpy of `lib/string.c`, which is not part of the
sources, with the staging page as destination: copy the bytes of `s` and the
terminating NUL to `dst`. -/
def strcpy (L : Layout) (m : Mem) (dst : Nat) : CStr → Option Mem
  | [] => page_store8 L m dst 0
  | c :: cs => (page_store8 L m dst c).bind fun m1 => strcpy L m1 (dst + 1) cs

/-! ## init_stack (spawn.c lines 176-258) -/

/-- Return codes of the kernel calls made by `init_stack`, in call order:
`sys_page_alloc`, `sys_page_map`, `sys_page_unmap`, and the `sys_page_unmap`
of the `error:` label. -/
structure StackSys where
  r_alloc : Int
  r_map : Int
  r_unmap : Int
  r_unmap_err : Int

/-- Kernel calls recorded in the order they are made. -/
inductive SysCall where
  | page_alloc (va : Nat)
  | page_map (srcva dstva : Nat)
  | page_unmap (va : Nat)
deriving DecidableEq, Repr

/-- What a call of `init_stack` leaves behind. -/
structure StackOut where
  /-- Return value. -/
  ret : Int
  /-- Memory of the caller. -/
  mem : Mem
  /-- Kernel calls made. -/
  calls : List SysCall
  /-- Whether the caller has a page mapped at UTEMP. -/
  utemp_mapped : Bool
  /-- Whether the page was mapped in the child at `USTACKTOP - PGSIZE`. -/
  child_mapped : Bool
  /-- The value stored to `*init_esp`, when it was stored. -/
  init_esp : Option Nat

/-- Lines 186-188: `string_size` after the counting loop, started from `acc`. -/
def string_size (acc : Nat) : List CStr → Nat
  | [] => acc
  | s :: rest => string_size (add32 acc (strlen s + 1)) rest

/-- Line 195: `string_store = UTEMP + PGSIZE - string_size`. -/
def string_store0 (L : Layout) (argv : List CStr) : Nat :=
  sub32 (add32 L.UTEMP L.PGSIZE) (string_size 0 argv)

/-- Line 198: `argv_store = ROUNDDOWN(string_store, 4) - 4 * (argc + 1)`. -/
def argv_store0 (L : Layout) (argv : List CStr) : Nat :=
  sub32 (ROUNDDOWN (string_store0 L argv) 4) (4 * (argv.length + 1))

/-- What the copy loop of lines 221-225 leaves in memory when every store
succeeds, from index `i` with `string_store = ss`. -/
def init_loop_raw (L : Layout) (argv_store : Nat) : Nat → Nat → List CStr → Mem → Mem
  | _, _, [], m => m
  | i, ss, s :: rest, m =>
      init_loop_raw L argv_store (i + 1) (add32 ss (strlen s + 1)) rest
        (store32 (strcpy_raw m ss s) (add32 argv_store (4 * i)) (UTEMP2USTACK L ss))

/-- What lines 221-241 leave in memory when every store succeeds. -/
def init_fill_raw (L : Layout) (argv : List CStr) (m : Mem) : Mem :=
  let av := argv_store0 L argv
  let m1 := init_loop_raw L av 0 (string_store0 L argv) argv m
  let m2 := store32 m1 (add32 av (4 * argv.length)) 0
  let m3 := store32 m2 (sub32 av 4) (UTEMP2USTACK L av)
  store32 m3 (sub32 av 8) (argv.length % W32)

/-- Lines 221-225: the copy loop from index `i` with `string_store = ss`. -/
def init_loop (L : Layout) (argv_store : Nat) : Nat → Nat → List CStr → Mem → Option Mem
  | _, _, [], m => some m
  | i, ss, s :: rest, m =>
    (strcpy L m ss s).bind fun m1 =>
    (page_store32 L m1 (add32 argv_store (4 * i)) (UTEMP2USTACK L ss)).bind fun m2 =>
    init_loop L argv_store (i + 1) (add32 ss (strlen s + 1)) rest m2

/-- Lines 221-241: all stores into the staging page. -/
def init_fill (L : Layout) (argv : List CStr) (m : Mem) : Option Mem :=
  let av := argv_store0 L argv
  (init_loop L av 0 (string_store0 L argv) argv m).bind fun m1 =>
  (page_store32 L m1 (add32 av (4 * argv.length)) 0).bind fun m2 =>
  (page_store32 L m2 (sub32 av 4) (UTEMP2USTACK L av)).bind fun m3 =>
  page_store32 L m3 (sub32 av 8) (argv.length % W32)

/-- Result of a call of init_stack: it returned, or it stored outside the
staging page after the kernel calls `calls`. -/
inductive StackRes where
  | ret (o : StackOut)
  | fault (calls : List SysCall)

/-- The mappings that the kernel calls of init_stack act on, with the calls
made so far. -/
structure StackMaps where
  /-- Kernel calls made, oldest first. -/
  calls : List SysCall
  /-- Whether the caller has a page mapped at UTEMP. -/
  utemp_mapped : Bool
  /-- Whether the child has a page mapped at `USTACKTOP - PGSIZE`. -/
  child_mapped : Bool

/-- Modelled from the spec: the call sys_page_alloc(0, UTEMP, perm) of the
kernel returning `r`; when it succeeds a page is mapped at UTEMP in the
caller. -/
def StackMaps.sys_page_alloc (L : Layout) (s : StackMaps) (r : Int) : StackMaps :=
  { calls := s.calls ++ [.page_alloc L.UTEMP],
    utemp_mapped := if r < 0 then s.utemp_mapped else true,
    child_mapped := s.child_mapped }

/-- Modelled from the spec: the call
sys_page_map(0, UTEMP, child, USTACKTOP - PGSIZE, perm) of the kernel returning
`r`; when it succeeds the child has at `USTACKTOP - PGSIZE` the page that the
caller has at UTEMP. -/
def StackMaps.sys_page_map (L : Layout) (s : StackMaps) (r : Int) : StackMaps :=
  { calls := s.calls ++ [.page_map L.UTEMP (L.USTACKTOP - L.PGSIZE)],
    utemp_mapped := s.utemp_mapped,
    child_mapped := if r < 0 then s.child_mapped else s.utemp_mapped }

/-- Modelled from the spec: the call sys_page_unmap(0, UTEMP) of the kernel
returning `r`; when it succeeds the caller has no page mapped at UTEMP. -/
def StackMaps.sys_page_unmap (L : Layout) (s : StackMaps) (r : Int) : StackMaps :=
  { calls := s.calls ++ [.page_unmap L.UTEMP],
    utemp_mapped := if r < 0 then s.utemp_mapped else false,
    child_mapped := s.child_mapped }

/-- What init_stack leaves behind when it returns `r` with the caller's memory
`m` and the mappings `s`. -/
def StackMaps.out (s : StackMaps) (r : Int) (m : Mem) (esp : Option Nat) : StackOut :=
  { ret := r, mem := m, calls := s.calls, utemp_mapped := s.utemp_mapped,
    child_mapped := s.child_mapped, init_esp := esp }

/-- The function init_stack. The caller's memory on entry is `m`; `mapped`
says whether a page is mapped at UTEMP on entry; the child has no page at
`USTACKTOP - PGSIZE` on entry. -/
def init_stack (L : Layout) (sys : StackSys) (argv : List CStr) (m : Mem)
    (mapped : Bool) : StackRes :=
  let av := argv_store0 L argv
  let s0 : StackMaps := { calls := [], utemp_mapped := mapped, child_mapped := false }
  if sub32 av 8 < L.UTEMP then .ret (s0.out (-(L.E_NO_MEM : Int)) m none)
  else
    let s1 := s0.sys_page_alloc L sys.r_alloc
    if sys.r_alloc < 0 then .ret (s1.out sys.r_alloc m none)
    else
      match init_fill L argv (memset0 m L.UTEMP L.PGSIZE) with
      | none => .fault s1.calls
      | some m1 =>
        let esp := UTEMP2USTACK L (sub32 av 8)
        let s2 := s1.sys_page_map L sys.r_map
        if sys.r_map < 0 then
          .ret ((s2.sys_page_unmap L sys.r_unmap_err).out sys.r_map m1 (some esp))
        else
          let s3 := s2.sys_page_unmap L sys.r_unmap
          if sys.r_unmap < 0 then
            .ret ((s3.sys_page_unmap L sys.r_unmap_err).out sys.r_unmap m1 (some esp))
          else .ret (s3.out 0 m1 (some esp))

/-- The byte the child sees at address `a` of its stack page: the staging page
is the same physical page, mapped at `USTACKTOP - PGSIZE`. -/
def child_stack_byte (L : Layout) (o : StackOut) (a : Nat) : Nat :=
  o.mem (a - (L.USTACKTOP - L.PGSIZE) + L.UTEMP)

/-- All kernel calls succeed. -/
def sysOK : StackSys := { r_alloc := 0, r_map := 0, r_unmap := 0, r_unmap_err := 0 }

/-- The call of sys_page_map fails with code -4 and the other kernel calls
succeed. -/
def sysMapFails : StackSys := { r_alloc := 0, r_map := -4, r_unmap := 0, r_unmap_err := 0 }

/-! ## The segment loops of spawn (spawn.c lines 62-143) -/

/-- Page-table permission bits used by `spawn.c`. -/
structure Perm where
  P : Bool
  U : Bool
  W : Bool
deriving DecidableEq, Repr

/-- The bits `PTE_P | PTE_U`. -/
def PTE_P_U : Perm := { P := true, U := true, W := false }

/-- The bits `PTE_P | PTE_U | PTE_W`. -/
def PTE_P_U_W : Perm := { P := true, U := true, W := true }

/-- Identity of a physical page: the block-cache page holding the file block
that starts at a file offset, or the `n`-th page handed out by
`sys_page_alloc`. -/
inductive PageId where
  | file (off : Nat)
  | anon (n : Nat)
deriving DecidableEq, Repr

/-- The fields of `struct Trapframe` that spawn assigns by name; `tf_regs`
stands for all the other fields together. -/
structure Trapframe where
  tf_eip : Nat
  tf_esp : Nat
  tf_regs : Nat
deriving DecidableEq, Repr

/-- Collaborator calls made by spawn, with their arguments: those of the
segment loops first, then `open`, the `read` of the header, `sys_exofork`,
`init_stack`, `sys_env_set_trapframe` and `sys_env_set_status`. -/
inductive Call where
  | seek (off : Nat)
  | read_map (off : Nat)
  | read (n : Nat)
  | page_alloc
  | page_map (src : Option PageId) (va : Nat) (perm : Perm)
  | page_unmap
  | open_prog
  | read_header
  | exofork
  | init_stack
  | set_trapframe (tf : Trapframe)
  | set_status
deriving DecidableEq, Repr

/-- The fields of `struct Proghdr` read by spawn; `writable` is
`(p_flags & ELF_PROG_FLAG_WRITE) != 0`. -/
structure Proghdr where
  p_offset : Nat
  p_va : Nat
  p_filesz : Nat
  p_memsz : Nat
  writable : Bool

/-- The fields are 32-bit values. -/
def Proghdr.WF (ph : Proghdr) : Prop :=
  ph.p_offset < W32 ∧ ph.p_va < W32 ∧ ph.p_filesz < W32 ∧ ph.p_memsz < W32

instance (ph : Proghdr) : Decidable ph.WF := by
  unfold Proghdr.WF; exact inferInstance

/-- Modelled from the spec: the state of the kernel and file-system
collaborators of the segment loops (`seek`, `read`, `read_map`,
`sys_page_alloc`, `sys_page_map`, `sys_page_unmap`), which are not part of the
sources. They behave as section 6 of the specification says; the `k`-th call
made fails with code `rc k` when that is negative, and `read` transfers the
full count when it succeeds. -/
structure World where
  /-- Bytes of the open program file by offset. -/
  file : Nat → Nat
  /-- File position of the descriptor. -/
  fpos : Nat
  /-- Contents of the pages handed out by `sys_page_alloc`, by page offset. -/
  anon : Nat → Nat → Nat
  /-- Number of pages handed out so far. -/
  next : Nat
  /-- The page mapped at UTEMP in the caller. -/
  utemp : Option Nat
  /-- Page table of the child, by page-aligned address. -/
  child : Nat → Option (PageId × Perm)
  /-- Calls made so far, oldest first. -/
  trace : List Call
  /-- Return code of the `k`-th call. -/
  rc : Nat → Int

/-- Return code of the call about to be made. -/
def World.code (w : World) : Int := w.rc w.trace.length

/-- Record a call. -/
def World.log (w : World) (c : Call) : World := { w with trace := w.trace ++ [c] }

/-- Result of running a piece of spawn: completed, returned the error code `r`
(the failed call is the last of the trace of `w`), or the iteration bound ran
out. -/
inductive Outcome where
  | done (w : World)
  | fail (r : Int) (w : World)
  | fuel

/-- Modelled from the spec: the call seek(fdnum, off) of the file library,
which sets the file position; spawn ignores its result. -/
def do_seek (w : World) (off : Nat) : World :=
  if w.code < 0 then w.log (.seek off)
  else { w.log (.seek off) with fpos := off }

/-- Modelled from the spec: the call sys_page_alloc(0, UTEMP, PTE_P|PTE_U|PTE_W)
of the kernel, which maps a fresh zero-filled page, followed by
memset(UTEMP, 0, PGSIZE). -/
def do_alloc (w : World) : Except (Int × World) World :=
  if w.code < 0 then .error (w.code, w.log .page_alloc)
  else .ok { w.log .page_alloc with
             anon := fun n => if n = w.next then (fun _ => 0) else w.anon n,
             utemp := some w.next, next := w.next + 1 }

/-- Modelled from the spec: the call read(fdnum, UTEMP, n) of the file library,
a sequential read of `n` bytes from the file position; the bytes go to the
start of the page at UTEMP. -/
def do_read (w : World) (n : Nat) : Except (Int × World) World :=
  if w.code < 0 then .error (w.code, w.log (.read n))
  else .ok { w.log (.read n) with
             anon := fun p => if some p = w.utemp
                        then (fun o => if o < n then w.file (w.fpos + o) else w.anon p o)
                        else w.anon p,
             fpos := w.fpos + n }

/-- Modelled from the spec: the call sys_page_map(0, src, child, va, perm) of
the kernel, which maps the caller's page into the child at `va`. -/
def do_map (w : World) (src : Option PageId) (va : Nat) (perm : Perm) :
    Except (Int × World) World :=
  if w.code < 0 then .error (w.code, w.log (.page_map src va perm))
  else .ok { w.log (.page_map src va perm) with
             child := fun a => if a = va then src.map (fun p => (p, perm)) else w.child a }

/-- Modelled from the spec: the call sys_page_unmap(0, UTEMP) of the kernel. -/
def do_unmap (w : World) : Except (Int × World) World :=
  if w.code < 0 then .error (w.code, w.log .page_unmap)
  else .ok { w.log .page_unmap with utemp := none }

/-- Modelled from the spec: the call read_map(fdnum, off, &blk) of the file
library; on success `blk` is the shared block-cache page backing the file
block at `off`, not a private copy. -/
def do_read_map (w : World) (off : Nat) : Except (Int × World) (World × PageId) :=
  if w.code < 0 then .error (w.code, w.log (.read_map off))
  else .ok (w.log (.read_map off), .file off)

/-- Lines 84-89: the loop over the pages of a read-only segment, from `i`. -/
def ro_loop (L : Layout) (start stop va : Nat) : Nat → Nat → World → Outcome
  | 0, _, _ => .fuel
  | fuel + 1, i, w =>
    if i < stop then
      match do_read_map w i with
      | .error e => .fail e.1 e.2
      | .ok (w1, blk) =>
        match do_map w1 (some blk) (add32 va (sub32 i start)) PTE_P_U with
        | .error e => .fail e.1 e.2
        | .ok w2 => ro_loop L start stop va fuel (add32 i L.PGSIZE) w2
    else .done w

/-- Lines 123-141: the loop over the pages of a writable segment, from `i`. -/
def rw_loop (L : Layout) (ph : Proghdr) (start stop va : Nat) :
    Nat → Nat → World → Outcome
  | 0, _, _ => .fuel
  | fuel + 1, i, w =>
    if i < stop then
      match do_alloc w with
      | .error e => .fail e.1 e.2
      | .ok w1 =>
        let fend := add32 ph.p_offset ph.p_filesz
        let rd : Except (Int × World) World :=
          if i < fend then
            if sub32 fend i ≥ L.PGSIZE then do_read w1 L.PGSIZE
            else do_read w1 (sub32 fend i)
          else .ok w1
        match rd with
        | .error e => .fail e.1 e.2
        | .ok w2 =>
          match do_map w2 (w2.utemp.map PageId.anon) (add32 va (sub32 i start)) PTE_P_U_W with
          | .error e => .fail e.1 e.2
          | .ok w3 =>
            match do_unmap w3 with
            | .error e => .fail e.1 e.2
            | .ok w4 => rw_loop L ph start stop va fuel (add32 i L.PGSIZE) w4
    else .done w

/-- Lines 77-142: one loadable segment whose sizes passed the check of line 75. -/
def load_segment (L : Layout) (ph : Proghdr) (fuel : Nat) (w : World) : Outcome :=
  if ph.writable = false then
    ro_loop L (ROUNDDOWN ph.p_offset L.PGSIZE)
      (ROUNDUP (add32 ph.p_filesz ph.p_offset) L.PGSIZE)
      (ROUNDDOWN ph.p_va L.PGSIZE) fuel (ROUNDDOWN ph.p_offset L.PGSIZE) w
  else
    rw_loop L ph (ROUNDDOWN ph.p_offset L.PGSIZE)
      (ROUNDUP (add32 ph.p_memsz ph.p_offset) L.PGSIZE)
      (ROUNDDOWN ph.p_va L.PGSIZE) fuel (ROUNDDOWN ph.p_offset L.PGSIZE)
      (do_seek w ph.p_offset)

/-- The byte backing page `p` at page offset `o`. -/
def World.page_byte (w : World) : PageId → Nat → Nat
  | .file off, o => w.file (off + o)
  | .anon n, o => w.anon n o

/-- The byte the child sees at address `a`, when a page is mapped there. -/
def World.child_byte (L : Layout) (w : World) (a : Nat) : Option Nat :=
  (w.child (ROUNDDOWN a L.PGSIZE)).map (fun e => w.page_byte e.1 (a % L.PGSIZE))

/-- A world before any call: empty child, every call succeeds. -/
def World.init (file : Nat → Nat) : World :=
  { file := file, fpos := 0, anon := fun _ _ => 0, next := 0, utemp := none,
    child := fun _ => none, trace := [], rc := fun _ => 0 }

/-- The world in which a piece of spawn completed. -/
def Outcome.world? : Outcome → Option World
  | .done w => some w
  | _ => none

/-! ## spawn (spawn.c lines 16-159) -/

/-- What spawn reads of the ELF header in `elf_buf`. -/
structure Elf where
  /-- The test `e_magic == ELF_MAGIC`. -/
  magic_ok : Bool
  e_entry : Nat
  /-- The `e_phnum` program headers at `e_phoff`, each with the test
  `p_type == ELF_PROG_LOAD`. -/
  phs : List (Bool × Proghdr)

/-- What spawn finds around it besides the collaborators of `World`. -/
structure SpawnEnv where
  /-- The contents of `elf_buf` after the `read` of line 33. -/
  hdr : Elf
  /-- The trapframe `envs[ENVX(child)].env_tf` that sys_exofork gave the child. -/
  env_tf : Trapframe
  /-- Return codes of the kernel calls made by init_stack. -/
  sys : StackSys
  /-- Memory of the caller on entry to init_stack. -/
  mem : Mem

/-- Result of a call of spawn: it returned `r`, it called `panic`, init_stack
stored outside the staging page, or the iteration bound ran out. -/
inductive SpawnRes where
  | ret (r : Int) (w : World)
  | panicked (w : World)
  | fault (w : World)
  | fuel

/-- The world after a call of init_stack that returned `o`: when the staging
page was allocated it is page number `w.next`, holding what init_stack stored,
and it is mapped at `USTACKTOP - PGSIZE` in the child when `sys_page_map`
succeeded. -/
def World.after_stack (L : Layout) (w : World) (o : StackOut) : World :=
  { w.log .init_stack with
    anon := fun n => if n = w.next ∧ o.init_esp.isSome = true
              then (fun off => o.mem (L.UTEMP + off)) else w.anon n,
    next := if o.init_esp.isSome then w.next + 1 else w.next,
    utemp := if o.utemp_mapped then (if o.init_esp.isSome then some w.next else w.utemp)
             else none,
    child := fun a => if a = L.USTACKTOP - L.PGSIZE ∧ o.child_mapped = true
               then some (.anon w.next, PTE_P_U_W) else w.child a }

/-- Lines 62-143: the loop over the program headers. An error result is what
spawn does instead of completing the loop. -/
def spawn_segments (L : Layout) (fuel : Nat) : List (Bool × Proghdr) → World →
    Except SpawnRes World
  | [], w => .ok w
  | (load, ph) :: rest, w =>
    if load = false then spawn_segments L fuel rest w
    else if ph.p_filesz > ph.p_memsz then .error (.panicked w)
    else
      match load_segment L ph fuel w with
      | .done w1 => spawn_segments L fuel rest w1
      | .fail r w1 => .error (.ret r w1)
      | .fuel => .error .fuel

/-- Modelled from the spec: the call open(prog, O_RDWR) of the file library
when it succeeds; the new descriptor is at file position 0. -/
def do_open (w : World) : World := { w.log .open_prog with fpos := 0 }

/-- Modelled from the spec: the call read(fdnum, elf_buf, 512) of the file
library, a sequential read that advances the file position by the 512 bytes
it transfers; spawn ignores its result. -/
def do_read_header (w : World) : World :=
  if w.code < 0 then w.log .read_header
  else { w.log .read_header with fpos := w.fpos + 512 }

/-- The function spawn. `open`, `read`, `sys_exofork`, `sys_env_set_trapframe`
and `sys_env_set_status` return the codes of `World.rc` like the collaborators
of the segment loops; a non-negative code of `sys_exofork` is the envid of the
child. -/
def spawn (L : Layout) (e : SpawnEnv) (argv : List CStr) (fuel : Nat) (w : World) :
    SpawnRes :=
  if w.code < 0 then .ret w.code (w.log .open_prog)
  else
    let w1 := do_read_header (do_open w)
    if e.hdr.magic_ok = false then .panicked w1
    else if w1.code < 0 then .ret w1.code (w1.log .exofork)
    else
      let child := w1.code
      let w2 := w1.log .exofork
      match init_stack L e.sys argv e.mem w2.utemp.isSome with
      | .fault _ => .fault (w2.log .init_stack)
      | .ret o =>
        let w3 := w2.after_stack L o
        if o.ret < 0 then .ret o.ret w3
        else
          match spawn_segments L fuel e.hdr.phs w3 with
          | .error res => res
          | .ok w4 =>
            let child_tf : Trapframe :=
              { tf_eip := e.hdr.e_entry,
                tf_esp := o.init_esp.getD e.env_tf.tf_esp,
                tf_regs := e.env_tf.tf_regs }
            if w4.code < 0 then .ret w4.code (w4.log (.set_trapframe child_tf))
            else
              let w5 := w4.log (.set_trapframe child_tf)
              if w5.code < 0 then .ret w5.code (w5.log .set_status)
              else .ret child (w5.log .set_status)

/-! ## The pipe device (pipe.c) -/

/-- Largest value of `int` and `off_t`. -/
def INT_MAX : Int := 2147483647

/-- Smallest value of `int` and `off_t`. -/
def INT_MIN : Int := -2147483648

/-- Reduce an integer to the signed 32-bit range (two's complement). -/
def wrap32 (x : Int) : Int := (x + 2147483648) % 4294967296 - 2147483648

/-- The constant PIPEBUFSIZ of pipe.c line 20. -/
def PIPEBUFSIZ : Nat := 32

/-- The struct Pipe of pipe.c lines 22-26; `p_buf` is read and written only at
the indices `0 .. PIPEBUFSIZ - 1`. -/
structure Pipe where
  p_rpos : Int
  p_wpos : Int
  p_buf : Nat → Nat

/-- The pipe of a freshly allocated (zero-filled) data page. -/
def Pipe.fresh : Pipe := { p_rpos := 0, p_wpos := 0, p_buf := fun _ => 0 }

/-- The counters are 32-bit values and the read counter is non-negative. -/
def Pipe.WF (p : Pipe) : Prop :=
  0 ≤ p.p_rpos ∧ p.p_rpos ≤ INT_MAX ∧ INT_MIN ≤ p.p_wpos ∧ p.p_wpos ≤ INT_MAX

/-- The index expression `pos % PIPEBUFSIZ` of C (remainder truncated towards
zero); `none` when it falls outside `p_buf`. -/
def cell (pos : Int) : Option Nat :=
  if 0 ≤ Int.tmod pos PIPEBUFSIZ then some (Int.tmod pos PIPEBUFSIZ).toNat else none

/-- Result of one byte-transfer step. -/
inductive StepRes where
  /-- The byte `b` was transferred, leaving the pipe `p`. -/
  | moved (p : Pipe) (b : Nat)
  /-- The loop condition was false: nothing was transferred. -/
  | idle
  /-- An access outside `p_buf`. -/
  | fault

/-- Lines 145-148: one iteration of the copy loop of piperead, guarded by
`p_rpos < p_wpos`. -/
def piperead_step (p : Pipe) : StepRes :=
  if p.p_rpos < p.p_wpos then
    match cell p.p_rpos with
    | none => .fault
    | some k => .moved { p with p_rpos := wrap32 (p.p_rpos + 1) } (p.p_buf k)
  else .idle

/-- The test `p_wpos - p_rpos >= PIPEBUFSIZ` of line 168. -/
def pipe_full (p : Pipe) : Prop := wrap32 (p.p_wpos - p.p_rpos) ≥ PIPEBUFSIZ

instance (p : Pipe) : Decidable (pipe_full p) := by
  unfold pipe_full; exact inferInstance

/-- Lines 168-174: one iteration of the loop of pipewrite when the buffer is
not full. -/
def pipewrite_step (p : Pipe) (b : Nat) : StepRes :=
  if pipe_full p then .idle
  else
    match cell p.p_wpos with
    | none => .fault
    | some k =>
      .moved { p with p_buf := fun j => if j = k then b else p.p_buf j,
                      p_wpos := wrap32 (p.p_wpos + 1) } b

/-- One sampling round of `_pipeisclosed` (lines 96-99). -/
structure Sample where
  rc1 : Int
  refd : Int
  refp : Int
  rc2 : Int

/-- The function _pipeisclosed (lines 75-108) over the rounds the loop makes;
`none` while no round has been accepted. -/
def _pipeisclosed : List Sample → Option Int
  | [] => none
  | s :: rest =>
    if s.rc1 = s.rc2 then (if s.refd = s.refp then some 1 else some 0)
    else _pipeisclosed rest

/-- The function pipeisclosed (lines 110-121); `r` is the result of fd_lookup. -/
def pipeisclosed (r : Int) (samples : List Sample) : Option Int :=
  if r < 0 then some r else _pipeisclosed samples

/-- Result of a call of piperead or pipewrite. -/
inductive IoRes where
  /-- Returned `r` having transferred the bytes `out`. -/
  | ret (r : Int) (out : List Nat) (p : Pipe)
  /-- Called sys_yield having transferred `out`. -/
  | yield (out : List Nat) (p : Pipe)
  /-- An access outside `p_buf`. -/
  | fault

/-- Lines 145-148: the copy loop of piperead with `k` iterations left; `out`
are the bytes already stored to `vbuf`. -/
def piperead_loop : Nat → Pipe → List Nat → Option (List Nat × Pipe)
  | 0, p, out => some (out, p)
  | k + 1, p, out =>
    match piperead_step p with
    | .moved p1 b => piperead_loop k p1 (out ++ [b])
    | .idle => some (out, p)
    | .fault => none

/-- The function piperead (lines 123-150), up to its return or its first
sys_yield; `closed` answers `_pipeisclosed(fd, pipe) != 0` if it is asked.
After a yield the loop of line 139 starts over on the pipe as it is then. -/
def piperead (p : Pipe) (n : Nat) (closed : Bool) : IoRes :=
  if p.p_rpos ≥ p.p_wpos then
    if closed then .ret 0 [] p else .yield [] p
  else
    match piperead_loop n p [] with
    | none => .fault
    | some (out, p1) => .ret (wrap32 out.length) out p1

/-- What happens at one pass through the body of the loop of lines 168-172:
the answer of `_pipeisclosed`, and the number of bytes the reader takes out
during the sys_yield that follows. -/
structure Yield where
  closed : Bool
  reads : Nat

/-- The reader takes out up to `k` bytes. -/
def drain : Nat → Pipe → Pipe
  | 0, p => p
  | k + 1, p =>
    match piperead_step p with
    | .moved p1 _ => drain k p1
    | _ => p

/-- Result of the wait loop of pipewrite. -/
inductive Wait where
  | ready (p : Pipe) (env : List Yield)
  | closed (p : Pipe)
  | blocked (p : Pipe)

/-- Lines 168-172: the wait loop of pipewrite. -/
def wait_space : List Yield → Pipe → Wait
  | [], p => if pipe_full p then .blocked p else .ready p []
  | y :: env, p =>
    if pipe_full p then
      if y.closed then .closed p else wait_space env (drain y.reads p)
    else .ready p (y :: env)

/-- Lines 167-176: the loop of pipewrite over the bytes of `vbuf` not yet
written; `acc` are the bytes already appended (`i = acc.length`). The result
`yield` stands for a call that is still waiting when the schedule `env` ends. -/
def pipewrite_loop : List Nat → List Nat → List Yield → Pipe → IoRes
  | [], acc, _, p => .ret (wrap32 acc.length) acc p
  | b :: bs, acc, env, p =>
    match wait_space env p with
    | .blocked p1 => .yield acc p1
    | .closed p1 => .ret 0 acc p1
    | .ready p1 env1 =>
      match pipewrite_step p1 b with
      | .moved p2 _ => pipewrite_loop bs (acc ++ [b]) env1 p2
      | _ => .fault

/-- The function pipewrite (lines 152-177) with `n = vbuf.length`. -/
def pipewrite (p : Pipe) (vbuf : List Nat) (env : List Yield) : IoRes :=
  pipewrite_loop vbuf [] env p

/-! ## pipe (pipe.c lines 28-73) -/

/-- The caller's address space: the physical page mapped at each page
address. -/
abbrev AddrSpace := Nat → Option Nat

/-- Modelled from the spec: what sys_page_alloc(0, va, perm) of the kernel does
to the caller's address space when it succeeds, `n` being the fresh page. -/
def as_alloc (s : AddrSpace) (va n : Nat) : AddrSpace :=
  fun a => if a = va then some n else s a

/-- Modelled from the spec: what sys_page_map(0, src, 0, dst, perm) of the
kernel does to the caller's address space when it succeeds. -/
def as_map (s : AddrSpace) (src dst : Nat) : AddrSpace :=
  fun a => if a = dst then s src else s a

/-- Modelled from the spec: the call sys_page_unmap(0, va) of the kernel with
return code `r`; pipe does not look at `r`. -/
def as_unmap (s : AddrSpace) (r : Int) (va : Nat) : AddrSpace :=
  if r < 0 then s else fun a => if a = va then none else s a

/-- The collaborators of pipe: the return codes of its calls in source order,
the descriptor pages that the two calls of fd_alloc store, and the functions
fd2data and fd2num of the descriptor library. -/
structure PipeSys where
  r_fd0 : Int
  fd0 : Nat
  r_page0 : Int
  r_fd1 : Int
  fd1 : Nat
  r_page1 : Int
  r_data : Int
  r_map : Int
  /-- Return code of `sys_page_unmap(0, va)` at `err3`. -/
  r_unmap_va : Int
  /-- Return code of `sys_page_unmap(0, fd1)` at `err2`. -/
  r_unmap_fd1 : Int
  /-- Return code of `sys_page_unmap(0, fd0)` at `err1`. -/
  r_unmap_fd0 : Int
  fd2data : Nat → Nat
  fd2num : Nat → Int

/-- Kernel and library calls of pipe, recorded in the order they are made. -/
inductive PipeCall where
  | fd_alloc
  | page_alloc (va : Nat)
  | page_map (src dst : Nat)
  | page_unmap (va : Nat)
deriving DecidableEq, Repr

/-- What a call of pipe leaves behind. -/
structure PipeOut where
  /-- Return value. -/
  ret : Int
  /-- Address space of the caller. -/
  space : AddrSpace
  /-- The values stored to `pfd[0]` and `pfd[1]`, when they were stored. -/
  pfd : Option (Int × Int)
  /-- Calls made. -/
  calls : List PipeCall

/-- The function pipe. The caller's address space on entry is `s`; the pages
that sys_page_alloc hands out are numbered from `n`. The stores of lines 52-56
into the two descriptor pages change no mapping and are not recorded. -/
def pipe (sys : PipeSys) (s : AddrSpace) (n : Nat) : PipeOut :=
  let va := sys.fd2data sys.fd0
  let err1 (r : Int) (s1 : AddrSpace) (calls : List PipeCall) : PipeOut :=
    { ret := r, space := as_unmap s1 sys.r_unmap_fd0 sys.fd0, pfd := none,
      calls := calls ++ [.page_unmap sys.fd0] }
  let err2 (r : Int) (s1 : AddrSpace) (calls : List PipeCall) : PipeOut :=
    err1 r (as_unmap s1 sys.r_unmap_fd1 sys.fd1) (calls ++ [.page_unmap sys.fd1])
  let err3 (r : Int) (s1 : AddrSpace) (calls : List PipeCall) : PipeOut :=
    err2 r (as_unmap s1 sys.r_unmap_va va) (calls ++ [.page_unmap va])
  if sys.r_fd0 < 0 then
    { ret := sys.r_fd0, space := s, pfd := none, calls := [.fd_alloc] }
  else if sys.r_page0 < 0 then
    { ret := sys.r_page0, space := s, pfd := none,
      calls := [.fd_alloc, .page_alloc sys.fd0] }
  else
    let s1 := as_alloc s sys.fd0 n
    let c1 := [PipeCall.fd_alloc, .page_alloc sys.fd0, .fd_alloc]
    if sys.r_fd1 < 0 then err1 sys.r_fd1 s1 c1
    else if sys.r_page1 < 0 then err1 sys.r_page1 s1 (c1 ++ [.page_alloc sys.fd1])
    else
      let s2 := as_alloc s1 sys.fd1 (n + 1)
      let c2 := c1 ++ [.page_alloc sys.fd1, .page_alloc va]
      if sys.r_data < 0 then err2 sys.r_data s2 c2
      else
        let s3 := as_alloc s2 va (n + 2)
        let c3 := c2 ++ [.page_map va (sys.fd2data sys.fd1)]
        if sys.r_map < 0 then err3 sys.r_map s3 c3
        else
          { ret := 0, space := as_map s3 va (sys.fd2data sys.fd1),
            pfd := some (sys.fd2num sys.fd0, sys.fd2num sys.fd1),
            calls := c3 }

/-! ## Inputs and auxiliary notions used in the statements -/

/-- The number of bytes the argument strings take, each with its NUL. -/
def total_bytes (argv : List CStr) : Nat := (argv.map (fun s => strlen s + 1)).sum

/-- One million empty argument strings. -/
def argvBig : List CStr := List.replicate 1000000 []

/-- The argument list `["a", "bc"]`. -/
def argvAB : List CStr := [[97], [98, 99]]

/-- The address, in the child, of the pointer array that init_stack builds. -/
def child_argv (L : Layout) (argv : List CStr) : Nat :=
  UTEMP2USTACK L (argv_store0 L argv)

/-- The calls expected of the read-only loop for the `n` pages from page
number `j` of a segment: for each, `read_map` at the file offset and
`sys_page_map` of the page it returned, read-only. -/
def ro_trace (L : Layout) (start va : Nat) : Nat → Nat → List Call
  | _, 0 => []
  | j, n + 1 =>
    .read_map (start + j * L.PGSIZE) ::
    .page_map (some (.file (start + j * L.PGSIZE))) (add32 va (j * L.PGSIZE)) PTE_P_U ::
    ro_trace L start va (j + 1) n

/-- The world after one pass of the writable loop in which every call
succeeded: `n` bytes were read into a fresh page, which was mapped at `a` in
the child and unmapped from the caller. -/
def World.after_page (w : World) (a n : Nat) (calls : List Call) : World :=
  { file := w.file, fpos := w.fpos + n,
    anon := fun p => if p = w.next
      then (fun o => if o < n then w.file (w.fpos + o) else 0) else w.anon p,
    next := w.next + 1, utemp := none,
    child := fun x => if x = a then some (PageId.anon w.next, PTE_P_U_W) else w.child x,
    trace := w.trace ++ calls, rc := w.rc }

/-- A writable segment whose file offset is not page aligned: 16 bytes at file
offset 0x1020, 32 bytes of memory at 0x802020. -/
def phUnaligned : Proghdr :=
  { p_offset := 4128, p_va := 8396832, p_filesz := 16, p_memsz := 32, writable := true }

/-- A read-only segment whose file range ends at 2^32. -/
def phWrap : Proghdr :=
  { p_offset := 4096, p_va := 8388608, p_filesz := 4294963200, p_memsz := 4294963200,
    writable := false }

/-- A read-only segment of 5000 bytes at file offset 0x1020. -/
def phText : Proghdr :=
  { p_offset := 4128, p_va := 8392736, p_filesz := 5000, p_memsz := 5000, writable := false }

/-- The invariant `0 <= writePos - readPos <= PIPEBUFSIZ` of the pipe buffer. -/
def PipeInv (p : Pipe) : Prop :=
  0 ≤ p.p_wpos - p.p_rpos ∧ p.p_wpos - p.p_rpos ≤ PIPEBUFSIZ

instance (p : Pipe) : Decidable (PipeInv p) := by
  unfold PipeInv; exact inferInstance

/-- One byte-transfer attempt: by the reader, or by the writer with byte `b`. -/
inductive Op where
  | rd
  | wr (b : Nat)

/-- A pipe together with the bytes delivered by reads and the bytes accepted
by writes so far. -/
structure Hist where
  p : Pipe
  delivered : List Nat
  accepted : List Nat

/-- The history of a freshly created pipe. -/
def Hist.fresh : Hist := { p := Pipe.fresh, delivered := [], accepted := [] }

/-- Perform one byte-transfer attempt; an attempt whose loop condition is false
transfers nothing. `none` on an access outside `p_buf`. -/
def exec (h : Hist) : Op → Option Hist
  | .rd =>
    match piperead_step h.p with
    | .moved p1 b => some { h with p := p1, delivered := h.delivered ++ [b] }
    | .idle => some h
    | .fault => none
  | .wr b =>
    match pipewrite_step h.p b with
    | .moved p1 c => some { h with p := p1, accepted := h.accepted ++ [c] }
    | .idle => some h
    | .fault => none

/-- Perform a sequence of byte-transfer attempts. -/
def run (h : Hist) : List Op → Option Hist
  | [] => some h
  | o :: os => (exec h o).bind (fun h1 => run h1 os)

/-- Number of write attempts in a sequence. -/
def wr_count : List Op → Nat
  | [] => 0
  | .rd :: os => wr_count os
  | .wr _ :: os => wr_count os + 1

/-- The sequence "write the byte 7, read one byte", `m` times. -/
def pairs : Nat → List Op
  | 0 => []
  | m + 1 => .wr 7 :: .rd :: pairs m

/-- What the transfer of bytes through the ring must keep true: the counters
count the bytes delivered and accepted, the bytes delivered are the first
accepted ones in order, and every accepted byte not yet delivered is still in
its cell. -/
def Coherent (h : Hist) : Prop :=
  h.p.p_rpos = h.delivered.length ∧ h.p.p_wpos = h.accepted.length ∧
  h.delivered = h.accepted.take h.delivered.length ∧
  h.delivered.length ≤ h.accepted.length ∧
  h.accepted.length ≤ h.delivered.length + PIPEBUFSIZ ∧
  ∀ k : Nat, h.delivered.length ≤ k → k < h.accepted.length →
    h.accepted[k]? = some (h.p.p_buf (k % PIPEBUFSIZ))

/-- The value returned, the bytes transferred and the two counters of a call
that returned. -/
def IoRes.summary : IoRes → Option (Int × List Nat × Int × Int)
  | .ret r out p => some (r, out, p.p_rpos, p.p_wpos)
  | _ => none

/-- Forty bytes written and read through the 32-byte ring, with the writer
finding the buffer full on the way. -/
def opsRing : List Op :=
  (List.range 36).map Op.wr ++ (List.replicate 10 Op.rd) ++
    [Op.wr 36, Op.wr 37, Op.wr 38, Op.wr 39] ++ List.replicate 35 Op.rd

/-- The value returned by a call of spawn that returned, the calls it made and
whether it left a page mapped at UTEMP in the caller. -/
def SpawnRes.summary : SpawnRes → Option (Int × List Call × Bool)
  | .ret r w => some (r, w.trace, w.utemp.isSome)
  | _ => none

/-- A world before any call in which every call succeeds and `sys_exofork`,
the third call of spawn, returns the envid 4097. -/
def World.ready (file : Nat → Nat) : World :=
  { World.init file with rc := fun i => if i = 2 then 4097 else 0 }

/-- The world `World.ready` except that the `k`-th call returns `r`. -/
def World.failing (file : Nat → Nat) (k : Nat) (r : Int) : World :=
  { World.init file with rc := fun i => if i = k then r else if i = 2 then 4097 else 0 }

/-- Calls made by the segment loops. -/
def Call.is_seg : Call → Bool
  | .seek _ => true
  | .read_map _ => true
  | .read _ => true
  | .page_alloc => true
  | .page_map _ _ _ => true
  | .page_unmap => true
  | _ => false

/-- What a piece of spawn that makes only calls of the segment loops leaves
when started in the world `w`: the return codes are those of `w`, the trace
grew by calls of the segment loops, and an error code returned is the negative
code of the last call made. -/
def Outcome.grows (w : World) : Outcome → Prop
  | .done w1 => w1.rc = w.rc ∧ ∃ cs, w1.trace = w.trace ++ cs ∧ ∀ c ∈ cs, Call.is_seg c = true
  | .fail r w1 => w1.rc = w.rc ∧ r < 0 ∧ ∃ cs c, w1.trace = w.trace ++ cs ++ [c] ∧
      (∀ x ∈ cs ++ [c], Call.is_seg x = true) ∧ r = w.rc (w.trace.length + cs.length)
  | .fuel => True

/-- A writable segment of one page: 16 bytes at file offset 0x1000, 32 bytes of
memory at 0x802000. -/
def phData : Proghdr :=
  { p_offset := 4096, p_va := 8396800, p_filesz := 16, p_memsz := 32, writable := true }

/-- A program with the writable segment `phData` and a header that is not
loadable. -/
def elfData : Elf :=
  { magic_ok := true, e_entry := 8388640, phs := [(false, phText), (true, phData)] }

/-- The surroundings of a spawn of `elfData` in which the kernel calls of
init_stack succeed. -/
def envData : SpawnEnv :=
  { hdr := elfData, env_tf := { tf_eip := 0, tf_esp := 4005552128, tf_regs := 35 },
    sys := sysOK, mem := fun _ => 0 }

/-- The calls of a spawn of `elfData` with the arguments `argvAB` that runs to
its end. -/
def callsData : List Call :=
  [.open_prog, .read_header, .exofork, .init_stack, .seek 4096, .page_alloc, .read 16,
   .page_map (some (.anon 1)) 8396800 PTE_P_U_W, .page_unmap,
   .set_trapframe { tf_eip := 8388640, tf_esp := 4005552100, tf_regs := 35 }, .set_status]

/-- The bytes between the read position and the write position, oldest
first. -/
def buffered (p : Pipe) : List Nat :=
  (List.range (p.p_wpos - p.p_rpos).toNat).map
    (fun j => p.p_buf ((p.p_rpos.toNat + j) % PIPEBUFSIZ))

/-- Successive calls of piperead with the sizes `ns` while the peer is closed:
the value returned and the bytes delivered by each. -/
def pipereads : Pipe → List Nat → Option (List (Int × List Nat))
  | _, [] => some []
  | p, n :: ns =>
    match piperead p n true with
    | .ret r out p1 => (pipereads p1 ns).map (fun l => (r, out) :: l)
    | _ => none

/-- The bytes delivered by a sequence of calls, in order. -/
def outs : List (Int × List Nat) → List Nat
  | [] => []
  | (_, out) :: l => out ++ outs l

/-- A pipe holding the three bytes 130, 131, 100 across the end of the array. -/
def pipe3 : Pipe := { p_rpos := 30, p_wpos := 33, p_buf := fun j => j + 100 }

/-- The array `buf` after the bytes `bs` were stored at the positions `pos`,
`pos + 1`, ... modulo PIPEBUFSIZ. -/
def ring_fill (buf : Nat → Nat) : Nat → List Nat → Nat → Nat
  | _, [] => buf
  | pos, b :: bs => ring_fill (fun j => if j = pos % PIPEBUFSIZ then b else buf j) (pos + 1) bs

/-- Collaborators of pipe that fail at the `k`-th of its six failure points
(none fails when `k` is 6): the descriptor pages are at 0xD0000000 and
0xD0001000, their data pages 0x400000 above. -/
def pipeSysFail (k : Nat) : PipeSys :=
  { r_fd0 := if k = 0 then -9 else 0, fd0 := 3489660928,
    r_page0 := if k = 1 then -4 else 0,
    r_fd1 := if k = 2 then -9 else 0, fd1 := 3489665024,
    r_page1 := if k = 3 then -4 else 0,
    r_data := if k = 4 then -4 else 0,
    r_map := if k = 5 then -4 else 0,
    r_unmap_va := 0, r_unmap_fd1 := 0, r_unmap_fd0 := 0,
    fd2data := fun fd => fd + 4194304,
    fd2num := fun fd => ((fd - 3489660928) / 4096 : Nat) }

/-! # Properties -/

/-! ## Unsigned 32-bit arithmetic without wrap-around -/

theorem sub32_eq (a b : Nat) (hb : b ≤ a) (ha : a < W32) : sub32 a b = a - b := by
  unfold sub32 W32 at *; omega

theorem add32_eq (a b : Nat) (h : a + b < W32) : add32 a b = a + b := by
  unfold add32 W32 at *; omega

/-! ## init_stack -/

theorem string_size_eq (argv : List CStr) (acc : Nat) (h : acc < W32) :
    string_size acc argv = (acc + total_bytes argv) % W32 := by
  induction argv generalizing acc with
  | nil => simp [string_size, total_bytes, Nat.mod_eq_of_lt h]
  | cons s rest ih =>
    have h2 : add32 acc (strlen s + 1) < W32 := Nat.mod_lt _ (by decide)
    rw [string_size, ih _ h2]
    simp only [add32, total_bytes, List.map_cons, List.sum_cons]
    rw [Nat.mod_add_mod]
    congr 1
    omega

theorem total_bytes_replicate_nil (n : Nat) :
    total_bytes (List.replicate n []) = n := by
  simp [total_bytes, strlen]

theorem argv_store0_big : argv_store0 jos argvBig = 4294165692 := by
  have h1 : string_size 0 argvBig = 1000000 := by
    rw [string_size_eq _ _ (by decide), argvBig, total_bytes_replicate_nil]
    norm_num [W32]
  have h2 : argvBig.length = 1000000 := by rw [argvBig, List.length_replicate]
  simp only [argv_store0, string_store0, h1, h2]
  norm_num [sub32, add32, ROUNDDOWN, W32, jos]

/-- The size check of init_stack when the layout computation does not wrap:
the list is rejected exactly when strings, pointer array and the two header
words exceed one page. -/
theorem init_stack_check_of_no_wrap (L : Layout) (argv : List CStr) (hL : L.WF)
    (hfit : total_bytes argv + 4 * (argv.length + 1) + 8 ≤ L.UTEMP + L.PGSIZE) :
    (sub32 (argv_store0 L argv) 8 < L.UTEMP ↔
      L.PGSIZE < total_bytes argv + 4 * (argv.length + 1) + 8) ∧
    argv_store0 L argv + (total_bytes argv + 3) / 4 * 4 + 4 * (argv.length + 1)
      = L.UTEMP + L.PGSIZE ∧
    string_store0 L argv + total_bytes argv = L.UTEMP + L.PGSIZE := by
  obtain ⟨hPG, hU, _, _, hT, _, _⟩ := hL
  rw [hPG] at hU hT hfit ⊢
  have hs : string_size 0 argv = total_bytes argv := by
    rw [string_size_eq _ _ (by decide), Nat.zero_add]
    exact Nat.mod_eq_of_lt (by unfold W32 at *; omega)
  unfold argv_store0 string_store0
  rw [hs]
  generalize total_bytes argv = S at *
  generalize argv.length = c at *
  unfold sub32 add32 ROUNDDOWN W32 at *
  omega

/-! ## Stores and loads -/
theorem store8_eq (m : Mem) (a v x : Nat) (ha : a < W32) :
    store8 m a v x = if x = a then v else m x := by
  unfold store8; rw [Nat.mod_eq_of_lt ha]

theorem strcpy_eq (s : CStr) : ∀ (m : Mem) (dst x : Nat), dst + s.length < W32 →
    strcpy_raw m dst s x =
      if dst ≤ x ∧ x < dst + s.length then s.getD (x - dst) 0
      else if x = dst + s.length then 0 else m x := by
  induction s with
  | nil =>
    intro m dst x h
    simp only [strcpy_raw, List.length_nil, Nat.add_zero] at h ⊢
    rw [store8_eq _ _ _ _ h]
    have hn : ¬ (dst ≤ x ∧ x < dst) := by omega
    simp [hn]
  | cons c cs ih =>
    intro m dst x h
    simp only [List.length_cons] at h
    rw [strcpy_raw, ih _ _ _ (by omega), store8_eq _ _ _ _ (by omega)]
    simp only [List.length_cons]
    by_cases h1 : x = dst
    · subst h1
      have hc1 : ¬ (x + 1 ≤ x ∧ x < x + 1 + cs.length) := by omega
      have hc2 : ¬ (x = x + 1 + cs.length) := by omega
      have hc3 : x ≤ x ∧ x < x + (cs.length + 1) := by omega
      simp [hc1, hc2, hc3]
    · by_cases h2 : dst + 1 ≤ x ∧ x < dst + 1 + cs.length
      · have hc3 : dst ≤ x ∧ x < dst + (cs.length + 1) := by omega
        have hx : x - dst = (x - (dst + 1)) + 1 := by omega
        simp [h2, hc3, hx]
      · have hc3 : ¬ (dst ≤ x ∧ x < dst + (cs.length + 1)) := by omega
        have hc4 : (x = dst + 1 + cs.length) ↔ (x = dst + (cs.length + 1)) := by omega
        simp [h1, h2, hc3, hc4]

theorem store32_frame (m : Mem) (a v x : Nat) (ha : a + 3 < W32)
    (hx : x < a ∨ a + 4 ≤ x) : store32 m a v x = m x := by
  unfold store32
  rw [store8_eq _ _ _ _ (by omega), store8_eq _ _ _ _ (by omega),
    store8_eq _ _ _ _ (by omega), store8_eq _ _ _ _ (by omega)]
  have h0 : x ≠ a := by omega
  have h1 : x ≠ a + 1 := by omega
  have h2 : x ≠ a + 2 := by omega
  have h3 : x ≠ a + 3 := by omega
  simp [h0, h1, h2, h3]

theorem load32_store32 (m : Mem) (a v : Nat) (ha : a + 3 < W32) (hv : v < W32) :
    load32 (store32 m a v) a = v := by
  unfold load32 store32
  rw [Nat.mod_eq_of_lt (by omega : a < W32), Nat.mod_eq_of_lt (by omega : a + 1 < W32),
    Nat.mod_eq_of_lt (by omega : a + 2 < W32), Nat.mod_eq_of_lt ha]
  simp only [store8_eq _ _ _ _ (by omega : a < W32), store8_eq _ _ _ _ (by omega : a + 1 < W32),
    store8_eq _ _ _ _ (by omega : a + 2 < W32), store8_eq _ _ _ _ ha]
  have e1 : a ≠ a + 3 := by omega
  have e2 : a ≠ a + 2 := by omega
  have e3 : a ≠ a + 1 := by omega
  have e4 : a + 1 ≠ a + 3 := by omega
  have e5 : a + 1 ≠ a + 2 := by omega
  have e6 : a + 2 ≠ a + 3 := by omega
  simp only [e1, e2, e3, e4, e5, e6, if_true, if_false]
  unfold W32 at hv
  omega

theorem load32_congr (m1 m2 : Mem) (a : Nat) (ha : a + 3 < W32)
    (h : ∀ x, a ≤ x → x < a + 4 → m1 x = m2 x) : load32 m1 a = load32 m2 a := by
  unfold load32
  rw [Nat.mod_eq_of_lt (by omega : a < W32), Nat.mod_eq_of_lt (by omega : a + 1 < W32),
    Nat.mod_eq_of_lt (by omega : a + 2 < W32), Nat.mod_eq_of_lt ha,
    h a (by omega) (by omega), h (a + 1) (by omega) (by omega),
    h (a + 2) (by omega) (by omega), h (a + 3) (by omega) (by omega)]

/-! ## The stack page built by init_stack -/

theorem total_bytes_cons (s : CStr) (rest : List CStr) :
    total_bytes (s :: rest) = s.length + 1 + total_bytes rest := by
  simp [total_bytes, strlen]

theorem total_bytes_nil : total_bytes [] = 0 := rfl

theorem init_loop_frame (L : Layout) (av : Nat) (rest : List CStr) :
    ∀ (i ss : Nat) (m : Mem) (x : Nat), ss + total_bytes rest < W32 →
    av + 4 * (i + rest.length) ≤ ss →
    (x < av + 4 * i ∨ av + 4 * (i + rest.length) ≤ x) →
    (x < ss ∨ ss + total_bytes rest ≤ x) →
    init_loop_raw L av i ss rest m x = m x := by
  induction rest with
  | nil => intro i ss m x _ _ _ _; rfl
  | cons s rest ih =>
    intro i ss m x hss hav hx1 hx2
    rw [total_bytes_cons] at hss hx2
    simp only [List.length_cons] at hav hx1
    have ha1 : add32 ss (strlen s + 1) = ss + s.length + 1 := by
      unfold strlen; rw [add32_eq _ _ (by omega)]; omega
    have ha2 : add32 av (4 * i) = av + 4 * i := add32_eq _ _ (by omega)
    rw [init_loop_raw, ha1, ha2, ih _ _ _ _ (by omega) (by omega) (by omega) (by omega),
      store32_frame _ _ _ _ (by omega) (by omega), strcpy_eq _ _ _ _ (by omega)]
    have h1 : ¬ (ss ≤ x ∧ x < ss + s.length) := by omega
    have h2 : ¬ (x = ss + s.length) := by omega
    simp [h1, h2]

theorem init_loop_content (L : Layout) (av : Nat) (rest : List CStr) :
    ∀ (i ss : Nat) (m : Mem) (k : Nat) (s : CStr), ss + total_bytes rest < W32 →
    av + 4 * (i + rest.length) ≤ ss → rest[k]? = some s →
    load32 (init_loop_raw L av i ss rest m) (av + 4 * (i + k))
      = UTEMP2USTACK L (ss + total_bytes (rest.take k)) ∧
    (∀ j, j < s.length →
      init_loop_raw L av i ss rest m (ss + total_bytes (rest.take k) + j) = s.getD j 0) ∧
    init_loop_raw L av i ss rest m (ss + total_bytes (rest.take k) + s.length) = 0 ∧
    ss + total_bytes (rest.take k) + s.length + 1 ≤ ss + total_bytes rest := by
  induction rest with
  | nil => intro i ss m k s _ _ h; simp at h
  | cons t rest ih =>
    intro i ss m k s hss hav hk
    rw [total_bytes_cons] at hss
    simp only [List.length_cons] at hav
    have ha1 : add32 ss (strlen t + 1) = ss + t.length + 1 := by
      unfold strlen; rw [add32_eq _ _ (by omega)]; omega
    have ha2 : add32 av (4 * i) = av + 4 * i := add32_eq _ _ (by omega)
    rw [init_loop_raw, ha1, ha2]
    cases k with
    | zero =>
      simp only [List.getElem?_cons_zero, Option.some.injEq] at hk
      subst hk
      simp only [List.take_zero, total_bytes_nil, Nat.add_zero]
      have hfr : ∀ x, (x < av + 4 * (i + 1) ∨ av + 4 * (i + 1 + rest.length) ≤ x) →
          (x < ss + t.length + 1 ∨ ss + t.length + 1 + total_bytes rest ≤ x) →
          init_loop_raw L av (i + 1) (ss + t.length + 1) rest
            (store32 (strcpy_raw m ss t) (av + 4 * i) (UTEMP2USTACK L ss)) x
          = store32 (strcpy_raw m ss t) (av + 4 * i) (UTEMP2USTACK L ss) x :=
        fun x h1 h2 => init_loop_frame L av rest _ _ _ x (by omega) (by omega) h1 h2
      refine ⟨?_, ?_, ?_, ?_⟩
      · rw [load32_congr _ _ _ (by omega) (fun x h1 h2 => hfr x (by omega) (by omega))]
        exact load32_store32 _ _ _ (by omega) (Nat.mod_lt _ (by decide))
      · intro j hj
        rw [hfr _ (by omega) (by omega), store32_frame _ _ _ _ (by omega) (by omega),
          strcpy_eq _ _ _ _ (by omega)]
        have h1 : ss ≤ ss + j ∧ ss + j < ss + t.length := by omega
        simp [h1]
      · rw [hfr _ (by omega) (by omega), store32_frame _ _ _ _ (by omega) (by omega),
          strcpy_eq _ _ _ _ (by omega)]
        have h1 : ¬ (ss ≤ ss + t.length ∧ ss + t.length < ss + t.length) := by omega
        simp [h1]
      · rw [total_bytes_cons]; omega
    | succ k =>
      simp only [List.getElem?_cons_succ] at hk
      obtain ⟨h1, h2, h3, h4⟩ := ih (i + 1) (ss + t.length + 1)
        (store32 (strcpy_raw m ss t) (av + 4 * i) (UTEMP2USTACK L ss)) k s
        (by omega) (by omega) hk
      have e1 : av + 4 * (i + (k + 1)) = av + 4 * (i + 1 + k) := by omega
      have e2 : ss + total_bytes (List.take (k + 1) (t :: rest))
          = ss + t.length + 1 + total_bytes (List.take k rest) := by
        rw [List.take_succ_cons, total_bytes_cons]; omega
      rw [e1, e2, total_bytes_cons]
      exact ⟨h1, h2, h3, by omega⟩

theorem init_fill_spec (L : Layout) (argv : List CStr) (m : Mem) (hL : L.WF)
    (hfit : total_bytes argv + 4 * (argv.length + 1) + 8 ≤ L.PGSIZE) :
    L.UTEMP + 8 ≤ argv_store0 L argv ∧ argv_store0 L argv % 4 = 0 ∧
    argv_store0 L argv + 4 * (argv.length + 1) ≤ string_store0 L argv ∧
    string_store0 L argv + total_bytes argv = L.UTEMP + L.PGSIZE ∧
    load32 (init_fill_raw L argv m) (argv_store0 L argv - 8) = argv.length ∧
    load32 (init_fill_raw L argv m) (argv_store0 L argv - 4)
      = UTEMP2USTACK L (argv_store0 L argv) ∧
    load32 (init_fill_raw L argv m) (argv_store0 L argv + 4 * argv.length) = 0 ∧
    ∀ i s, argv[i]? = some s →
      load32 (init_fill_raw L argv m) (argv_store0 L argv + 4 * i)
        = UTEMP2USTACK L (string_store0 L argv + total_bytes (argv.take i)) ∧
      (∀ j, j < s.length →
        init_fill_raw L argv m (string_store0 L argv + total_bytes (argv.take i) + j)
          = s.getD j 0) ∧
      init_fill_raw L argv m (string_store0 L argv + total_bytes (argv.take i) + s.length) = 0 ∧
      string_store0 L argv + total_bytes (argv.take i) + s.length + 1
        ≤ L.UTEMP + L.PGSIZE := by
  obtain ⟨_, hav, hss⟩ := init_stack_check_of_no_wrap L argv hL (by omega)
  obtain ⟨hPG, hU, _, _, hT, _, _⟩ := hL
  rw [hPG] at hU hT hfit hav hss ⊢
  generalize hA : argv_store0 L argv = av at *
  generalize hS : string_store0 L argv = ss at *
  have hT' : L.UTEMP + 4096 < 4294967296 := by unfold W32 at hT; exact hT
  have b1 : L.UTEMP + 8 ≤ av := by omega
  have b2 : av % 4 = 0 := by omega
  have b3 : av + 4 * (argv.length + 1) ≤ ss := by omega
  have e1 : add32 av (4 * argv.length) = av + 4 * argv.length :=
    add32_eq _ _ (by unfold W32; omega)
  have e2 : sub32 av 4 = av - 4 := sub32_eq _ _ (by omega) (by unfold W32; omega)
  have e3 : sub32 av 8 = av - 8 := sub32_eq _ _ (by omega) (by unfold W32; omega)
  have e4 : argv.length % W32 = argv.length := Nat.mod_eq_of_lt (by unfold W32; omega)
  have hfill : init_fill_raw L argv m =
      store32 (store32 (store32 (init_loop_raw L av 0 ss argv m) (av + 4 * argv.length) 0)
        (av - 4) (UTEMP2USTACK L av)) (av - 8) argv.length := by
    unfold init_fill_raw
    simp only [hA, hS, e1, e2, e3, e4]
  have hout : ∀ x, av ≤ x → (x < av + 4 * argv.length ∨ av + 4 * argv.length + 4 ≤ x) →
      x + 3 < W32 → init_fill_raw L argv m x = init_loop_raw L av 0 ss argv m x := by
    intro x h1 h2 h3
    rw [hfill, store32_frame _ _ _ _ (by unfold W32 at *; omega) (by omega),
      store32_frame _ _ _ _ (by unfold W32 at *; omega) (by omega),
      store32_frame _ _ _ _ (by unfold W32 at *; omega) (by omega)]
  refine ⟨b1, b2, b3, hss, ?_, ?_, ?_, ?_⟩
  · rw [hfill]
    exact load32_store32 _ _ _ (by unfold W32; omega) (by unfold W32; omega)
  · rw [hfill, load32_congr _ _ _ (by unfold W32; omega)
      (fun x h1 h2 => store32_frame _ _ _ x (by unfold W32; omega) (by omega))]
    exact load32_store32 _ _ _ (by unfold W32; omega) (Nat.mod_lt _ (by decide))
  · rw [hfill, load32_congr _ _ _ (by unfold W32; omega)
      (fun x h1 h2 => store32_frame _ _ _ x (by unfold W32; omega) (by omega)),
      load32_congr _ _ _ (by unfold W32; omega)
      (fun x h1 h2 => store32_frame _ _ _ x (by unfold W32; omega) (by omega))]
    exact load32_store32 _ _ _ (by unfold W32; omega) (by decide)
  · intro i s hi
    have hlt : i < argv.length := by
      rcases Nat.lt_or_ge i argv.length with h | h
      · exact h
      · rw [List.getElem?_eq_none h] at hi; cases hi
    obtain ⟨c1, c2, c3, c4⟩ := init_loop_content L av argv 0 ss m i s
      (by unfold W32; omega) (by omega) hi
    simp only [Nat.zero_add] at c1
    refine ⟨?_, ?_, ?_, by omega⟩
    · rw [load32_congr _ _ _ (by unfold W32; omega)
        (fun x h1 h2 => hout x (by omega) (by omega) (by unfold W32; omega))]
      exact c1
    · intro j hj
      rw [hout _ (by omega) (by omega) (by unfold W32; omega)]
      exact c2 j hj
    · rw [hout _ (by omega) (by omega) (by unfold W32; omega)]
      exact c3

theorem UTEMP2USTACK_eq (L : Layout) (hL : L.WF) (x : Nat) (h1 : L.UTEMP ≤ x)
    (h2 : x < L.UTEMP + L.PGSIZE) :
    UTEMP2USTACK L x = x - L.UTEMP + (L.USTACKTOP - L.PGSIZE) := by
  obtain ⟨hPG, hU, hUS, hle, hT, hS, _⟩ := hL
  rw [hPG] at hU hUS
  unfold UTEMP2USTACK sub32 add32
  unfold W32 at *
  have h3 : L.UTEMP % 4294967296 = L.UTEMP := Nat.mod_eq_of_lt (by omega)
  rw [h3]
  omega

theorem child_stack_byte_eq (L : Layout) (o : StackOut) (x : Nat) (h1 : L.UTEMP ≤ x) :
    child_stack_byte L o (x - L.UTEMP + (L.USTACKTOP - L.PGSIZE)) = o.mem x := by
  unfold child_stack_byte
  congr 1
  omega

theorem load32_child (L : Layout) (o : StackOut) (hL : L.WF) (x : Nat)
    (h1 : L.UTEMP ≤ x) (h2 : x + 3 < L.UTEMP + L.PGSIZE) :
    load32 (child_stack_byte L o) (x - L.UTEMP + (L.USTACKTOP - L.PGSIZE))
      = load32 o.mem x := by
  have hL' := hL
  obtain ⟨hPG, hU, _, hle, hT, hS, _⟩ := hL
  have hx : x + 3 < W32 := by omega
  have hc : x - L.UTEMP + (L.USTACKTOP - L.PGSIZE) + 3 < W32 := by omega
  unfold load32
  rw [Nat.mod_eq_of_lt (by omega : x < W32), Nat.mod_eq_of_lt (by omega : x + 1 < W32),
    Nat.mod_eq_of_lt (by omega : x + 2 < W32), Nat.mod_eq_of_lt hx,
    Nat.mod_eq_of_lt (by omega : x - L.UTEMP + (L.USTACKTOP - L.PGSIZE) < W32),
    Nat.mod_eq_of_lt (by omega : x - L.UTEMP + (L.USTACKTOP - L.PGSIZE) + 1 < W32),
    Nat.mod_eq_of_lt (by omega : x - L.UTEMP + (L.USTACKTOP - L.PGSIZE) + 2 < W32),
    Nat.mod_eq_of_lt hc]
  have a1 : x - L.UTEMP + (L.USTACKTOP - L.PGSIZE) + 1
      = (x + 1) - L.UTEMP + (L.USTACKTOP - L.PGSIZE) := by omega
  have a2 : x - L.UTEMP + (L.USTACKTOP - L.PGSIZE) + 2
      = (x + 2) - L.UTEMP + (L.USTACKTOP - L.PGSIZE) := by omega
  have a3 : x - L.UTEMP + (L.USTACKTOP - L.PGSIZE) + 3
      = (x + 3) - L.UTEMP + (L.USTACKTOP - L.PGSIZE) := by omega
  rw [a1, a2, a3, child_stack_byte_eq L o x h1,
    child_stack_byte_eq L o (x + 1) (by omega),
    child_stack_byte_eq L o (x + 2) (by omega),
    child_stack_byte_eq L o (x + 3) (by omega)]

/-! ## Stores into the staging page -/

theorem page_store8_some (L : Layout) (m m1 : Mem) (a v : Nat)
    (h : page_store8 L m a v = some m1) : in_page L (a % W32) ∧ m1 = store8 m a v := by
  unfold page_store8 at h
  split at h
  · next hin => exact ⟨hin, (Option.some.inj h).symm⟩
  · cases h

theorem page_store8_of_in (L : Layout) (m : Mem) (a v : Nat) (h : in_page L (a % W32)) :
    page_store8 L m a v = some (store8 m a v) := by
  unfold page_store8; rw [if_pos h]

theorem page_store32_some (L : Layout) (m m1 : Mem) (a v : Nat) (ha : a < W32)
    (hT : L.UTEMP + L.PGSIZE < W32) (h : page_store32 L m a v = some m1) :
    L.UTEMP ≤ a ∧ a + 3 < L.UTEMP + L.PGSIZE ∧ m1 = store32 m a v := by
  unfold page_store32 at h
  cases h1 : page_store8 L m a (v % 256) with
  | none => rw [h1] at h; cases h
  | some x1 =>
    rw [h1] at h
    simp only [Option.some_bind] at h
    cases h2 : page_store8 L x1 (a + 1) (v / 256 % 256) with
    | none => rw [h2] at h; cases h
    | some x2 =>
      rw [h2] at h
      simp only [Option.some_bind] at h
      cases h3 : page_store8 L x2 (a + 2) (v / 65536 % 256) with
      | none => rw [h3] at h; cases h
      | some x3 =>
        rw [h3] at h
        simp only [Option.some_bind] at h
        obtain ⟨i1, e1⟩ := page_store8_some _ _ _ _ _ h1
        obtain ⟨i2, e2⟩ := page_store8_some _ _ _ _ _ h2
        obtain ⟨i3, e3⟩ := page_store8_some _ _ _ _ _ h3
        obtain ⟨i4, e4⟩ := page_store8_some _ _ _ _ _ h
        unfold in_page at i1 i2 i3 i4
        have b0 : a % W32 = a := Nat.mod_eq_of_lt ha
        rw [b0] at i1
        have b1 : (a + 1) % W32 = a + 1 := Nat.mod_eq_of_lt (by omega)
        rw [b1] at i2
        have b2 : (a + 2) % W32 = a + 2 := Nat.mod_eq_of_lt (by omega)
        rw [b2] at i3
        have b3 : (a + 3) % W32 = a + 3 := Nat.mod_eq_of_lt (by omega)
        rw [b3] at i4
        refine ⟨i1.1, i4.2, ?_⟩
        rw [e4, e3, e2, e1]
        rfl

theorem page_store32_of_in (L : Layout) (m : Mem) (a v : Nat) (h1 : L.UTEMP ≤ a)
    (h2 : a + 3 < L.UTEMP + L.PGSIZE) (hT : L.UTEMP + L.PGSIZE < W32) :
    page_store32 L m a v = some (store32 m a v) := by
  unfold page_store32
  rw [page_store8_of_in _ _ _ _ (by unfold in_page; rw [Nat.mod_eq_of_lt (by omega)]; omega)]
  simp only [Option.some_bind]
  rw [page_store8_of_in _ _ _ _ (by unfold in_page; rw [Nat.mod_eq_of_lt (by omega)]; omega)]
  simp only [Option.some_bind]
  rw [page_store8_of_in _ _ _ _ (by unfold in_page; rw [Nat.mod_eq_of_lt (by omega)]; omega)]
  simp only [Option.some_bind]
  rw [page_store8_of_in _ _ _ _ (by unfold in_page; rw [Nat.mod_eq_of_lt (by omega)]; omega)]
  rfl

theorem strcpy_some (L : Layout) (s : CStr) : ∀ (m m1 : Mem) (dst : Nat), dst < W32 →
    L.UTEMP + L.PGSIZE < W32 → strcpy L m dst s = some m1 →
    L.UTEMP ≤ dst ∧ dst + s.length < L.UTEMP + L.PGSIZE ∧ m1 = strcpy_raw m dst s := by
  induction s with
  | nil =>
    intro m m1 dst hd hT h
    obtain ⟨i1, e1⟩ := page_store8_some _ _ _ _ _ h
    unfold in_page at i1
    rw [Nat.mod_eq_of_lt hd] at i1
    exact ⟨i1.1, by simpa using i1.2, e1⟩
  | cons c cs ih =>
    intro m m1 dst hd hT h
    unfold strcpy at h
    cases h1 : page_store8 L m dst c with
    | none => rw [h1] at h; cases h
    | some x1 =>
      rw [h1] at h
      simp only [Option.some_bind] at h
      obtain ⟨i1, e1⟩ := page_store8_some _ _ _ _ _ h1
      unfold in_page at i1
      rw [Nat.mod_eq_of_lt hd] at i1
      obtain ⟨j1, j2, j3⟩ := ih x1 m1 (dst + 1) (by omega) hT h
      refine ⟨i1.1, by simp only [List.length_cons]; omega, ?_⟩
      rw [j3, e1]
      rfl

theorem strcpy_of_in (L : Layout) (s : CStr) : ∀ (m : Mem) (dst : Nat), L.UTEMP ≤ dst →
    dst + s.length < L.UTEMP + L.PGSIZE → L.UTEMP + L.PGSIZE < W32 →
    strcpy L m dst s = some (strcpy_raw m dst s) := by
  induction s with
  | nil =>
    intro m dst h1 h2 hT
    simp only [List.length_nil, Nat.add_zero] at h2
    exact page_store8_of_in _ _ _ _ (by unfold in_page; rw [Nat.mod_eq_of_lt (by omega)]; omega)
  | cons c cs ih =>
    intro m dst h1 h2 hT
    simp only [List.length_cons] at h2
    unfold strcpy
    rw [page_store8_of_in _ _ _ _ (by unfold in_page; rw [Nat.mod_eq_of_lt (by omega)]; omega)]
    simp only [Option.some_bind]
    rw [ih _ _ (by omega) (by omega) hT]
    rfl

theorem init_loop_some (L : Layout) (av : Nat) (rest : List CStr) :
    ∀ (i ss : Nat) (m m1 : Mem), ss < W32 → L.UTEMP + L.PGSIZE < W32 →
    init_loop L av i ss rest m = some m1 →
    (rest ≠ [] → L.UTEMP ≤ ss ∧ ss + total_bytes rest ≤ L.UTEMP + L.PGSIZE) ∧
    m1 = init_loop_raw L av i ss rest m := by
  induction rest with
  | nil =>
    intro i ss m m1 hs hT h
    simp only [init_loop, Option.some.injEq] at h
    exact ⟨fun hne => absurd rfl hne, h.symm⟩
  | cons s rest ih =>
    intro i ss m m1 hs hT h
    unfold init_loop at h
    cases h1 : strcpy L m ss s with
    | none => rw [h1] at h; cases h
    | some x1 =>
      rw [h1] at h
      simp only [Option.some_bind] at h
      cases h2 : page_store32 L x1 (add32 av (4 * i)) (UTEMP2USTACK L ss) with
      | none => rw [h2] at h; cases h
      | some x2 =>
        rw [h2] at h
        simp only [Option.some_bind] at h
        obtain ⟨a1, a2, a3⟩ := strcpy_some L s m x1 ss hs hT h1
        obtain ⟨_, _, b3⟩ := page_store32_some L x1 x2 _ _ (Nat.mod_lt _ (by decide)) hT h2
        have hss : add32 ss (strlen s + 1) = ss + s.length + 1 := by
          unfold strlen; rw [add32_eq _ _ (by omega)]; omega
        rw [hss] at h
        obtain ⟨c1, c3⟩ := ih (i + 1) (ss + s.length + 1) x2 m1 (by omega) hT h
        refine ⟨fun _ => ⟨a1, ?_⟩, ?_⟩
        · rw [total_bytes_cons]
          by_cases hr : rest = []
          · subst hr; rw [total_bytes_nil]; omega
          · have := (c1 hr).2; omega
        · rw [c3, b3, a3, init_loop_raw, hss]
          rfl

theorem init_loop_of_in (L : Layout) (av : Nat) (rest : List CStr) :
    ∀ (i ss : Nat) (m : Mem), L.UTEMP ≤ av + 4 * i → av + 4 * (i + rest.length) ≤ ss →
    ss + total_bytes rest ≤ L.UTEMP + L.PGSIZE → L.UTEMP + L.PGSIZE < W32 →
    init_loop L av i ss rest m = some (init_loop_raw L av i ss rest m) := by
  induction rest with
  | nil => intro i ss m _ _ _ _; rfl
  | cons s rest ih =>
    intro i ss m h1 h2 h3 hT
    rw [total_bytes_cons] at h3
    simp only [List.length_cons] at h2
    have hss : add32 ss (strlen s + 1) = ss + s.length + 1 := by
      unfold strlen; rw [add32_eq _ _ (by omega)]; omega
    have hav : add32 av (4 * i) = av + 4 * i := add32_eq _ _ (by omega)
    unfold init_loop
    rw [strcpy_of_in L s m ss (by omega) (by omega) hT]
    simp only [Option.some_bind]
    rw [hav, page_store32_of_in L _ _ _ h1 (by omega) hT]
    simp only [Option.some_bind]
    rw [hss, ih (i + 1) (ss + s.length + 1) _ (by omega) (by omega) (by omega) hT,
      init_loop_raw, hss, hav]

theorem length_le_total_bytes (argv : List CStr) : argv.length ≤ total_bytes argv := by
  induction argv with
  | nil => simp [total_bytes_nil]
  | cons s rest ih => rw [total_bytes_cons, List.length_cons]; omega

theorem init_fill_of_fits (L : Layout) (argv : List CStr) (m : Mem) (hL : L.WF)
    (hfit : total_bytes argv + 4 * (argv.length + 1) + 8 ≤ L.PGSIZE) :
    init_fill L argv m = some (init_fill_raw L argv m) := by
  obtain ⟨_, hav, hss⟩ := init_stack_check_of_no_wrap L argv hL (by omega)
  obtain ⟨hPG, hU, _, _, hT, _, _⟩ := hL
  rw [hPG] at hU
  have hT' : L.UTEMP + L.PGSIZE < 4294967296 := by unfold W32 at hT; exact hT
  have e1 : add32 (argv_store0 L argv) (4 * argv.length)
      = argv_store0 L argv + 4 * argv.length := add32_eq _ _ (by unfold W32; omega)
  have e2 : sub32 (argv_store0 L argv) 4 = argv_store0 L argv - 4 :=
    sub32_eq _ _ (by omega) (by unfold W32; omega)
  have e3 : sub32 (argv_store0 L argv) 8 = argv_store0 L argv - 8 :=
    sub32_eq _ _ (by omega) (by unfold W32; omega)
  unfold init_fill
  simp only
  rw [init_loop_of_in L _ argv 0 _ m (by omega) (by omega) (by omega) hT]
  simp only [Option.some_bind]
  rw [e1, page_store32_of_in L _ _ _ (by omega) (by omega) hT]
  simp only [Option.some_bind]
  rw [e2, page_store32_of_in L _ _ _ (by omega) (by omega) hT]
  simp only [Option.some_bind]
  rw [e3, page_store32_of_in L _ _ _ (by omega) (by omega) hT]
  unfold init_fill_raw
  simp only [e1, e2, e3]

theorem fits_of_init_fill (L : Layout) (argv : List CStr) (m m1 : Mem) (hL : L.WF)
    (h : init_fill L argv m = some m1) :
    total_bytes argv + 4 * (argv.length + 1) + 8 ≤ L.PGSIZE ∧
    m1 = init_fill_raw L argv m := by
  have hL' := hL
  obtain ⟨hPG, hU, _, _, hT, _, _⟩ := hL
  rw [hPG] at hU
  unfold init_fill at h
  simp only at h
  cases h1 : init_loop L (argv_store0 L argv) 0 (string_store0 L argv) argv m with
  | none => rw [h1] at h; cases h
  | some x1 =>
    rw [h1] at h
    simp only [Option.some_bind] at h
    cases h2 : page_store32 L x1 (add32 (argv_store0 L argv) (4 * argv.length)) 0 with
    | none => rw [h2] at h; cases h
    | some x2 =>
      rw [h2] at h
      simp only [Option.some_bind] at h
      cases h3 : page_store32 L x2 (sub32 (argv_store0 L argv) 4)
          (UTEMP2USTACK L (argv_store0 L argv)) with
      | none => rw [h3] at h; cases h
      | some x3 =>
        rw [h3] at h
        simp only [Option.some_bind] at h
        obtain ⟨a1, a3⟩ := init_loop_some L _ argv 0 _ m x1 (Nat.mod_lt _ (by decide)) hT h1
        obtain ⟨_, _, b3⟩ := page_store32_some L x1 x2 _ _ (Nat.mod_lt _ (by decide)) hT h2
        obtain ⟨_, _, c3⟩ := page_store32_some L x2 x3 _ _ (Nat.mod_lt _ (by decide)) hT h3
        obtain ⟨d1, d2, d3⟩ := page_store32_some L x3 m1 _ _ (Nat.mod_lt _ (by decide)) hT h
        have hfit : total_bytes argv + 4 * (argv.length + 1) + 8 ≤ L.PGSIZE := by
          by_cases hne : argv = []
          · subst hne
            rw [total_bytes_nil, hPG]
            simp
          · obtain ⟨p1, p2⟩ := a1 hne
            have hlen := length_le_total_bytes argv
            have hs : string_size 0 argv = total_bytes argv % W32 := by
              rw [string_size_eq _ _ (by decide), Nat.zero_add]
            simp only [argv_store0, string_store0, sub32, add32, ROUNDDOWN, hs]
              at p1 p2 d1 d2
            rw [hPG] at p1 p2 d1 d2 hT ⊢
            generalize total_bytes argv = S at *
            generalize argv.length = c at *
            unfold W32 at *
            omega
        refine ⟨hfit, ?_⟩
        rw [d3, c3, b3, a3]
        rfl

/-! ## The result of init_stack -/

theorem stack_page_layout (L : Layout) (argv : List CStr) (m : Mem) (o : StackOut)
    (hL : L.WF) (hfit : total_bytes argv + 4 * (argv.length + 1) + 8 ≤ L.PGSIZE)
    (hmem : o.mem = init_fill_raw L argv m) :
    UTEMP2USTACK L (sub32 (argv_store0 L argv) 8) = child_argv L argv - 8 ∧
    L.USTACKTOP - L.PGSIZE + 8 ≤ child_argv L argv ∧ child_argv L argv % 4 = 0 ∧
    child_argv L argv + 4 * (argv.length + 1) ≤ L.USTACKTOP ∧
    load32 (child_stack_byte L o) (child_argv L argv - 8) = argv.length ∧
    load32 (child_stack_byte L o) (child_argv L argv - 4) = child_argv L argv ∧
    load32 (child_stack_byte L o) (child_argv L argv + 4 * argv.length) = 0 ∧
    ∀ i s, argv[i]? = some s →
      child_argv L argv + 4 * (argv.length + 1)
        ≤ load32 (child_stack_byte L o) (child_argv L argv + 4 * i) ∧
      load32 (child_stack_byte L o) (child_argv L argv + 4 * i) + s.length + 1
        ≤ L.USTACKTOP ∧
      (∀ j, j < s.length →
        child_stack_byte L o (load32 (child_stack_byte L o) (child_argv L argv + 4 * i) + j)
          = s.getD j 0) ∧
      child_stack_byte L o
        (load32 (child_stack_byte L o) (child_argv L argv + 4 * i) + s.length) = 0 := by
  obtain ⟨f1, f2, f3, f4, f5, f6, f7, f8⟩ := init_fill_spec L argv m hL hfit
  have hL' := hL
  obtain ⟨hPG, hU, hUS, hle, hT, hS, _⟩ := hL
  rw [hPG] at hU hUS
  have hA : child_argv L argv
      = argv_store0 L argv - L.UTEMP + (L.USTACKTOP - L.PGSIZE) :=
    UTEMP2USTACK_eq L hL' _ (by omega) (by omega)
  have hld : ∀ x, L.UTEMP ≤ x → x + 3 < L.UTEMP + L.PGSIZE →
      load32 (child_stack_byte L o) (x - L.UTEMP + (L.USTACKTOP - L.PGSIZE))
      = load32 (init_fill_raw L argv m) x := by
    intro x h1 h2
    rw [load32_child L _ hL' x h1 h2, hmem]
  have hby : ∀ x, L.UTEMP ≤ x →
      child_stack_byte L o (x - L.UTEMP + (L.USTACKTOP - L.PGSIZE))
      = init_fill_raw L argv m x := by
    intro x h1
    rw [child_stack_byte_eq L _ x h1, hmem]
  refine ⟨?_, by omega, by omega, by omega, ?_, ?_, ?_, ?_⟩
  · rw [sub32_eq _ _ (by omega) (by omega),
      UTEMP2USTACK_eq L hL' _ (by omega) (by omega), hA]
    omega
  · have e : child_argv L argv - 8
        = (argv_store0 L argv - 8) - L.UTEMP + (L.USTACKTOP - L.PGSIZE) := by omega
    rw [e, hld _ (by omega) (by omega), f5]
  · have e : child_argv L argv - 4
        = (argv_store0 L argv - 4) - L.UTEMP + (L.USTACKTOP - L.PGSIZE) := by omega
    rw [e, hld _ (by omega) (by omega), f6]
    rfl
  · have e : child_argv L argv + 4 * argv.length
        = (argv_store0 L argv + 4 * argv.length) - L.UTEMP + (L.USTACKTOP - L.PGSIZE) := by
      omega
    rw [e, hld _ (by omega) (by omega), f7]
  · intro i s hi
    have hlt : i < argv.length := by
      rcases Nat.lt_or_ge i argv.length with h | h
      · exact h
      · rw [List.getElem?_eq_none h] at hi; cases hi
    obtain ⟨g1, g2, g3, g4⟩ := f8 i s hi
    have e : child_argv L argv + 4 * i
        = (argv_store0 L argv + 4 * i) - L.UTEMP + (L.USTACKTOP - L.PGSIZE) := by omega
    have hp : load32 (child_stack_byte L o) (child_argv L argv + 4 * i)
        = string_store0 L argv + total_bytes (argv.take i) - L.UTEMP
          + (L.USTACKTOP - L.PGSIZE) := by
      rw [e, hld _ (by omega) (by omega), g1]
      exact UTEMP2USTACK_eq L hL' _ (by omega) (by omega)
    rw [hp]
    refine ⟨by omega, by omega, ?_, ?_⟩
    · intro j hj
      have e2 : string_store0 L argv + total_bytes (argv.take i) - L.UTEMP
          + (L.USTACKTOP - L.PGSIZE) + j
          = (string_store0 L argv + total_bytes (argv.take i) + j) - L.UTEMP
            + (L.USTACKTOP - L.PGSIZE) := by omega
      rw [e2, hby _ (by omega)]
      exact g2 j hj
    · have e2 : string_store0 L argv + total_bytes (argv.take i) - L.UTEMP
          + (L.USTACKTOP - L.PGSIZE) + s.length
          = (string_store0 L argv + total_bytes (argv.take i) + s.length) - L.UTEMP
            + (L.USTACKTOP - L.PGSIZE) := by omega
      rw [e2, hby _ (by omega)]
      exact g3

/-- The function init_stack with the effect of its kernel calls on the two
mappings worked out on each path. -/
theorem init_stack_eq (L : Layout) (sys : StackSys) (argv : List CStr) (m : Mem)
    (mapped : Bool) :
    init_stack L sys argv m mapped =
      if sub32 (argv_store0 L argv) 8 < L.UTEMP then
        .ret { ret := -(L.E_NO_MEM : Int), mem := m, calls := [], utemp_mapped := mapped,
               child_mapped := false, init_esp := none }
      else if sys.r_alloc < 0 then
        .ret { ret := sys.r_alloc, mem := m, calls := [.page_alloc L.UTEMP],
               utemp_mapped := mapped, child_mapped := false, init_esp := none }
      else
        match init_fill L argv (memset0 m L.UTEMP L.PGSIZE) with
        | none => .fault [.page_alloc L.UTEMP]
        | some m1 =>
          if sys.r_map < 0 then
            .ret { ret := sys.r_map, mem := m1,
                   calls := [SysCall.page_alloc L.UTEMP,
                     SysCall.page_map L.UTEMP (L.USTACKTOP - L.PGSIZE)] ++ [.page_unmap L.UTEMP],
                   utemp_mapped := decide (sys.r_unmap_err < 0), child_mapped := false,
                   init_esp := some (UTEMP2USTACK L (sub32 (argv_store0 L argv) 8)) }
          else if sys.r_unmap < 0 then
            .ret { ret := sys.r_unmap, mem := m1,
                   calls := [SysCall.page_alloc L.UTEMP,
                     SysCall.page_map L.UTEMP (L.USTACKTOP - L.PGSIZE)] ++
                     [.page_unmap L.UTEMP, .page_unmap L.UTEMP],
                   utemp_mapped := decide (sys.r_unmap_err < 0), child_mapped := true,
                   init_esp := some (UTEMP2USTACK L (sub32 (argv_store0 L argv) 8)) }
          else
            .ret { ret := 0, mem := m1,
                   calls := [SysCall.page_alloc L.UTEMP,
                     SysCall.page_map L.UTEMP (L.USTACKTOP - L.PGSIZE)] ++ [.page_unmap L.UTEMP],
                   utemp_mapped := false, child_mapped := true,
                   init_esp := some (UTEMP2USTACK L (sub32 (argv_store0 L argv) 8)) } := by
  unfold init_stack
  simp only [StackMaps.out, StackMaps.sys_page_alloc, StackMaps.sys_page_map,
    StackMaps.sys_page_unmap, List.nil_append]
  by_cases h1 : sub32 (argv_store0 L argv) 8 < L.UTEMP
  · simp only [if_pos h1]
  · simp only [if_neg h1]
    by_cases h2 : sys.r_alloc < 0
    · simp only [if_pos h2]
    · simp only [if_neg h2]
      cases init_fill L argv (memset0 m L.UTEMP L.PGSIZE) with
      | none => rfl
      | some m1 =>
        simp only
        by_cases h3 : sys.r_map < 0
        · simp only [if_pos h3]
          by_cases h5 : sys.r_unmap_err < 0 <;> simp [h5]
        · simp only [if_neg h3]
          by_cases h4 : sys.r_unmap < 0
          · simp only [if_pos h4]
            by_cases h5 : sys.r_unmap_err < 0 <;> simp [h5]
          · simp [h4]

theorem init_stack_of_fits (L : Layout) (sys : StackSys) (argv : List CStr) (m : Mem)
    (b : Bool) (hL : L.WF)
    (hfit : total_bytes argv + 4 * (argv.length + 1) + 8 ≤ L.PGSIZE)
    (ha : 0 ≤ sys.r_alloc) (hm : 0 ≤ sys.r_map) (hu : 0 ≤ sys.r_unmap) :
    init_stack L sys argv m b =
      .ret { ret := 0, mem := init_fill_raw L argv (memset0 m L.UTEMP L.PGSIZE),
             calls := [.page_alloc L.UTEMP, .page_map L.UTEMP (L.USTACKTOP - L.PGSIZE),
                       .page_unmap L.UTEMP],
             utemp_mapped := false, child_mapped := true,
             init_esp := some (UTEMP2USTACK L (sub32 (argv_store0 L argv) 8)) } := by
  obtain ⟨hchk, _, _⟩ := init_stack_check_of_no_wrap L argv hL (by omega)
  have hno : ¬ sub32 (argv_store0 L argv) 8 < L.UTEMP := by rw [hchk]; omega
  rw [init_stack_eq]
  simp only [hno, not_lt.mpr ha, not_lt.mpr hm, not_lt.mpr hu, if_false,
    init_fill_of_fits L argv _ hL hfit]
  rfl

theorem init_stack_mapped (L : Layout) (sys : StackSys) (argv : List CStr) (m : Mem)
    (b : Bool) (o : StackOut) (hL : L.WF) (hret : init_stack L sys argv m b = .ret o)
    (hmap : o.child_mapped = true) :
    total_bytes argv + 4 * (argv.length + 1) + 8 ≤ L.PGSIZE ∧
    o.mem = init_fill_raw L argv (memset0 m L.UTEMP L.PGSIZE) ∧
    o.init_esp = some (UTEMP2USTACK L (sub32 (argv_store0 L argv) 8)) := by
  rw [init_stack_eq] at hret
  split at hret
  · injection hret with ho; subst ho; cases hmap
  · split at hret
    · injection hret with ho; subst ho; cases hmap
    · split at hret
      · cases hret
      · next m1 hfill =>
        obtain ⟨hfit, hm1⟩ := fits_of_init_fill L argv _ m1 hL hfill
        split at hret
        · injection hret with ho; subst ho; cases hmap
        · split at hret
          · injection hret with ho; subst ho; exact ⟨hfit, hm1, rfl⟩
          · injection hret with ho; subst ho; exact ⟨hfit, hm1, rfl⟩

theorem init_stack_ret_zero (L : Layout) (sys : StackSys) (argv : List CStr) (m : Mem)
    (b : Bool) (o : StackOut) (hL : L.WF) (hret : init_stack L sys argv m b = .ret o)
    (hok : o.ret = 0) :
    o.child_mapped = true ∧ o.utemp_mapped = false ∧
    o.calls = [.page_alloc L.UTEMP, .page_map L.UTEMP (L.USTACKTOP - L.PGSIZE),
               .page_unmap L.UTEMP] := by
  obtain ⟨_, _, _, _, _, _, hE⟩ := hL
  rw [init_stack_eq] at hret
  split at hret
  · injection hret with ho; subst ho
    simp only at hok
    omega
  · split at hret
    · next hneg => injection hret with ho; subst ho; simp only at hok; omega
    · split at hret
      · cases hret
      · split at hret
        · next hneg => injection hret with ho; subst ho; simp only at hok; omega
        · split at hret
          · next hneg => injection hret with ho; subst ho; simp only at hok; omega
          · injection hret with ho; subst ho; exact ⟨rfl, rfl, rfl⟩

/-- C1. Let the argv list pass the size check of line 202 and let
sys_page_alloc, sys_page_map and sys_page_unmap succeed. Whenever init_stack
then returns, it has returned 0 after the three calls sys_page_alloc,
sys_page_map, sys_page_unmap, the page is mapped in the child at
`USTACKTOP - PGSIZE` and no longer in the caller, and the page contains, at the
word-aligned address `child_argv`, a pointer array of `argc + 1` words inside
the page whose last word is 0; for every `i < argc` the `i`-th word is a child
address above the array and inside `[USTACKTOP - PGSIZE, USTACKTOP)` at which
the page holds the bytes of `argv[i]` followed by a NUL byte. And init_stack
does return for every list whose strings, pointer array and two header words
fit in one page. -/
theorem init_stack_page (L : Layout) (sys : StackSys) (argv : List CStr) (m : Mem)
    (b : Bool) (hL : L.WF) (hchk : ¬ sub32 (argv_store0 L argv) 8 < L.UTEMP)
    (ha : 0 ≤ sys.r_alloc) (hm : 0 ≤ sys.r_map) (hu : 0 ≤ sys.r_unmap) :
    (total_bytes argv + 4 * (argv.length + 1) + 8 ≤ L.PGSIZE →
      ∃ o, init_stack L sys argv m b = .ret o) ∧
    ∀ o, init_stack L sys argv m b = .ret o →
      o.ret = 0 ∧
      o.calls = [.page_alloc L.UTEMP, .page_map L.UTEMP (L.USTACKTOP - L.PGSIZE),
                 .page_unmap L.UTEMP] ∧
      o.child_mapped = true ∧ o.utemp_mapped = false ∧
      L.USTACKTOP - L.PGSIZE + 8 ≤ child_argv L argv ∧ child_argv L argv % 4 = 0 ∧
      child_argv L argv + 4 * (argv.length + 1) ≤ L.USTACKTOP ∧
      load32 (child_stack_byte L o) (child_argv L argv + 4 * argv.length) = 0 ∧
      ∀ i s, argv[i]? = some s →
        child_argv L argv + 4 * (argv.length + 1)
          ≤ load32 (child_stack_byte L o) (child_argv L argv + 4 * i) ∧
        load32 (child_stack_byte L o) (child_argv L argv + 4 * i) + s.length + 1
          ≤ L.USTACKTOP ∧
        (∀ j, j < s.length →
          child_stack_byte L o
            (load32 (child_stack_byte L o) (child_argv L argv + 4 * i) + j) = s.getD j 0) ∧
        child_stack_byte L o
          (load32 (child_stack_byte L o) (child_argv L argv + 4 * i) + s.length) = 0 := by
  refine ⟨fun hfit => ⟨_, init_stack_of_fits L sys argv m b hL hfit ha hm hu⟩, ?_⟩
  intro o hret
  have hzero : o.ret = 0 := by
    rw [init_stack_eq, if_neg hchk, if_neg (not_lt.mpr ha)] at hret
    split at hret
    · cases hret
    · rw [if_neg (not_lt.mpr hm), if_neg (not_lt.mpr hu)] at hret
      injection hret with ho; subst ho; rfl
  obtain ⟨hcm, hum, hcalls⟩ := init_stack_ret_zero L sys argv m b o hL hret hzero
  obtain ⟨hfit, hmem, _⟩ := init_stack_mapped L sys argv m b o hL hret hcm
  obtain ⟨_, g2, g3, g4, _, _, g6, g7⟩ :=
    stack_page_layout L argv (memset0 m L.UTEMP L.PGSIZE) o hL hfit hmem
  exact ⟨hzero, hcalls, hcm, hum, g2, g3, g4, g6, g7⟩

theorem init_stack_page_witness :
    ∃ o, init_stack jos sysOK argvAB (fun _ => 0) false = .ret o ∧
      o.ret = 0 ∧
      o.calls = [.page_alloc jos.UTEMP, .page_map jos.UTEMP (jos.USTACKTOP - jos.PGSIZE),
                 .page_unmap jos.UTEMP] ∧
      o.child_mapped = true ∧ o.utemp_mapped = false ∧
      jos.USTACKTOP - jos.PGSIZE + 8 ≤ child_argv jos argvAB ∧
      child_argv jos argvAB % 4 = 0 ∧
      child_argv jos argvAB + 4 * (argvAB.length + 1) ≤ jos.USTACKTOP ∧
      load32 (child_stack_byte jos o) (child_argv jos argvAB + 4 * argvAB.length) = 0 ∧
      ∀ i s, argvAB[i]? = some s →
        child_argv jos argvAB + 4 * (argvAB.length + 1)
          ≤ load32 (child_stack_byte jos o) (child_argv jos argvAB + 4 * i) ∧
        load32 (child_stack_byte jos o) (child_argv jos argvAB + 4 * i) + s.length + 1
          ≤ jos.USTACKTOP ∧
        (∀ j, j < s.length →
          child_stack_byte jos o
            (load32 (child_stack_byte jos o) (child_argv jos argvAB + 4 * i) + j)
              = s.getD j 0) ∧
        child_stack_byte jos o
          (load32 (child_stack_byte jos o) (child_argv jos argvAB + 4 * i) + s.length) = 0 :=
  ⟨_, rfl, (init_stack_page jos sysOK argvAB (fun _ => 0) false (by decide) (by decide)
    (by decide) (by decide) (by decide)).2 _ rfl⟩

theorem string_store0_big : string_store0 jos argvBig = 3198400 := by
  have h1 : string_size 0 argvBig = 1000000 := by
    rw [string_size_eq _ _ (by decide), argvBig, total_bytes_replicate_nil]
    norm_num [W32]
  simp only [string_store0, h1]
  norm_num [sub32, add32, W32, jos]

theorem init_fill_big (m : Mem) : init_fill jos argvBig m = none := by
  have hcons : argvBig = [] :: List.replicate 999999 [] := by
    rw [argvBig, show (1000000 : Nat) = 999999 + 1 from rfl, List.replicate_succ]
  have hst : strcpy jos m 3198400 [] = none := by
    have hout : ¬ in_page jos (3198400 % W32) := by decide
    unfold strcpy page_store8
    rw [if_neg hout]
  unfold init_fill
  simp only [string_store0_big]
  rw [hcons, init_loop, hst]
  rfl

theorem init_stack_big (m : Mem) (b : Bool) :
    init_stack jos sysOK argvBig m b = .fault [.page_alloc jos.UTEMP] := by
  have h : ¬ (sub32 4294165692 8 < jos.UTEMP) := by norm_num [sub32, W32, jos]
  have h2 : ¬ sysOK.r_alloc < 0 := by decide
  rw [init_stack_eq, argv_store0_big, if_neg h, if_neg h2, init_fill_big]

/-- C5 at the failing input: for one million empty argument strings the total
string size 1000000 is below `UTEMP + PGSIZE`, and strings, pointer array and
header words need 5000012 bytes, more than a page; the subtraction of line 198
wraps below zero, so the size check passes: init_stack does not return
-E_NO_MEM but calls sys_page_alloc and then stores outside the page. -/
theorem init_stack_size_check_wraps :
    total_bytes argvBig ≤ jos.UTEMP + jos.PGSIZE ∧
    jos.PGSIZE < total_bytes argvBig + 4 * (argvBig.length + 1) + 8 ∧
    init_stack jos sysOK argvBig (fun _ => 0) false = .fault [.page_alloc jos.UTEMP] := by
  have hl : argvBig.length = 1000000 := by rw [argvBig, List.length_replicate]
  have ht : total_bytes argvBig = 1000000 := by rw [argvBig, total_bytes_replicate_nil]
  refine ⟨?_, ?_, init_stack_big _ _⟩
  · rw [ht]; decide
  · rw [ht, hl]; decide

/-- Counterexample to C6 as stated: for the argument list `["a"]` init_stack
returns 0 with the initial stack pointer `USTACKTOP - 20`; the word the child
finds there is argc (1), not the address of the pointer array, and the word at
the stack pointer plus 4 is the address `USTACKTOP - 12` of the pointer array
(whose first entry points to the string at `USTACKTOP - 2`), not argc. -/
theorem init_stack_header_words :
    ∃ o, init_stack jos sysOK [[97]] (fun _ => 0) false = .ret o ∧ o.ret = 0 ∧
      o.init_esp = some 4005552108 ∧ child_argv jos [[97]] = 4005552116 ∧
      load32 (child_stack_byte jos o) 4005552108 = 1 ∧
      load32 (child_stack_byte jos o) (4005552108 + 4) = 4005552116 ∧
      load32 (child_stack_byte jos o) 4005552108 ≠ child_argv jos [[97]] ∧
      load32 (child_stack_byte jos o) (4005552108 + 4) ≠ ([[97]] : List CStr).length ∧
      load32 (child_stack_byte jos o) 4005552116 = 4005552126 ∧
      child_stack_byte jos o 4005552126 = 97 :=
  ⟨_, rfl, rfl, rfl, by decide, by decide, by decide, by decide, by decide, by decide,
    by decide⟩

/-- C6, as amended. On every call of init_stack that returns 0, the value
stored to `*init_esp` is a word-aligned child address in the stack page, 8
below the pointer array; the word the child finds there holds argc, and the
next higher word, at the stack pointer plus 4, holds the child address of the
pointer array. -/
theorem init_stack_header_order (L : Layout) (sys : StackSys) (argv : List CStr) (m : Mem)
    (b : Bool) (o : StackOut) (hL : L.WF) (hret : init_stack L sys argv m b = .ret o)
    (hok : o.ret = 0) :
    ∃ esp, o.init_esp = some esp ∧ o.child_mapped = true ∧
      L.USTACKTOP - L.PGSIZE ≤ esp ∧ esp % 4 = 0 ∧ esp + 8 = child_argv L argv ∧
      child_argv L argv + 4 * (argv.length + 1) ≤ L.USTACKTOP ∧
      load32 (child_stack_byte L o) esp = argv.length ∧
      load32 (child_stack_byte L o) (esp + 4) = child_argv L argv := by
  obtain ⟨hcm, _, _⟩ := init_stack_ret_zero L sys argv m b o hL hret hok
  obtain ⟨hfit, hmem, hesp⟩ := init_stack_mapped L sys argv m b o hL hret hcm
  obtain ⟨g1, g2, g3, g4, g5, g6, _, _⟩ :=
    stack_page_layout L argv (memset0 m L.UTEMP L.PGSIZE) o hL hfit hmem
  refine ⟨child_argv L argv - 8, by rw [hesp, g1], hcm, by omega, by omega, by omega, g4, g5, ?_⟩
  have e : child_argv L argv - 8 + 4 = child_argv L argv - 4 := by omega
  rw [e]
  exact g6

theorem init_stack_header_order_witness :
    ∃ o, init_stack jos sysOK argvAB (fun _ => 0) false = .ret o ∧ o.ret = 0 ∧
      ∃ esp, o.init_esp = some esp ∧ o.child_mapped = true ∧
        jos.USTACKTOP - jos.PGSIZE ≤ esp ∧ esp % 4 = 0 ∧ esp + 8 = child_argv jos argvAB ∧
        child_argv jos argvAB + 4 * (argvAB.length + 1) ≤ jos.USTACKTOP ∧
        load32 (child_stack_byte jos o) esp = argvAB.length ∧
        load32 (child_stack_byte jos o) (esp + 4) = child_argv jos argvAB :=
  ⟨_, rfl, rfl, init_stack_header_order jos sysOK argvAB (fun _ => 0) false _ (by decide) rfl rfl⟩

/-! ## The segment loops of spawn -/

theorem do_read_map_ok (w : World) (off : Nat) (h : 0 ≤ w.rc w.trace.length) :
    do_read_map w off = .ok (w.log (.read_map off), .file off) := by
  simp [do_read_map, World.code, not_lt.mpr h]

theorem do_map_ok (w : World) (src : Option PageId) (va : Nat) (perm : Perm)
    (h : 0 ≤ w.rc w.trace.length) :
    do_map w src va perm = .ok { w.log (.page_map src va perm) with
      child := fun a => if a = va then src.map (fun p => (p, perm)) else w.child a } := by
  simp [do_map, World.code, not_lt.mpr h]

theorem ro_loop_spec (L : Layout) (hL : L.PGSIZE = 4096) (start va : Nat) :
    ∀ (n j fuel : Nat) (w : World), n < fuel → start + (j + n) * 4096 + 4096 ≤ W32 →
    (∀ k, w.trace.length ≤ k → 0 ≤ w.rc k) →
    ∃ w1, ro_loop L start (start + (j + n) * 4096) va fuel (start + j * 4096) w = .done w1 ∧
      w1.trace = w.trace ++ ro_trace L start va j n ∧
      w1.anon = w.anon ∧ w1.next = w.next ∧ w1.utemp = w.utemp ∧ w1.fpos = w.fpos ∧
      w1.file = w.file ∧
      (∀ a, (∀ i, j ≤ i → i < j + n → a ≠ add32 va (i * 4096)) → w1.child a = w.child a) ∧
      (∀ i, j ≤ i → i < j + n →
        w1.child (add32 va (i * 4096)) = some (.file (start + i * 4096), PTE_P_U)) := by
  intro n
  induction n with
  | zero =>
    intro j fuel w hf _ _
    obtain ⟨f, rfl⟩ : ∃ f, fuel = f + 1 := ⟨fuel - 1, by omega⟩
    refine ⟨w, by simp [ro_loop], by simp [ro_trace], rfl, rfl, rfl, rfl, rfl,
      fun _ _ => rfl, fun i h1 h2 => by omega⟩
  | succ n ih =>
    intro j fuel w hf hb hok
    obtain ⟨f, rfl⟩ : ∃ f, fuel = f + 1 := ⟨fuel - 1, by omega⟩
    have hlt : start + j * 4096 < start + (j + (n + 1)) * 4096 := by omega
    have hsub : sub32 (start + j * 4096) start = j * 4096 := by
      rw [sub32_eq _ _ (by omega) (by unfold W32 at *; omega)]; omega
    have hadd : add32 (start + j * 4096) L.PGSIZE = start + (j + 1) * 4096 := by
      rw [hL, add32_eq _ _ (by unfold W32 at *; omega)]; omega
    have hj : j + (n + 1) = j + 1 + n := by omega
    have hok1 : 0 ≤ (w.log (.read_map (start + j * 4096))).rc
        (w.log (.read_map (start + j * 4096))).trace.length :=
      hok _ (by simp [World.log])
    obtain ⟨w1, hrun, htr, han, hnx, hut, hfp, hfi, hch1, hch2⟩ :=
      ih (j + 1) f
        { (w.log (.read_map (start + j * 4096))).log
            (.page_map (some (.file (start + j * 4096))) (add32 va (j * 4096)) PTE_P_U) with
          child := fun a => if a = add32 va (j * 4096)
            then (some (PageId.file (start + j * 4096))).map (fun p => (p, PTE_P_U))
            else (w.log (.read_map (start + j * 4096))).child a }
        (by omega) (by rw [← hj]; exact hb)
        (fun k hk => hok k (by simp [World.log] at hk; omega))
    refine ⟨w1, ?_, ?_, han, hnx, hut, hfp, hfi, ?_, ?_⟩
    · rw [ro_loop, if_pos hlt, do_read_map_ok w _ (hok _ (le_refl _))]
      simp only
      rw [do_map_ok _ _ _ _ hok1, hsub]
      simp only
      rw [hadd, hj]
      exact hrun
    · rw [htr]
      simp [World.log, ro_trace, hL]
    · intro a ha
      rw [hch1 a (fun i h1 h2 => ha i (by omega) (by omega))]
      have hne : a ≠ add32 va (j * 4096) := ha j (le_refl _) (by omega)
      simp [World.log, hne]
    · intro i h1 h2
      by_cases hij : i = j
      · subst hij
        rw [hch1 _ (fun i' h1' h2' => by
          unfold add32 W32 at *; omega)]
        simp [World.log]
      · exact hch2 i (by omega) (by omega)

/-- C10, as amended. For a loadable segment without the write flag whose file
range does not wrap the 32-bit offset computation
(`p_offset + p_filesz + PGSIZE <= 2^32`) and with
`PGOFF(p_offset) == PGOFF(p_va)`, when every collaborator call succeeds the
loop ends having made, for the page-aligned file offsets `i` from
`ROUNDDOWN(p_offset)` up to `ROUNDUP(p_offset + p_filesz)` in order, exactly
the calls `read_map(i)` and `sys_page_map` of the page `read_map` returned, at
`ROUNDDOWN(p_va) + (i - ROUNDDOWN(p_offset))` with `PTE_P|PTE_U`; no page is
allocated and nothing is copied; the child maps the block-cache page of each
such offset, which depends on the file offset alone, and the child byte at
`p_va + k` is the file byte at `p_offset + k` for every `k < p_filesz`. -/
theorem ro_segment_maps_file_pages (L : Layout) (ph : Proghdr) (w : World) (fuel : Nat)
    (hL : L.WF) (hph : ph.WF) (hro : ph.writable = false)
    (hoff : ph.p_offset % L.PGSIZE = ph.p_va % L.PGSIZE)
    (hfit : ph.p_offset + ph.p_filesz + L.PGSIZE ≤ W32)
    (hok : ∀ k, w.trace.length ≤ k → 0 ≤ w.rc k)
    (hfuel : ph.p_filesz / L.PGSIZE + 2 < fuel) :
    ∃ w1 n, load_segment L ph fuel w = .done w1 ∧
      ROUNDDOWN ph.p_offset L.PGSIZE + n * L.PGSIZE
        = ROUNDUP (ph.p_offset + ph.p_filesz) L.PGSIZE ∧
      w1.trace = w.trace ++
        ro_trace L (ROUNDDOWN ph.p_offset L.PGSIZE) (ROUNDDOWN ph.p_va L.PGSIZE) 0 n ∧
      w1.anon = w.anon ∧ w1.next = w.next ∧ w1.utemp = w.utemp ∧ w1.fpos = w.fpos ∧
      w1.file = w.file ∧
      (∀ i, i < n → w1.child (add32 (ROUNDDOWN ph.p_va L.PGSIZE) (i * L.PGSIZE))
        = some (.file (ROUNDDOWN ph.p_offset L.PGSIZE + i * L.PGSIZE), PTE_P_U)) ∧
      (∀ k, k < ph.p_filesz →
        w1.child_byte L (add32 ph.p_va k) = some (w.file (ph.p_offset + k))) := by
  obtain ⟨hPG, _⟩ := hL
  obtain ⟨ho32, hv32, hf32, _⟩ := hph
  rw [hPG] at hoff hfit hfuel
  have hstart : ROUNDDOWN ph.p_offset 4096 = ph.p_offset - ph.p_offset % 4096 := by
    unfold ROUNDDOWN W32 at *; omega
  have hva : ROUNDDOWN ph.p_va 4096 = ph.p_va - ph.p_va % 4096 := by
    unfold ROUNDDOWN W32 at *; omega
  have hsum : add32 ph.p_filesz ph.p_offset = ph.p_offset + ph.p_filesz := by
    unfold add32 W32 at *; omega
  obtain ⟨n, hstop, hn1, hn2, hn3⟩ : ∃ n, ROUNDUP (ph.p_offset + ph.p_filesz) 4096
      = ph.p_offset - ph.p_offset % 4096 + (0 + n) * 4096 ∧
      ph.p_offset % 4096 + ph.p_filesz ≤ n * 4096 ∧ n ≤ ph.p_filesz / 4096 + 2 ∧
      n * 4096 < ph.p_offset % 4096 + ph.p_filesz + 4096 := by
    refine ⟨(ROUNDUP (ph.p_offset + ph.p_filesz) 4096
      - (ph.p_offset - ph.p_offset % 4096)) / 4096, ?_, ?_, ?_, ?_⟩ <;>
    · unfold ROUNDUP ROUNDDOWN add32 sub32 W32 at *; omega
  obtain ⟨w1, hrun, htr, han, hnx, hut, hfp, hfi, _, hch⟩ :=
    ro_loop_spec L hPG (ph.p_offset - ph.p_offset % 4096) (ph.p_va - ph.p_va % 4096)
      n 0 fuel w (by omega) (by unfold W32 at hfit ⊢; omega) hok
  refine ⟨w1, n, ?_, ?_, ?_, han, hnx, hut, hfp, hfi, ?_, ?_⟩
  · unfold load_segment
    rw [if_pos hro, hPG, hsum, hstart, hva, hstop]
    simpa using hrun
  · rw [hPG, hstart, hstop]; omega
  · rw [hPG, hstart, hva]; exact htr
  · intro i hi
    rw [hPG, hstart, hva]
    exact hch i (Nat.zero_le _) (by omega)
  · intro k hk
    have hi : (ph.p_va % 4096 + k) / 4096 < 0 + n := by omega
    have hpage : ROUNDDOWN (add32 ph.p_va k) 4096
        = add32 (ph.p_va - ph.p_va % 4096) ((ph.p_va % 4096 + k) / 4096 * 4096) := by
      unfold ROUNDDOWN add32 W32 at *; omega
    have hpo : add32 ph.p_va k % 4096 = (ph.p_va % 4096 + k) % 4096 := by
      unfold add32 W32 at *; omega
    unfold World.child_byte
    rw [hPG, hpage, hch _ (Nat.zero_le _) hi, hpo]
    simp only [Option.map_some', World.page_byte, hfi]
    have he : ph.p_offset - ph.p_offset % 4096 + (ph.p_va % 4096 + k) / 4096 * 4096
        + (ph.p_va % 4096 + k) % 4096 = ph.p_offset + k := by omega
    rw [he]

/-- Witness for C10: 5000 bytes of text at file offset 0x1020. -/
theorem ro_segment_maps_file_pages_witness :
    ∃ w1 n, load_segment jos phText 4 (World.init (fun o => o % 251)) = .done w1 ∧
      ROUNDDOWN phText.p_offset jos.PGSIZE + n * jos.PGSIZE
        = ROUNDUP (phText.p_offset + phText.p_filesz) jos.PGSIZE ∧
      w1.trace = (World.init (fun o => o % 251)).trace ++
        ro_trace jos (ROUNDDOWN phText.p_offset jos.PGSIZE)
          (ROUNDDOWN phText.p_va jos.PGSIZE) 0 n ∧
      w1.anon = (World.init (fun o => o % 251)).anon ∧
      w1.next = (World.init (fun o => o % 251)).next ∧
      w1.utemp = (World.init (fun o => o % 251)).utemp ∧
      w1.fpos = (World.init (fun o => o % 251)).fpos ∧
      w1.file = (World.init (fun o => o % 251)).file ∧
      (∀ i, i < n → w1.child (add32 (ROUNDDOWN phText.p_va jos.PGSIZE) (i * jos.PGSIZE))
        = some (.file (ROUNDDOWN phText.p_offset jos.PGSIZE + i * jos.PGSIZE), PTE_P_U)) ∧
      (∀ k, k < phText.p_filesz →
        w1.child_byte jos (add32 phText.p_va k)
          = some ((World.init (fun o => o % 251)).file (phText.p_offset + k))) :=
  ro_segment_maps_file_pages jos phText (World.init (fun o => o % 251)) 4
    (by decide) (by decide) rfl (by decide) (by decide)
    (fun _ _ => le_refl _) (by decide)

/-- Counterexample to C10 as stated: for a read-only segment whose
`p_offset + p_filesz` is 2^32 the sum wraps to 0, the loop runs zero times, and
nothing is mapped at `p_va`, although the file offset `p_offset` is below
`p_offset + p_filesz`. -/
theorem ro_segment_wraps :
    phWrap.WF ∧ phWrap.writable = false ∧ phWrap.p_filesz ≤ phWrap.p_memsz ∧
    phWrap.p_offset % jos.PGSIZE = phWrap.p_va % jos.PGSIZE ∧
    0 < phWrap.p_filesz ∧
    ((load_segment jos phWrap 1 (World.init (fun o => o % 251))).world?.map
      (fun w => (w.trace, w.child_byte jos phWrap.p_va))) = some ([], none) := by
  decide

/-! ## The writable-segment loop -/

theorem rw_loop_step (L : Layout) (hL : L.PGSIZE = 4096) (ph : Proghdr) (start stop va : Nat)
    (fuel i : Nat) (w : World) (hlt : i < stop)
    (hok : ∀ k, w.trace.length ≤ k → 0 ≤ w.rc k) :
    ∃ n calls, rw_loop L ph start stop va (fuel + 1) i w
        = rw_loop L ph start stop va fuel (add32 i L.PGSIZE)
            (w.after_page (add32 va (sub32 i start)) n calls) ∧
      n = (if i < add32 ph.p_offset ph.p_filesz then
            (if sub32 (add32 ph.p_offset ph.p_filesz) i ≥ 4096 then 4096
             else sub32 (add32 ph.p_offset ph.p_filesz) i)
           else 0) := by
  have hc0 : ¬ (w.rc w.trace.length < 0) := not_lt.mpr (hok _ (le_refl _))
  have hc1 : ¬ (w.rc (w.trace.length + 1) < 0) := not_lt.mpr (hok _ (by omega))
  have hc2 : ¬ (w.rc (w.trace.length + 1 + 1) < 0) := not_lt.mpr (hok _ (by omega))
  have hc3 : ¬ (w.rc (w.trace.length + 1 + 1 + 1) < 0) := not_lt.mpr (hok _ (by omega))
  by_cases hrd : i < add32 ph.p_offset ph.p_filesz
  · by_cases hfull : sub32 (add32 ph.p_offset ph.p_filesz) i ≥ 4096
    · refine ⟨4096, [.page_alloc, .read 4096,
        .page_map (some (.anon w.next)) (add32 va (sub32 i start)) PTE_P_U_W, .page_unmap],
        ?_, by simp [hrd, hfull]⟩
      rw [rw_loop, if_pos hlt]
      simp only [do_alloc, World.code, World.log, hc0, if_false, hrd, if_true, hL, hfull,
        do_read, do_map, do_unmap, List.length_append, List.length_singleton, hc1, hc2, hc3,
        ge_iff_le]
      congr 1
      simp only [World.after_page, World.mk.injEq, List.append_assoc, List.singleton_append,
        Option.map_some', and_true, true_and]
      refine ⟨?_, ?_⟩
      · funext p
        by_cases hp : p = w.next
        · subst hp; simp
        · have hp' : ¬ (some p = some w.next) := by simpa using hp
          simp [hp, hp']
      · trivial
    · refine ⟨sub32 (add32 ph.p_offset ph.p_filesz) i,
        [.page_alloc, .read (sub32 (add32 ph.p_offset ph.p_filesz) i),
         .page_map (some (.anon w.next)) (add32 va (sub32 i start)) PTE_P_U_W, .page_unmap],
        ?_, by simp [hrd, hfull]⟩
      rw [rw_loop, if_pos hlt]
      simp only [do_alloc, World.code, World.log, hc0, if_false, hrd, if_true, hL, hfull,
        do_read, do_map, do_unmap, List.length_append, List.length_singleton, hc1, hc2, hc3,
        ge_iff_le]
      congr 1
      simp only [World.after_page, World.mk.injEq, List.append_assoc, List.singleton_append,
        Option.map_some', and_true, true_and]
      refine ⟨?_, ?_⟩
      · funext p
        by_cases hp : p = w.next
        · subst hp; simp
        · have hp' : ¬ (some p = some w.next) := by simpa using hp
          simp [hp, hp']
      · trivial
  · refine ⟨0, [.page_alloc,
      .page_map (some (.anon w.next)) (add32 va (sub32 i start)) PTE_P_U_W, .page_unmap],
      ?_, by simp [hrd]⟩
    rw [rw_loop, if_pos hlt]
    simp only [do_alloc, World.code, World.log, hc0, if_false, hrd, hL,
      do_map, do_unmap, List.length_append, List.length_singleton, hc1, hc2]
    congr 1
    simp only [World.after_page, World.mk.injEq, List.append_assoc, List.singleton_append,
      Option.map_some', and_true, true_and, Nat.add_zero]
    refine ⟨?_, ?_⟩
    · funext p
      by_cases hp : p = w.next
      · subst hp; simp
      · simp [hp]
    · trivial

theorem rw_loop_spec (L : Layout) (hL : L.PGSIZE = 4096) (ph : Proghdr) (va : Nat)
    (hend : ph.p_offset + ph.p_filesz < W32) :
    ∀ (n j fuel : Nat) (w : World), n < fuel →
    ph.p_offset + (j + n) * 4096 + 4096 ≤ W32 →
    (∀ k, w.trace.length ≤ k → 0 ≤ w.rc k) →
    w.fpos = ph.p_offset + min (j * 4096) ph.p_filesz →
    ∃ w1, rw_loop L ph ph.p_offset (ph.p_offset + (j + n) * 4096) va fuel
        (ph.p_offset + j * 4096) w = .done w1 ∧
      (0 < n → w1.utemp = none) ∧ (n = 0 → w1.utemp = w.utemp) ∧ w1.file = w.file ∧
      w.next ≤ w1.next ∧ (∀ p, p < w.next → w1.anon p = w.anon p) ∧
      (∀ a, (∀ i, j ≤ i → i < j + n → a ≠ add32 va (i * 4096)) → w1.child a = w.child a) ∧
      (∀ i, j ≤ i → i < j + n →
        ∃ pid, w1.child (add32 va (i * 4096)) = some (.anon pid, PTE_P_U_W) ∧
          ∀ o, o < 4096 → w1.anon pid o
            = if i * 4096 + o < ph.p_filesz then w.file (ph.p_offset + i * 4096 + o)
              else 0) := by
  intro n
  induction n with
  | zero =>
    intro j fuel w hf _ _ _
    obtain ⟨f, rfl⟩ : ∃ f, fuel = f + 1 := ⟨fuel - 1, by omega⟩
    exact ⟨w, by simp [rw_loop], fun h => absurd h (lt_irrefl 0), fun _ => rfl, rfl,
      le_refl _, fun _ _ => rfl, fun _ _ => rfl, fun i h1 h2 => by omega⟩
  | succ n ih =>
    intro j fuel w hf hb hok hpos
    obtain ⟨f, rfl⟩ : ∃ f, fuel = f + 1 := ⟨fuel - 1, by omega⟩
    have hlt : ph.p_offset + j * 4096 < ph.p_offset + (j + (n + 1)) * 4096 := by omega
    obtain ⟨nr, calls, hstep, hnr⟩ :=
      rw_loop_step L hL ph ph.p_offset (ph.p_offset + (j + (n + 1)) * 4096) va f
        (ph.p_offset + j * 4096) w hlt hok
    have hsub : sub32 (ph.p_offset + j * 4096) ph.p_offset = j * 4096 := by
      rw [sub32_eq _ _ (by omega) (by unfold W32 at *; omega)]; omega
    have hadd : add32 (ph.p_offset + j * 4096) L.PGSIZE = ph.p_offset + (j + 1) * 4096 := by
      rw [hL, add32_eq _ _ (by unfold W32 at *; omega)]; omega
    have hfend : add32 ph.p_offset ph.p_filesz = ph.p_offset + ph.p_filesz :=
      add32_eq _ _ hend
    have hnr' : nr = min 4096 (ph.p_filesz - j * 4096) := by
      rw [hnr, hfend]
      by_cases h1 : ph.p_offset + j * 4096 < ph.p_offset + ph.p_filesz
      · rw [if_pos h1, sub32_eq _ _ (by omega) hend]
        by_cases h2 : ph.p_offset + ph.p_filesz - (ph.p_offset + j * 4096) ≥ 4096
        · rw [if_pos h2]; omega
        · rw [if_neg h2]; omega
      · rw [if_neg h1]; omega
    have hj : j + (n + 1) = j + 1 + n := by omega
    rw [hsub, hadd, hj] at hstep
    obtain ⟨w1, hrun, hut, _, hfi, hnx, han, hch1, hch2⟩ :=
      ih (j + 1) f (w.after_page (add32 va (j * 4096)) nr calls) (by omega)
        (by rw [← hj]; exact hb)
        (fun k hk => hok k (by simp [World.after_page] at hk; omega))
        (by simp only [World.after_page]; rw [hpos, hnr']; omega)
    refine ⟨w1, by rw [hj, hstep]; exact hrun, fun _ => ?_, fun h => by omega, hfi,
      by simp only [World.after_page] at hnx; omega, ?_, ?_, ?_⟩
    · by_cases hn : 0 < n
      · exact hut hn
      · have hn0 : n = 0 := by omega
        subst hn0
        obtain ⟨f', rfl⟩ : ∃ f', f = f' + 1 := ⟨f - 1, by omega⟩
        simp only [rw_loop, Nat.add_zero, lt_irrefl, if_false, Outcome.done.injEq] at hrun
        rw [← hrun]
        rfl
    · intro p hp
      rw [han p (by simp only [World.after_page]; omega)]
      simp only [World.after_page]
      rw [if_neg (by omega)]
    · intro a ha
      rw [hch1 a (fun i h1 h2 => ha i (by omega) (by omega))]
      have hne : a ≠ add32 va (j * 4096) := ha j (le_refl _) (by omega)
      simp only [World.after_page]
      rw [if_neg hne]
    · intro i h1 h2
      by_cases hij : i = j
      · subst hij
        refine ⟨w.next, ?_, ?_⟩
        · rw [hch1 _ (fun i' h1' h2' => by unfold add32 W32 at *; omega)]
          simp [World.after_page]
        · intro o ho
          rw [han w.next (by simp only [World.after_page]; omega)]
          simp only [World.after_page, if_true]
          by_cases hk : i * 4096 + o < ph.p_filesz
          · rw [if_pos hk, if_pos (by omega), hpos]
            congr 1
            omega
          · rw [if_neg hk, if_neg (by omega)]
      · obtain ⟨pid, hp1, hp2⟩ := hch2 i (by omega) (by omega)
        exact ⟨pid, hp1, hp2⟩

/-- The writable-segment loop on a page-aligned segment: when `p_offset` and
`p_va` are multiples of the page size, `p_filesz <= p_memsz`, the ranges do not
wrap and every call succeeds (read transferring the full count), the loop ends
with no page left at UTEMP, and for every `k < p_memsz` the child byte at
`p_va + k` is the file byte at `p_offset + k` when `k < p_filesz` and 0
otherwise. -/
theorem rw_segment_aligned (L : Layout) (ph : Proghdr) (w : World) (fuel : Nat)
    (hL : L.WF) (hph : ph.WF) (hw : ph.writable = true)
    (ho : ph.p_offset % L.PGSIZE = 0) (hv : ph.p_va % L.PGSIZE = 0)
    (hsz : ph.p_filesz ≤ ph.p_memsz)
    (hfit : ph.p_offset + ph.p_memsz + L.PGSIZE ≤ W32)
    (hok : ∀ k, w.trace.length ≤ k → 0 ≤ w.rc k)
    (hfuel : ph.p_memsz / L.PGSIZE + 2 < fuel) :
    ∃ w1, load_segment L ph fuel w = .done w1 ∧ (0 < ph.p_memsz → w1.utemp = none) ∧
      ∀ k, k < ph.p_memsz →
        w1.child_byte L (add32 ph.p_va k)
          = some (if k < ph.p_filesz then w.file (ph.p_offset + k) else 0) := by
  obtain ⟨hPG, _⟩ := hL
  obtain ⟨ho32, hv32, hf32, _⟩ := hph
  rw [hPG] at ho hv hfit hfuel
  have hstart : ROUNDDOWN ph.p_offset 4096 = ph.p_offset := by
    unfold ROUNDDOWN W32 at *; omega
  have hva : ROUNDDOWN ph.p_va 4096 = ph.p_va := by
    unfold ROUNDDOWN W32 at *; omega
  obtain ⟨n, hstop, hn1, hn2, hn3⟩ : ∃ n, ROUNDUP (add32 ph.p_memsz ph.p_offset) 4096
      = ph.p_offset + (0 + n) * 4096 ∧
      ph.p_memsz ≤ n * 4096 ∧ n ≤ ph.p_memsz / 4096 + 2 ∧
      n * 4096 < ph.p_memsz + 4096 := by
    refine ⟨(ROUNDUP (add32 ph.p_memsz ph.p_offset) 4096 - ph.p_offset) / 4096,
      ?_, ?_, ?_, ?_⟩ <;>
    · unfold ROUNDUP ROUNDDOWN add32 sub32 W32 at *; omega
  have hseek : do_seek w ph.p_offset
      = { w.log (.seek ph.p_offset) with fpos := ph.p_offset } := by
    simp [do_seek, World.code, not_lt.mpr (hok _ (le_refl _))]
  obtain ⟨w1, hrun, hut, _, hfi, _, _, _, hch⟩ :=
    rw_loop_spec L hPG ph ph.p_va (by unfold W32 at *; omega) n 0 fuel
      { w.log (.seek ph.p_offset) with fpos := ph.p_offset } (by omega)
      (by unfold W32 at hfit ⊢; omega)
      (fun k hk => hok k (by simp [World.log] at hk; omega)) (by simp)
  refine ⟨w1, ?_, fun hpos => hut (by omega), ?_⟩
  · unfold load_segment
    rw [if_neg (by simp [hw]), hPG, hstart, hva, hstop, hseek]
    simpa using hrun
  · intro k hk
    have hi : k / 4096 < 0 + n := by omega
    have hpage : ROUNDDOWN (add32 ph.p_va k) 4096 = add32 ph.p_va (k / 4096 * 4096) := by
      unfold ROUNDDOWN add32 W32 at *; omega
    have hpo : add32 ph.p_va k % 4096 = k % 4096 := by
      unfold add32 W32 at *; omega
    obtain ⟨pid, hp1, hp2⟩ := hch (k / 4096) (Nat.zero_le _) hi
    unfold World.child_byte
    rw [hPG, hpage, hp1, hpo]
    simp only [Option.map_some', World.page_byte]
    rw [hp2 _ (Nat.mod_lt _ (by decide))]
    have e1 : k / 4096 * 4096 + k % 4096 = k := by omega
    have e2 : ph.p_offset + k / 4096 * 4096 + k % 4096 = ph.p_offset + k := by omega
    rw [e1, e2]
    rfl

/-- C2 at an unaligned segment: 16 bytes at file offset 0x1020 loaded at
0x802020. The loop completes, and the child byte at `p_va` is the file byte at
offset 0x1040 (value 144), not the one at `p_offset` (value 112); the child
byte at `p_va + 15` is the file byte at offset 0x104f. -/
theorem rw_segment_unaligned :
    phUnaligned.WF ∧ phUnaligned.writable = true ∧
    phUnaligned.p_filesz ≤ phUnaligned.p_memsz ∧
    phUnaligned.p_offset % jos.PGSIZE = phUnaligned.p_va % jos.PGSIZE ∧
    ((load_segment jos phUnaligned 2 (World.init (fun o => o % 251))).world?.map
      (fun w => (w.child_byte jos phUnaligned.p_va,
                 w.child_byte jos (phUnaligned.p_va + 15)))) = some (some 144, some 159) ∧
    (fun o => o % 251) phUnaligned.p_offset = 112 ∧
    (fun o => o % 251) (phUnaligned.p_offset + 15) = 127 := by
  decide

/-! ## Lemmas on 32-bit arithmetic -/

theorem wrap32_of_range {x : Int} (h1 : INT_MIN ≤ x) (h2 : x ≤ INT_MAX) : wrap32 x = x := by
  unfold wrap32; unfold INT_MIN at h1; unfold INT_MAX at h2; omega

theorem wrap32_range (x : Int) : INT_MIN ≤ wrap32 x ∧ wrap32 x ≤ INT_MAX := by
  unfold wrap32 INT_MIN INT_MAX; omega

theorem wrap32_add_left (a b : Int) : wrap32 (wrap32 a + b) = wrap32 (a + b) := by
  unfold wrap32; omega

theorem cell_natCast (n : Nat) : cell (n : Int) = some (n % PIPEBUFSIZ) := by
  have h : Int.tmod (n : Int) (PIPEBUFSIZ : Int) = ((n % PIPEBUFSIZ : Nat) : Int) :=
    (Int.ofNat_tmod n PIPEBUFSIZ).symm
  unfold cell
  rw [h, if_pos (Int.ofNat_nonneg _), Int.toNat_ofNat]

theorem cell_of_nonneg {x : Int} (h : 0 ≤ x) : cell x = some (x.toNat % PIPEBUFSIZ) := by
  obtain ⟨n, rfl⟩ := Int.eq_ofNat_of_zero_le h
  simpa using cell_natCast n

/-! ## The counters stay 32-bit values with a non-negative read counter -/

theorem wf_fresh : Pipe.fresh.WF := by
  unfold Pipe.WF Pipe.fresh INT_MAX INT_MIN; decide

theorem piperead_step_wf (p p1 : Pipe) (c : Nat) (hwf : p.WF)
    (h : piperead_step p = .moved p1 c) : p1.WF := by
  obtain ⟨h0, h1, h2, h3⟩ := hwf
  unfold piperead_step at h
  split at h
  · next hlt =>
    split at h
    · cases h
    · injection h with hp _
      subst hp
      have hw : wrap32 (p.p_rpos + 1) = p.p_rpos + 1 :=
        wrap32_of_range (by unfold INT_MIN; omega) (by omega)
      exact ⟨by simp only [hw]; omega, by simp only [hw]; omega, h2, h3⟩
  · cases h

theorem pipewrite_step_wf (p p1 : Pipe) (b c : Nat) (hwf : p.WF)
    (h : pipewrite_step p b = .moved p1 c) : p1.WF := by
  obtain ⟨h0, h1, h2, h3⟩ := hwf
  unfold pipewrite_step at h
  split at h
  · cases h
  · split at h
    · cases h
    · injection h with hp _
      subst hp
      exact ⟨h0, h1, (wrap32_range _).1, (wrap32_range _).2⟩

theorem run_wf (ops : List Op) : ∀ h h1 : Hist, h.p.WF → run h ops = some h1 → h1.p.WF := by
  induction ops with
  | nil =>
    intro h h1 hwf hr
    simp only [run, Option.some.injEq] at hr
    subst hr
    exact hwf
  | cons o os ih =>
    intro h h1 hwf hr
    simp only [run] at hr
    cases he : exec h o with
    | none => rw [he] at hr; cases hr
    | some h2 =>
      rw [he] at hr
      refine ih h2 h1 ?_ hr
      cases o with
      | rd =>
        simp only [exec] at he
        split at he
        · next p1 b hs =>
          injection he with he
          subst he
          exact piperead_step_wf _ _ _ hwf hs
        · injection he with he
          subst he
          exact hwf
        · cases he
      | wr b =>
        simp only [exec] at he
        split at he
        · next p1 c hs =>
          injection he with he
          subst he
          exact pipewrite_step_wf _ _ _ _ hwf hs
        · injection he with he
          subst he
          exact hwf
        · cases he

/-! ## piperead with data available -/

theorem piperead_step_of_lt (p : Pipe) (h0 : 0 ≤ p.p_rpos) (hlt : p.p_rpos < p.p_wpos)
    (hmax : p.p_wpos ≤ INT_MAX) :
    piperead_step p =
      .moved { p with p_rpos := p.p_rpos + 1 } (p.p_buf (p.p_rpos.toNat % PIPEBUFSIZ)) := by
  have hw : wrap32 (p.p_rpos + 1) = p.p_rpos + 1 :=
    wrap32_of_range (by unfold INT_MIN; omega) (by omega)
  simp [piperead_step, hlt, cell_of_nonneg h0, hw]

theorem piperead_step_of_ge (p : Pipe) (h : p.p_wpos ≤ p.p_rpos) : piperead_step p = .idle := by
  simp [piperead_step, not_lt.mpr h]

theorem piperead_loop_eq (k : Nat) : ∀ (p : Pipe) (out : List Nat), 0 ≤ p.p_rpos →
    p.p_wpos ≤ INT_MAX →
    piperead_loop k p out =
      some (out ++ (List.range (min k (p.p_wpos - p.p_rpos).toNat)).map
              (fun j => p.p_buf ((p.p_rpos.toNat + j) % PIPEBUFSIZ)),
            { p with p_rpos := p.p_rpos + (min k (p.p_wpos - p.p_rpos).toNat : Nat) }) := by
  induction k with
  | zero => intro p out _ _; simp [piperead_loop]
  | succ k ih =>
    intro p out h0 hmax
    by_cases hlt : p.p_rpos < p.p_wpos
    · rw [piperead_loop, piperead_step_of_lt p h0 hlt hmax]
      simp only
      rw [ih _ _ (by simp; omega) (by simpa using hmax)]
      have hc : min (k + 1) (p.p_wpos - p.p_rpos).toNat
          = min k (p.p_wpos - (p.p_rpos + 1)).toNat + 1 := by omega
      have ht : (p.p_rpos + 1).toNat = p.p_rpos.toNat + 1 := by omega
      simp only [hc, ht, List.range_succ_eq_map, List.map_cons, List.map_map,
        List.append_assoc, List.singleton_append, Nat.add_zero]
      congr 2
      · congr 2
        apply List.map_congr_left
        intro j _
        simp only [Function.comp, Nat.succ_eq_add_one]
        congr 2
        omega
      · congr 1
        push_cast
        omega
    · have hge : p.p_wpos ≤ p.p_rpos := not_lt.mp hlt
      rw [piperead_loop, piperead_step_of_ge p hge]
      have hc : min (k + 1) (p.p_wpos - p.p_rpos).toNat = 0 := by omega
      simp [hc]

/-- C7. In every pipe state holding at least one unread byte (`p_rpos < p_wpos`,
the counters being 32-bit values and the read counter non-negative, as in every
state that byte transfers produce from a fresh pipe) and for every size `n`, piperead
returns without calling sys_yield, whatever `_pipeisclosed` would answer; with
`c = min n (p_wpos - p_rpos)` it returns `c`, stores the cells
`p_buf[(p_rpos + j) % PIPEBUFSIZ]`, `j < c`, in order into the caller's buffer,
advances `p_rpos` by `c` and leaves `p_wpos` and every cell unchanged. -/
theorem piperead_available (p : Pipe) (n : Nat) (closed : Bool) (hwf : p.WF)
    (hlt : p.p_rpos < p.p_wpos) :
    piperead p n closed =
      .ret (min (n : Int) (p.p_wpos - p.p_rpos))
        ((List.range (min n (p.p_wpos - p.p_rpos).toNat)).map
          (fun j => p.p_buf ((p.p_rpos.toNat + j) % PIPEBUFSIZ)))
        { p_rpos := p.p_rpos + min (n : Int) (p.p_wpos - p.p_rpos),
          p_wpos := p.p_wpos, p_buf := p.p_buf } := by
  obtain ⟨h0, _, _, hmax⟩ := hwf
  have hc : ((min n (p.p_wpos - p.p_rpos).toNat : Nat) : Int)
      = min (n : Int) (p.p_wpos - p.p_rpos) := by omega
  unfold piperead
  rw [if_neg (by omega), piperead_loop_eq n p [] h0 hmax]
  simp only [List.nil_append, List.length_map, List.length_range, hc]
  rw [wrap32_of_range (by unfold INT_MIN; omega) (by unfold INT_MAX at *; omega)]

/-- Witness for C7: three bytes buffered at positions 30, 31, 32 (wrapping
around the array), five requested. -/
theorem piperead_available_witness :
    piperead { p_rpos := 30, p_wpos := 33, p_buf := fun j => j + 100 } 5 false =
      .ret 3 [130, 131, 100] { p_rpos := 33, p_wpos := 33, p_buf := fun j => j + 100 } := by
  have h := piperead_available { p_rpos := 30, p_wpos := 33, p_buf := fun j => j + 100 } 5 false
    (by unfold Pipe.WF INT_MAX INT_MIN; decide) (by decide)
  simpa [PIPEBUFSIZ, List.range_succ] using h

/-! ## _pipeisclosed -/

/-- C9. When the rounds before round `s` all saw `env_runs` change and round
`s` did not, `_pipeisclosed` returns 1 if `pageref(fd) == pageref(p)` in round
`s` and 0 otherwise, whatever the discarded rounds counted; pipeisclosed on a
descriptor that fd_lookup accepts returns the same. -/
theorem pipeisclosed_first_stable (pre post : List Sample) (s : Sample) (r : Int)
    (hpre : ∀ x ∈ pre, x.rc1 ≠ x.rc2) (hs : s.rc1 = s.rc2) (hr : 0 ≤ r) :
    _pipeisclosed (pre ++ s :: post) = some (if s.refd = s.refp then 1 else 0) ∧
    pipeisclosed r (pre ++ s :: post) = some (if s.refd = s.refp then 1 else 0) := by
  have key : _pipeisclosed (pre ++ s :: post) = some (if s.refd = s.refp then 1 else 0) := by
    induction pre with
    | nil => by_cases h : s.refd = s.refp <;> simp [_pipeisclosed, hs, h]
    | cons x xs ih =>
      have hx : x.rc1 ≠ x.rc2 := hpre x (List.mem_cons_self _ _)
      simp only [List.cons_append, _pipeisclosed, if_neg hx]
      exact ih (fun y hy => hpre y (List.mem_cons_of_mem _ hy))
  exact ⟨key, by simp [pipeisclosed, not_lt.mpr hr, key]⟩

/-- Witness for C9: the first round is torn with equal counts, the second is
stable with different counts. -/
theorem pipeisclosed_first_stable_witness :
    _pipeisclosed ([⟨1, 2, 2, 3⟩] ++ ⟨3, 2, 3, 3⟩ :: [⟨3, 2, 2, 3⟩]) = some 0 ∧
    pipeisclosed 0 ([⟨1, 2, 2, 3⟩] ++ ⟨3, 2, 3, 3⟩ :: [⟨3, 2, 2, 3⟩]) = some 0 := by
  have h := pipeisclosed_first_stable [⟨1, 2, 2, 3⟩] [⟨3, 2, 2, 3⟩] ⟨3, 2, 3, 3⟩ 0
    (by simp) rfl (le_refl 0)
  simpa using h

/-! ## Byte-transfer steps and the ring invariant -/

theorem pipewrite_step_of_room (p : Pipe) (b : Nat) (h0 : 0 ≤ p.p_wpos)
    (hroom : p.p_wpos - p.p_rpos < PIPEBUFSIZ) (hlo : 0 ≤ p.p_wpos - p.p_rpos)
    (hmax : p.p_wpos < INT_MAX) :
    pipewrite_step p b =
      .moved { p with p_buf := fun j => if j = p.p_wpos.toNat % PIPEBUFSIZ then b else p.p_buf j,
                      p_wpos := p.p_wpos + 1 } b := by
  have hw : wrap32 (p.p_wpos + 1) = p.p_wpos + 1 :=
    wrap32_of_range (by unfold INT_MIN; omega) (by omega)
  have hd : wrap32 (p.p_wpos - p.p_rpos) = p.p_wpos - p.p_rpos :=
    wrap32_of_range (by unfold INT_MIN; omega) (by unfold INT_MAX PIPEBUFSIZ at *; omega)
  have hnf : ¬ pipe_full p := by unfold pipe_full; rw [hd]; omega
  simp [pipewrite_step, hnf, cell_of_nonneg h0, hw]

theorem pipewrite_step_of_full (p : Pipe) (b : Nat) (hfull : p.p_wpos - p.p_rpos = PIPEBUFSIZ) :
    pipewrite_step p b = .idle := by
  have hf : pipe_full p := by
    unfold pipe_full; rw [hfull]; decide
  simp [pipewrite_step, hf]

theorem exec_rd_coherent (h : Hist) (hc : Coherent h)
    (hmax : (h.accepted.length : Int) ≤ INT_MAX) :
    ∃ h1, exec h .rd = some h1 ∧ Coherent h1 ∧ h1.accepted = h.accepted ∧
      (h.delivered.length < h.accepted.length →
        h1.delivered.length = h.delivered.length + 1) := by
  obtain ⟨hr, hw, hd, hle, hcap, hcells⟩ := hc
  by_cases hlt : h.delivered.length < h.accepted.length
  · have hstep := piperead_step_of_lt h.p (by omega) (by omega) (by omega)
    refine ⟨{ h with p := { h.p with p_rpos := h.p.p_rpos + 1 },
                     delivered := h.delivered ++ [h.p.p_buf (h.p.p_rpos.toNat % PIPEBUFSIZ)] },
      by simp only [exec, hstep], ⟨?_, ?_, ?_, ?_, ?_, ?_⟩, rfl, fun _ => by simp⟩
    · simp [hr]
    · simpa using hw
    · have hcell := hcells h.delivered.length (le_refl _) hlt
      have ht : h.p.p_rpos.toNat = h.delivered.length := by omega
      simp only [List.length_append, List.length_singleton, List.take_succ, hcell, ht,
        Option.toList]
      rw [← hd]
    · simp; omega
    · simp; omega
    · intro k hk1 hk2
      exact hcells k (by simp at hk1; omega) hk2
  · have hstep := piperead_step_of_ge h.p (by omega)
    exact ⟨h, by simp only [exec, hstep], ⟨hr, hw, hd, hle, hcap, hcells⟩, rfl,
      fun hx => absurd hx hlt⟩

theorem exec_wr_coherent (h : Hist) (b : Nat) (hc : Coherent h)
    (hmax : (h.accepted.length : Int) < INT_MAX) :
    ∃ h1, exec h (.wr b) = some h1 ∧ Coherent h1 ∧ h1.delivered = h.delivered ∧
      h1.accepted.length ≤ h.accepted.length + 1 ∧
      (h.accepted.length < h.delivered.length + PIPEBUFSIZ →
        h1.accepted = h.accepted ++ [b]) := by
  obtain ⟨hr, hw, hd, hle, hcap, hcells⟩ := hc
  by_cases hroom : h.accepted.length < h.delivered.length + PIPEBUFSIZ
  · have hstep := pipewrite_step_of_room h.p b (by omega) (by omega) (by omega) (by omega)
    refine ⟨{ h with p := { h.p with
                            p_buf := fun j => if j = h.p.p_wpos.toNat % PIPEBUFSIZ then b
                                              else h.p.p_buf j,
                            p_wpos := h.p.p_wpos + 1 },
                     accepted := h.accepted ++ [b] },
      by simp only [exec, hstep], ⟨?_, ?_, ?_, ?_, ?_, ?_⟩, rfl, by simp, fun _ => rfl⟩
    · simpa using hr
    · simp [hw]
    · simp only
      rw [List.take_append_of_le_length hle]
      exact hd
    · simp; omega
    · simp; omega
    · intro k hk1 hk2
      replace hk1 : h.delivered.length ≤ k := hk1
      have ht : h.p.p_wpos.toNat = h.accepted.length := by omega
      simp only [List.length_append, List.length_singleton] at hk2
      by_cases hk : k = h.accepted.length
      · subst hk
        simp [ht]
      · have hk3 : k < h.accepted.length := by omega
        have hne : k % PIPEBUFSIZ ≠ h.accepted.length % PIPEBUFSIZ := by
          unfold PIPEBUFSIZ at *; omega
        simp only [ht, if_neg hne]
        rw [List.getElem?_append_left hk3]
        exact hcells k hk1 hk3
  · have hstep := pipewrite_step_of_full h.p b (by omega)
    exact ⟨h, by simp only [exec, hstep], ⟨hr, hw, hd, hle, hcap, hcells⟩, rfl, by omega,
      fun hx => absurd hx hroom⟩

theorem coherent_fresh : Coherent Hist.fresh := by
  simp [Coherent, Hist.fresh, Pipe.fresh]

theorem run_append (a b : List Op) : ∀ h : Hist,
    run h (a ++ b) = (run h a).bind (fun h1 => run h1 b) := by
  induction a with
  | nil => intro h; simp [run]
  | cons o os ih =>
    intro h
    simp only [List.cons_append, run]
    cases exec h o with
    | none => simp
    | some h1 => simpa using ih h1

theorem run_coherent (ops : List Op) : ∀ h : Hist, Coherent h →
    (h.accepted.length : Int) + wr_count ops ≤ INT_MAX →
    ∃ h1, run h ops = some h1 ∧ Coherent h1 := by
  induction ops with
  | nil => intro h hc _; exact ⟨h, rfl, hc⟩
  | cons o os ih =>
    intro h hc hmax
    cases o with
    | rd =>
      simp only [wr_count] at hmax
      obtain ⟨h1, he, hc1, hacc, _⟩ := exec_rd_coherent h hc (by omega)
      obtain ⟨h2, hr2, hc2⟩ := ih h1 hc1 (by rw [hacc]; exact hmax)
      exact ⟨h2, by simp [run, he, hr2], hc2⟩
    | wr b =>
      simp only [wr_count] at hmax
      obtain ⟨h1, he, hc1, _, hlen, _⟩ := exec_wr_coherent h b hc (by push_cast at hmax; omega)
      obtain ⟨h2, hr2, hc2⟩ := ih h1 hc1 (by push_cast at hmax; omega)
      exact ⟨h2, by simp [run, he, hr2], hc2⟩

theorem run_pairs (m : Nat) : ∀ h : Hist, Coherent h →
    h.delivered.length = h.accepted.length →
    (h.accepted.length : Int) + m ≤ INT_MAX →
    ∃ h1, run h (pairs m) = some h1 ∧ Coherent h1 ∧
      h1.delivered.length = h1.accepted.length ∧
      h1.accepted.length = h.accepted.length + m := by
  induction m with
  | zero => intro h hc he _; exact ⟨h, rfl, hc, he, rfl⟩
  | succ m ih =>
    intro h hc he hmax
    obtain ⟨h1, he1, hc1, hd1, _, ha1⟩ := exec_wr_coherent h 7 hc (by push_cast at hmax; omega)
    have ha1 := ha1 (by unfold PIPEBUFSIZ; omega)
    have hl1 : h1.accepted.length = h.accepted.length + 1 := by simp [ha1]
    obtain ⟨h2, he2, hc2, ha2, hd2⟩ := exec_rd_coherent h1 hc1 (by push_cast at hmax; omega)
    have hd2 := hd2 (by rw [hd1]; omega)
    obtain ⟨h3, hr3, hc3, he3, hl3⟩ := ih h2 hc2 (by rw [hd2, ha2, hd1]; omega)
      (by rw [ha2]; push_cast at hmax ⊢; omega)
    refine ⟨h3, by simp [pairs, run, he1, he2, hr3], hc3, he3, ?_⟩
    rw [hl3, ha2, hl1]; omega

/-- C3, as amended. For every sequence of piperead and pipewrite byte-transfer
attempts on a freshly created pipe in which at most 2^31 - 1 writes are
attempted, no access leaves `p_buf`, the bytes delivered by reads are a prefix
of the bytes accepted by writes (the first ones, in order), their number is
`p_rpos`, the number accepted is `p_wpos`, and every accepted byte not yet
delivered is still in its cell of the 32-byte ring. -/
theorem pipe_stream_prefix (ops : List Op) (hcount : (wr_count ops : Int) ≤ INT_MAX) :
    ∃ h, run Hist.fresh ops = some h ∧
      h.delivered <+: h.accepted ∧
      h.delivered = h.accepted.take h.delivered.length ∧
      (h.delivered.length : Int) = h.p.p_rpos ∧
      (h.accepted.length : Int) = h.p.p_wpos ∧
      ∀ k : Nat, h.delivered.length ≤ k → k < h.accepted.length →
        h.accepted[k]? = some (h.p.p_buf (k % PIPEBUFSIZ)) := by
  obtain ⟨h, hr, hc⟩ := run_coherent ops Hist.fresh coherent_fresh
    (by simpa [Hist.fresh] using hcount)
  obtain ⟨h1, h2, h3, _, _, h6⟩ := hc
  refine ⟨h, hr, ?_, h3, h1.symm, h2.symm, h6⟩
  rw [h3]
  exact List.take_prefix _ _

/-- Witness for C3: forty bytes through the ring. -/
theorem pipe_stream_prefix_witness :
    ∃ h, run Hist.fresh opsRing = some h ∧
      h.delivered <+: h.accepted ∧
      h.delivered = h.accepted.take h.delivered.length ∧
      (h.delivered.length : Int) = h.p.p_rpos ∧
      (h.accepted.length : Int) = h.p.p_wpos ∧
      ∀ k : Nat, h.delivered.length ≤ k → k < h.accepted.length →
        h.accepted[k]? = some (h.p.p_buf (k % PIPEBUFSIZ)) :=
  pipe_stream_prefix opsRing (by decide)

/-- Counterexample to C3 as stated: after 2^31 - 1 bytes have passed through
the pipe, the next accepted byte makes `p_wpos` wrap to -2^31, so the number of
bytes accepted is no longer `p_wpos`. -/
theorem pipe_stream_counter_wraps :
    ∃ h, run Hist.fresh (pairs 2147483647 ++ [Op.wr 7]) = some h ∧
      h.accepted.length = 2147483648 ∧ h.p.p_wpos = -2147483648 := by
  obtain ⟨h1, hr1, hc1, he1, hl1⟩ := run_pairs 2147483647 Hist.fresh coherent_fresh rfl
    (by simp [Hist.fresh, INT_MAX])
  obtain ⟨hr, hw, _, _, _, _⟩ := hc1
  have hlen : h1.accepted.length = 2147483647 := by simpa [Hist.fresh] using hl1
  have hw1 : h1.p.p_wpos = 2147483647 := by rw [hw, hlen]; rfl
  have hr1' : h1.p.p_rpos = 2147483647 := by rw [hr, he1, hlen]; rfl
  have hnf : ¬ pipe_full h1.p := by
    unfold pipe_full; rw [hw1, hr1']; decide
  have hcell : cell h1.p.p_wpos = some 31 := by rw [hw1]; decide
  have hwrap : wrap32 (h1.p.p_wpos + 1) = -2147483648 := by rw [hw1]; decide
  refine ⟨{ h1 with p := { h1.p with p_buf := fun j => if j = 31 then 7 else h1.p.p_buf j,
                                     p_wpos := -2147483648 },
                    accepted := h1.accepted ++ [7] }, ?_, by simp [hlen], rfl⟩
  rw [run_append, hr1]
  simp [run, exec, pipewrite_step, hnf, hcell, hwrap]

/-- C4, as amended. The predicate `0 <= p_wpos - p_rpos <= PIPEBUFSIZ` holds in
the initial pipe state. In a state with 32-bit counters and non-negative read
counter in which it holds, a piperead step makes no access outside `p_buf`,
advances `p_rpos` by one without passing `p_wpos`, leaves `p_wpos` alone and
keeps the predicate; and when `p_wpos < 2^31 - 1`, a pipewrite step makes no
access outside `p_buf`, advances `p_wpos` by one without passing
`p_rpos + PIPEBUFSIZ`, leaves `p_rpos` alone and keeps the predicate. -/
theorem pipe_inv_steps (p : Pipe) (b : Nat) (hwf : p.WF) (hinv : PipeInv p) :
    PipeInv Pipe.fresh ∧
    (piperead_step p ≠ .fault ∧
      ∀ p1 c, piperead_step p = .moved p1 c →
        PipeInv p1 ∧ p1.WF ∧ p1.p_rpos = p.p_rpos + 1 ∧ p1.p_rpos ≤ p1.p_wpos ∧
        p1.p_wpos = p.p_wpos) ∧
    (p.p_wpos < INT_MAX →
      pipewrite_step p b ≠ .fault ∧
      ∀ p1 c, pipewrite_step p b = .moved p1 c →
        PipeInv p1 ∧ p1.WF ∧ p1.p_wpos = p.p_wpos + 1 ∧
        p1.p_wpos ≤ p1.p_rpos + PIPEBUFSIZ ∧ p1.p_rpos = p.p_rpos) := by
  obtain ⟨h0, h1, h2, h3⟩ := hwf
  obtain ⟨hi1, hi2⟩ := hinv
  refine ⟨by unfold PipeInv Pipe.fresh PIPEBUFSIZ; simp, ?_, ?_⟩
  · by_cases hlt : p.p_rpos < p.p_wpos
    · rw [piperead_step_of_lt p h0 hlt h3]
      refine ⟨by simp, ?_⟩
      intro p1 c heq
      injection heq with hp _
      subst hp
      refine ⟨⟨by simp only; omega, by simp only; omega⟩, ⟨by simp only; omega,
        by simp only; omega, h2, h3⟩, rfl, by simp only; omega, rfl⟩
    · rw [piperead_step_of_ge p (by omega)]
      exact ⟨by simp, fun p1 c heq => by cases heq⟩
  · intro hmax
    by_cases hroom : p.p_wpos - p.p_rpos < PIPEBUFSIZ
    · rw [pipewrite_step_of_room p b (by omega) hroom hi1 hmax]
      refine ⟨by simp, ?_⟩
      intro p1 c heq
      injection heq with hp _
      subst hp
      refine ⟨⟨by simp only; omega, by simp only; omega⟩, ⟨h0, h1,
        by simp only; omega, by simp only; omega⟩, rfl, by simp only; omega, rfl⟩
    · rw [pipewrite_step_of_full p b (by omega)]
      exact ⟨by simp, fun p1 c heq => by cases heq⟩

/-- Witness for C4: a pipe holding the bytes 40 .. 44. -/
theorem pipe_inv_steps_witness :
    PipeInv Pipe.fresh ∧
    (piperead_step { p_rpos := 40, p_wpos := 45, p_buf := fun _ => 0 } ≠ .fault ∧
      ∀ p1 c, piperead_step { p_rpos := 40, p_wpos := 45, p_buf := fun _ => 0 } = .moved p1 c →
        PipeInv p1 ∧ p1.WF ∧ p1.p_rpos = (40 : Int) + 1 ∧ p1.p_rpos ≤ p1.p_wpos ∧
        p1.p_wpos = 45) ∧
    ((45 : Int) < INT_MAX →
      pipewrite_step { p_rpos := 40, p_wpos := 45, p_buf := fun _ => 0 } 9 ≠ .fault ∧
      ∀ p1 c, pipewrite_step { p_rpos := 40, p_wpos := 45, p_buf := fun _ => 0 } 9 = .moved p1 c →
        PipeInv p1 ∧ p1.WF ∧ p1.p_wpos = (45 : Int) + 1 ∧
        p1.p_wpos ≤ p1.p_rpos + PIPEBUFSIZ ∧ p1.p_rpos = 40) :=
  pipe_inv_steps { p_rpos := 40, p_wpos := 45, p_buf := fun _ => 0 } 9
    (by unfold Pipe.WF INT_MAX INT_MIN; decide) (by unfold PipeInv PIPEBUFSIZ; decide)

/-- Counterexample to C4 as stated: the state reached after 2^31 - 1 bytes have
passed through the pipe satisfies the predicate, and the next pipewrite step
takes `p_wpos` from 2^31 - 1 to -2^31: the counter decreases and the predicate
is lost. -/
theorem pipe_inv_lost_at_int_max :
    ∃ h, run Hist.fresh (pairs 2147483647) = some h ∧ PipeInv h.p ∧
      ∃ p1, pipewrite_step h.p 7 = .moved p1 7 ∧ ¬ PipeInv p1 ∧ p1.p_wpos < h.p.p_wpos := by
  obtain ⟨h1, hr1, hc1, he1, hl1⟩ := run_pairs 2147483647 Hist.fresh coherent_fresh rfl
    (by simp [Hist.fresh, INT_MAX])
  obtain ⟨hr, hw, _, _, _, _⟩ := hc1
  have hlen : h1.accepted.length = 2147483647 := by simpa [Hist.fresh] using hl1
  have hw1 : h1.p.p_wpos = 2147483647 := by rw [hw, hlen]; rfl
  have hr1' : h1.p.p_rpos = 2147483647 := by rw [hr, he1, hlen]; rfl
  have hnf : ¬ pipe_full h1.p := by
    unfold pipe_full; rw [hw1, hr1']; decide
  have hcell : cell h1.p.p_wpos = some 31 := by rw [hw1]; decide
  have hwrap : wrap32 (h1.p.p_wpos + 1) = -2147483648 := by rw [hw1]; decide
  refine ⟨h1, hr1, by unfold PipeInv PIPEBUFSIZ; rw [hw1, hr1']; decide,
    { h1.p with p_buf := fun j => if j = 31 then 7 else h1.p.p_buf j, p_wpos := -2147483648 },
    by simp [pipewrite_step, hnf, hcell, hwrap], ?_, ?_⟩
  · unfold PipeInv; simp only; rw [hr1']; decide
  · simp only; rw [hw1]; decide

/-! ## pipewrite -/

theorem piperead_step_wpos (p p1 : Pipe) (b : Nat) (h : piperead_step p = .moved p1 b) :
    p1.p_wpos = p.p_wpos := by
  unfold piperead_step at h
  split at h
  · split at h
    · cases h
    · injection h with hp _
      subst hp
      rfl
  · cases h

theorem drain_wpos (k : Nat) : ∀ p : Pipe, (drain k p).p_wpos = p.p_wpos := by
  induction k with
  | zero => intro p; rfl
  | succ k ih =>
    intro p
    unfold drain
    split
    · next p1 b heq => rw [ih p1, piperead_step_wpos p p1 b heq]
    · rfl

theorem wait_space_spec (env : List Yield) : ∀ p : Pipe,
    match wait_space env p with
    | .ready p1 e1 => p1.p_wpos = p.p_wpos ∧ ¬ pipe_full p1 ∧ ∀ y ∈ e1, y ∈ env
    | .closed p1 => p1.p_wpos = p.p_wpos ∧ pipe_full p1 ∧ ∃ y ∈ env, y.closed = true
    | .blocked _ => True := by
  induction env with
  | nil =>
    intro p
    unfold wait_space
    by_cases hf : pipe_full p <;> simp [hf]
  | cons y env ih =>
    intro p
    unfold wait_space
    by_cases hf : pipe_full p
    · by_cases hc : y.closed = true
      · simp [hf, hc]
      · simp only [hf, hc, if_true, if_false]
        have h := ih (drain y.reads p)
        split at h
        · next p1 e1 heq =>
          rw [heq]
          obtain ⟨h1, h2, h3⟩ := h
          exact ⟨by simpa [drain_wpos] using h1, h2,
            fun z hz => List.mem_cons_of_mem _ (h3 z hz)⟩
        · next p1 heq =>
          rw [heq]
          obtain ⟨h1, h2, z, hz, hzc⟩ := h
          exact ⟨by simpa [drain_wpos] using h1, h2, z, List.mem_cons_of_mem _ hz, hzc⟩
        · next p1 heq => rw [heq]; trivial
    · simp [hf]

theorem pipewrite_step_moved (p p1 : Pipe) (b c : Nat) (h : pipewrite_step p b = .moved p1 c) :
    p1.p_wpos = wrap32 (p.p_wpos + 1) ∧ c = b := by
  unfold pipewrite_step at h
  split at h
  · cases h
  · split at h
    · cases h
    · injection h with hp hc
      subst hp
      exact ⟨rfl, hc.symm⟩

theorem pipewrite_loop_spec (bs : List Nat) : ∀ (acc : List Nat) (env : List Yield) (p : Pipe)
    (r : Int) (out : List Nat) (p1 : Pipe),
    pipewrite_loop bs acc env p = .ret r out p1 →
    ∃ more, out = acc ++ more ∧ more <+: bs ∧
      wrap32 p1.p_wpos = wrap32 (p.p_wpos + more.length) ∧
      (INT_MIN ≤ p.p_wpos ∧ p.p_wpos ≤ INT_MAX → INT_MIN ≤ p1.p_wpos ∧ p1.p_wpos ≤ INT_MAX) ∧
      ((more = bs ∧ r = wrap32 out.length) ∨
       (more.length < bs.length ∧ r = 0 ∧ pipe_full p1 ∧ ∃ y ∈ env, y.closed = true)) := by
  induction bs with
  | nil =>
    intro acc env p r out p1 h
    simp only [pipewrite_loop] at h
    injection h with hr ho hp
    subst hr ho hp
    exact ⟨[], by simp, List.prefix_refl _, by simp, id, Or.inl ⟨rfl, rfl⟩⟩
  | cons b bs ih =>
    intro acc env p r out p1 h
    unfold pipewrite_loop at h
    have hw := wait_space_spec env p
    split at h
    · cases h
    · next p2 heq =>
      rw [heq] at hw
      injection h with hr ho hp
      subst hr ho hp
      obtain ⟨h1, h2, h3⟩ := hw
      exact ⟨[], by simp, List.nil_prefix, by simp [h1], by rw [h1]; exact id,
        Or.inr ⟨by simp, rfl, h2, h3⟩⟩
    · next p2 env1 heq =>
      rw [heq] at hw
      split at h
      · next p3 c hstep =>
        obtain ⟨hp3, _⟩ := pipewrite_step_moved p2 p3 b c hstep
        obtain ⟨more, ho, hpre, hwp, hrg, hcase⟩ := ih _ _ _ _ _ _ h
        refine ⟨b :: more, by simp [ho], ?_, ?_, fun _ => hrg (hp3 ▸ wrap32_range _), ?_⟩
        · obtain ⟨t, ht⟩ := hpre
          exact ⟨t, by simp [ht]⟩
        · rw [hwp, hp3, hw.1, wrap32_add_left]
          congr 1
          simp only [List.length_cons]
          push_cast
          omega
        · rcases hcase with ⟨hm, hr⟩ | ⟨hm, hr, hf, y, hy, hyc⟩
          · exact Or.inl ⟨by rw [hm], hr⟩
          · exact Or.inr ⟨by simpa using hm, hr, hf, y, hw.2.2 y hy, hyc⟩
      · cases h

/-- C8, as amended. Whenever pipewrite returns, the bytes it has appended are
an initial part of the caller's buffer and `p_wpos` has advanced (modulo 2^32)
by their number: they are not retracted. Either all `n` bytes were appended and
the value returned is `n` (as a signed 32-bit value, so `n` itself when
`n <= 2^31 - 1`), or the call stopped with the buffer full on an answer
"closed" of `_pipeisclosed` and the value returned is 0, however many bytes the
call had appended before. -/
theorem pipewrite_return (p p1 : Pipe) (vbuf out : List Nat) (env : List Yield) (r : Int)
    (hwf : p.WF) (hret : pipewrite p vbuf env = .ret r out p1) :
    out <+: vbuf ∧ p1.p_wpos = wrap32 (p.p_wpos + out.length) ∧
    ((out = vbuf ∧ r = wrap32 vbuf.length ∧ ((vbuf.length : Int) ≤ INT_MAX → r = vbuf.length)) ∨
     (out.length < vbuf.length ∧ r = 0 ∧ pipe_full p1 ∧ ∃ y ∈ env, y.closed = true)) := by
  obtain ⟨more, ho, hpre, hwp, hrg, hcase⟩ := pipewrite_loop_spec vbuf [] env p r out p1 hret
  simp only [List.nil_append] at ho
  subst ho
  have hrange : INT_MIN ≤ p1.p_wpos ∧ p1.p_wpos ≤ INT_MAX := hrg ⟨hwf.2.2.1, hwf.2.2.2⟩
  refine ⟨hpre, ?_, ?_⟩
  · rw [← hwp, wrap32_of_range hrange.1 hrange.2]
  · rcases hcase with ⟨hm, hr⟩ | h
    · refine Or.inl ⟨hm, by rw [hr, hm], fun hle => ?_⟩
      rw [hr, hm]
      exact wrap32_of_range (by unfold INT_MIN; omega) hle
    · exact Or.inr h

/-- Witness for C8: one free cell, two bytes to write, the reader gone. -/
theorem pipewrite_return_witness :
    [5] <+: [5, 6] ∧ (32 : Int) = wrap32 (31 + ([5] : List Nat).length) ∧
    ((([5] : List Nat) = [5, 6] ∧ (0 : Int) = wrap32 ([5, 6] : List Nat).length ∧
        ((([5, 6] : List Nat).length : Int) ≤ INT_MAX → (0 : Int) = ([5, 6] : List Nat).length)) ∨
     (([5] : List Nat).length < ([5, 6] : List Nat).length ∧ (0 : Int) = 0 ∧
        pipe_full { p_rpos := 0, p_wpos := 32, p_buf := fun j => if j = 31 then 5 else 0 } ∧
        ∃ y ∈ [({ closed := true, reads := 0 } : Yield)], y.closed = true)) :=
  pipewrite_return { p_rpos := 0, p_wpos := 31, p_buf := fun _ => 0 }
    { p_rpos := 0, p_wpos := 32, p_buf := fun j => if j = 31 then 5 else 0 }
    [5, 6] [5] [{ closed := true, reads := 0 }] 0
    (by unfold Pipe.WF INT_MAX INT_MIN; decide) (by rfl)

/-- Counterexample to C8 as stated: pipewrite of 33 bytes to an empty pipe
whose reader is gone appends 32 bytes, advancing `p_wpos` to 32, and returns 0. -/
theorem pipewrite_returns_zero_after_writing :
    (pipewrite Pipe.fresh (List.replicate 33 7) [{ closed := true, reads := 0 }]).summary
      = some (0, List.replicate 32 7, 0, 32) := by
  decide

/-! ## The staging page of init_stack on return -/

/-- C15. When no page is mapped at UTEMP on entry and the sys_page_unmap of the
`error:` label succeeds, the caller has no page mapped at UTEMP after any call
of init_stack that returns. After the size-check failure no call was made and
after the sys_page_alloc failure it is the only call, so nothing was mapped; on
every other return the last call made is sys_page_unmap(0, UTEMP): at `error:`
after a failure of sys_page_map or of the first sys_page_unmap, on line 250 on
success. -/
theorem init_stack_releases_utemp (L : Layout) (sys : StackSys) (argv : List CStr) (m : Mem)
    (o : StackOut) (hun : 0 ≤ sys.r_unmap_err)
    (hret : init_stack L sys argv m false = .ret o) :
    o.utemp_mapped = false ∧
    (o.calls = [] ∨ (o.calls = [.page_alloc L.UTEMP] ∧ sys.r_alloc < 0) ∨
      (0 ≤ sys.r_alloc ∧ o.calls.head? = some (.page_alloc L.UTEMP) ∧
        o.calls.getLast? = some (.page_unmap L.UTEMP))) := by
  have hn := not_lt.mpr hun
  unfold init_stack at hret
  simp only [StackMaps.out, StackMaps.sys_page_alloc, StackMaps.sys_page_map,
    StackMaps.sys_page_unmap, List.nil_append] at hret
  split at hret
  · injection hret with ho; subst ho; exact ⟨rfl, Or.inl rfl⟩
  · split at hret
    · next hneg =>
      injection hret with ho; subst ho
      exact ⟨by simp [hneg], Or.inr (Or.inl ⟨rfl, hneg⟩)⟩
    · next hnn =>
      split at hret
      · cases hret
      · split at hret
        · injection hret with ho; subst ho
          exact ⟨by simp [hn], Or.inr (Or.inr ⟨not_lt.mp hnn, by simp, by simp⟩)⟩
        · split at hret
          · injection hret with ho; subst ho
            exact ⟨by simp [hn], Or.inr (Or.inr ⟨not_lt.mp hnn, by simp, by simp⟩)⟩
          · next hu =>
            injection hret with ho; subst ho
            exact ⟨by simp [hu], Or.inr (Or.inr ⟨not_lt.mp hnn, by simp, by simp⟩)⟩

theorem init_stack_releases_utemp_witness :
    ∃ o, init_stack jos sysMapFails argvAB (fun _ => 0) false = .ret o ∧ o.ret = -4 ∧
      o.calls = [.page_alloc jos.UTEMP, .page_map jos.UTEMP (jos.USTACKTOP - jos.PGSIZE),
                 .page_unmap jos.UTEMP] ∧
      (o.utemp_mapped = false ∧
       (o.calls = [] ∨ (o.calls = [.page_alloc jos.UTEMP] ∧ sysMapFails.r_alloc < 0) ∨
        (0 ≤ sysMapFails.r_alloc ∧ o.calls.head? = some (.page_alloc jos.UTEMP) ∧
          o.calls.getLast? = some (.page_unmap jos.UTEMP)))) :=
  ⟨_, rfl, rfl, rfl,
    init_stack_releases_utemp jos sysMapFails argvAB (fun _ => 0) _ (by decide) rfl⟩

/-- C17 at the failing input: for one million empty argument strings the
string bytes do not wrap (`string_size` is 1000000 and `string_store` is
`UTEMP + PGSIZE - 1000000 = 0x30cdc0`), the size check of line 202 passes, and
the first byte init_stack writes, the NUL of `argv[0]` at `string_store`, lies
below the staging page: no store of init_stack is made inside the page. -/
theorem init_stack_store_outside_page :
    string_size 0 argvBig = total_bytes argvBig ∧
    string_store0 jos argvBig + total_bytes argvBig = jos.UTEMP + jos.PGSIZE ∧
    ¬ (sub32 (argv_store0 jos argvBig) 8 < jos.UTEMP) ∧
    string_store0 jos argvBig < jos.UTEMP ∧
    ¬ in_page jos (string_store0 jos argvBig) ∧
    ∀ m : Mem, strcpy jos m (string_store0 jos argvBig) [] = none ∧
      init_fill jos argvBig m = none := by
  have ht : total_bytes argvBig = 1000000 := by rw [argvBig, total_bytes_replicate_nil]
  have h1 : string_size 0 argvBig = 1000000 := by
    rw [string_size_eq _ _ (by decide), ht]
    norm_num [W32]
  refine ⟨by rw [h1, ht], by rw [string_store0_big, ht]; decide, ?_,
    by rw [string_store0_big]; decide, by rw [string_store0_big]; decide, fun m => ⟨?_, init_fill_big m⟩⟩
  · rw [argv_store0_big]
    norm_num [sub32, W32, jos]
  · have hout : ¬ in_page jos (3198400 % W32) := by decide
    rw [string_store0_big]
    unfold strcpy page_store8
    rw [if_neg hout]

/-! ## The calls made by spawn -/

theorem do_alloc_calls (w : World) :
    match do_alloc w with
    | .ok w1 => w1.rc = w.rc ∧ w1.trace = w.trace ++ [.page_alloc]
    | .error e => e.1 = w.code ∧ w.code < 0 ∧ e.2.rc = w.rc ∧ e.2.trace = w.trace ++ [.page_alloc] := by
  unfold do_alloc
  by_cases h : w.code < 0
  · rw [if_pos h]; exact ⟨rfl, h, rfl, rfl⟩
  · rw [if_neg h]; exact ⟨rfl, rfl⟩

theorem do_read_calls (w : World) (n : Nat) :
    match do_read w n with
    | .ok w1 => w1.rc = w.rc ∧ w1.trace = w.trace ++ [.read n] ∧ w1.utemp = w.utemp
    | .error e => e.1 = w.code ∧ w.code < 0 ∧ e.2.rc = w.rc ∧ e.2.trace = w.trace ++ [.read n]
        ∧ e.2.utemp = w.utemp := by
  unfold do_read
  by_cases h : w.code < 0
  · rw [if_pos h]; exact ⟨rfl, h, rfl, rfl, rfl⟩
  · rw [if_neg h]; exact ⟨rfl, rfl, rfl⟩

theorem do_map_calls (w : World) (src : Option PageId) (va : Nat) (perm : Perm) :
    match do_map w src va perm with
    | .ok w1 => w1.rc = w.rc ∧ w1.trace = w.trace ++ [.page_map src va perm]
    | .error e => e.1 = w.code ∧ w.code < 0 ∧ e.2.rc = w.rc ∧
        e.2.trace = w.trace ++ [.page_map src va perm] ∧ e.2.utemp = w.utemp := by
  unfold do_map
  by_cases h : w.code < 0
  · rw [if_pos h]; exact ⟨rfl, h, rfl, rfl, rfl⟩
  · rw [if_neg h]; exact ⟨rfl, rfl⟩

theorem do_unmap_calls (w : World) :
    match do_unmap w with
    | .ok w1 => w1.rc = w.rc ∧ w1.trace = w.trace ++ [.page_unmap]
    | .error e => e.1 = w.code ∧ w.code < 0 ∧ e.2.rc = w.rc ∧ e.2.trace = w.trace ++ [.page_unmap] := by
  unfold do_unmap
  by_cases h : w.code < 0
  · rw [if_pos h]; exact ⟨rfl, h, rfl, rfl⟩
  · rw [if_neg h]; exact ⟨rfl, rfl⟩

theorem do_read_map_calls (w : World) (off : Nat) :
    match do_read_map w off with
    | .ok x => x.1.rc = w.rc ∧ x.1.trace = w.trace ++ [.read_map off]
    | .error e => e.1 = w.code ∧ w.code < 0 ∧ e.2.rc = w.rc ∧ e.2.trace = w.trace ++ [.read_map off] := by
  unfold do_read_map
  by_cases h : w.code < 0
  · rw [if_pos h]; exact ⟨rfl, h, rfl, rfl⟩
  · rw [if_neg h]; exact ⟨rfl, rfl⟩

theorem do_seek_calls (w : World) (off : Nat) :
    (do_seek w off).rc = w.rc ∧ (do_seek w off).trace = w.trace ++ [.seek off] := by
  unfold do_seek
  split <;> exact ⟨rfl, rfl⟩

theorem grows_fail (w w1 : World) (c : Call) (r : Int) (hc : Call.is_seg c = true)
    (h : r = w.code ∧ w.code < 0 ∧ w1.rc = w.rc ∧ w1.trace = w.trace ++ [c]) :
    Outcome.grows w (.fail r w1) := by
  obtain ⟨hr, hneg, hrc, htr⟩ := h
  refine ⟨hrc, by rw [hr]; exact hneg, [], c, by simpa using htr, ?_, ?_⟩
  · intro x hx; simp at hx; subst hx; exact hc
  · rw [hr]; simp [World.code]

theorem grows_step (w w2 : World) (cs0 : List Call) (o : Outcome)
    (hrc : w2.rc = w.rc) (htr : w2.trace = w.trace ++ cs0)
    (hseg : ∀ c ∈ cs0, Call.is_seg c = true) (h : Outcome.grows w2 o) :
    Outcome.grows w o := by
  cases o with
  | done w1 =>
    obtain ⟨h1, cs, h2, h3⟩ := h
    refine ⟨h1.trans hrc, cs0 ++ cs, by rw [h2, htr, List.append_assoc], ?_⟩
    intro c hc
    rcases List.mem_append.mp hc with hc | hc
    · exact hseg c hc
    · exact h3 c hc
  | fail r w1 =>
    obtain ⟨h1, hneg, cs, c, h2, h3, h4⟩ := h
    refine ⟨h1.trans hrc, hneg, cs0 ++ cs, c, by rw [h2, htr]; simp, ?_, ?_⟩
    · intro x hx
      rcases List.mem_append.mp hx with hx | hx
      · rcases List.mem_append.mp hx with hx | hx
        · exact hseg x hx
        · exact h3 x (List.mem_append.mpr (Or.inl hx))
      · exact h3 x (List.mem_append.mpr (Or.inr hx))
    · rw [h4, hrc, htr]; simp [Nat.add_assoc]
  | fuel => trivial

theorem ro_loop_grows (L : Layout) (start stop va : Nat) : ∀ (fuel i : Nat) (w : World),
    Outcome.grows w (ro_loop L start stop va fuel i w) := by
  intro fuel
  induction fuel with
  | zero => intro i w; trivial
  | succ fuel ih =>
    intro i w
    unfold ro_loop
    split
    · have h1 := do_read_map_calls w i
      cases hrm : do_read_map w i with
      | error e =>
        rw [hrm] at h1
        exact grows_fail w e.2 (.read_map i) e.1 rfl h1
      | ok x =>
        rw [hrm] at h1
        obtain ⟨w1, blk⟩ := x
        simp only at h1 ⊢
        have h2 := do_map_calls w1 (some blk) (add32 va (sub32 i start)) PTE_P_U
        cases hm : do_map w1 (some blk) (add32 va (sub32 i start)) PTE_P_U with
        | error e =>
          rw [hm] at h2
          simp only
          refine grows_step w w1 [.read_map i] _ h1.1 h1.2 (by simp [Call.is_seg]) ?_
          exact grows_fail w1 e.2 (.page_map (some blk) (add32 va (sub32 i start)) PTE_P_U) e.1 rfl ⟨h2.1, h2.2.1, h2.2.2.1, h2.2.2.2.1⟩
        | ok w2 =>
          rw [hm] at h2
          simp only
          refine grows_step w w2 [.read_map i, .page_map (some blk) (add32 va (sub32 i start)) PTE_P_U]
            _ (h2.1.trans h1.1) (by rw [h2.2, h1.2]; simp) (by simp [Call.is_seg]) (ih _ _)
    · exact ⟨rfl, [], by simp, by simp⟩


theorem rw_loop_grows (L : Layout) (ph : Proghdr) (start stop va : Nat) :
    ∀ (fuel i : Nat) (w : World), Outcome.grows w (rw_loop L ph start stop va fuel i w) := by
  intro fuel
  induction fuel with
  | zero => intro i w; trivial
  | succ fuel ih =>
    intro i w
    unfold rw_loop
    split
    · have h1 := do_alloc_calls w
      cases ha : do_alloc w with
      | error e =>
        rw [ha] at h1
        exact grows_fail w e.2 .page_alloc e.1 rfl h1
      | ok w1 =>
        rw [ha] at h1
        simp only at h1 ⊢
        generalize hrd : (if i < add32 ph.p_offset ph.p_filesz then
            if sub32 (add32 ph.p_offset ph.p_filesz) i ≥ L.PGSIZE then do_read w1 L.PGSIZE
            else do_read w1 (sub32 (add32 ph.p_offset ph.p_filesz) i)
          else Except.ok w1) = rd
        have hrd2 : (∃ n, rd = do_read w1 n) ∨ rd = .ok w1 := by
          rw [← hrd]
          split
          · split
            · exact Or.inl ⟨_, rfl⟩
            · exact Or.inl ⟨_, rfl⟩
          · exact Or.inr rfl
        have hrest : ∀ (w2 : World) (cs : List Call), w2.rc = w.rc →
            w2.trace = w.trace ++ cs → (∀ c ∈ cs, Call.is_seg c = true) →
            Outcome.grows w
              (match do_map w2 (w2.utemp.map PageId.anon) (add32 va (sub32 i start)) PTE_P_U_W with
               | .error e => .fail e.1 e.2
               | .ok w3 =>
                 match do_unmap w3 with
                 | .error e => .fail e.1 e.2
                 | .ok w4 => rw_loop L ph start stop va fuel (add32 i L.PGSIZE) w4) := by
          intro w2 cs hrc htr hseg
          have h2 := do_map_calls w2 (w2.utemp.map PageId.anon) (add32 va (sub32 i start)) PTE_P_U_W
          cases hm : do_map w2 (w2.utemp.map PageId.anon) (add32 va (sub32 i start)) PTE_P_U_W with
          | error e =>
            rw [hm] at h2
            simp only
            refine grows_step w w2 cs _ hrc htr hseg ?_
            exact grows_fail w2 e.2
              (.page_map (w2.utemp.map PageId.anon) (add32 va (sub32 i start)) PTE_P_U_W) e.1 rfl
              ⟨h2.1, h2.2.1, h2.2.2.1, h2.2.2.2.1⟩
          | ok w3 =>
            rw [hm] at h2
            simp only
            have h3 := do_unmap_calls w3
            cases hu : do_unmap w3 with
            | error e =>
              rw [hu] at h3
              simp only
              refine grows_step w w3
                (cs ++ [.page_map (w2.utemp.map PageId.anon) (add32 va (sub32 i start)) PTE_P_U_W])
                _ (h2.1.trans hrc) (by rw [h2.2, htr, List.append_assoc]) ?_ ?_
              · intro c hc
                rcases List.mem_append.mp hc with hc | hc
                · exact hseg c hc
                · simp at hc; subst hc; rfl
              · exact grows_fail w3 e.2 .page_unmap e.1 rfl h3
            | ok w4 =>
              rw [hu] at h3
              simp only
              refine grows_step w w4
                (cs ++ [.page_map (w2.utemp.map PageId.anon) (add32 va (sub32 i start)) PTE_P_U_W,
                        .page_unmap])
                _ (h3.1.trans (h2.1.trans hrc)) (by rw [h3.2, h2.2, htr]; simp) ?_ (ih _ _)
              intro c hc
              rcases List.mem_append.mp hc with hc | hc
              · exact hseg c hc
              · simp at hc; rcases hc with hc | hc <;> subst hc <;> rfl
        rcases hrd2 with ⟨n, hn⟩ | hn
        · rw [hn]
          have h2 := do_read_calls w1 n
          cases hr : do_read w1 n with
          | error e =>
            rw [hr] at h2
            simp only
            refine grows_step w w1 [.page_alloc] _ h1.1 h1.2 (by simp [Call.is_seg]) ?_
            exact grows_fail w1 e.2 (.read n) e.1 rfl ⟨h2.1, h2.2.1, h2.2.2.1, h2.2.2.2.1⟩
          | ok w2 =>
            rw [hr] at h2
            simp only
            exact hrest w2 [.page_alloc, .read n] (h2.1.trans h1.1) (by rw [h2.2.1, h1.2]; simp)
              (by simp [Call.is_seg])
        · rw [hn]
          simp only
          exact hrest w1 [.page_alloc] h1.1 h1.2 (by simp [Call.is_seg])
    · exact ⟨rfl, [], by simp, by simp⟩

theorem load_segment_grows (L : Layout) (ph : Proghdr) (fuel : Nat) (w : World) :
    Outcome.grows w (load_segment L ph fuel w) := by
  unfold load_segment
  split
  · exact ro_loop_grows L _ _ _ _ _ _
  · have hs := do_seek_calls w ph.p_offset
    exact grows_step w (do_seek w ph.p_offset) [.seek ph.p_offset] _ hs.1 hs.2
      (by simp [Call.is_seg]) (rw_loop_grows L ph _ _ _ _ _ _)

/-- The loop over the program headers makes only calls of the segment loops;
when it ends spawn with a return value, that is the negative code of the last
call made. -/
theorem spawn_segments_grows (L : Layout) (fuel : Nat) (phs : List (Bool × Proghdr)) :
    ∀ w : World,
    (∀ w1, spawn_segments L fuel phs w = .ok w1 → Outcome.grows w (.done w1)) ∧
    (∀ r w1, spawn_segments L fuel phs w = .error (.ret r w1) → Outcome.grows w (.fail r w1)) := by
  induction phs with
  | nil =>
    intro w
    refine ⟨?_, ?_⟩
    · intro w1 h
      simp only [spawn_segments, Except.ok.injEq] at h
      subst h
      exact ⟨rfl, [], by simp, by simp⟩
    · intro r w1 h
      simp only [spawn_segments] at h
      cases h
  | cons x rest ih =>
    intro w
    obtain ⟨load, ph⟩ := x
    have hg := load_segment_grows L ph fuel w
    refine ⟨?_, ?_⟩
    · intro w2 h
      unfold spawn_segments at h
      split at h
      · exact (ih w).1 w2 h
      · split at h
        · cases h
        · cases hl : load_segment L ph fuel w with
          | done w1 =>
            rw [hl] at hg h
            simp only at h
            obtain ⟨hrc, cs, htr, hseg⟩ := hg
            exact grows_step w w1 cs (.done w2) hrc htr hseg ((ih w1).1 w2 h)
          | fail r w1 => rw [hl] at h; cases h
          | fuel => rw [hl] at h; cases h
    · intro r w2 h
      unfold spawn_segments at h
      split at h
      · exact (ih w).2 r w2 h
      · split at h
        · cases h
        · cases hl : load_segment L ph fuel w with
          | done w1 =>
            rw [hl] at hg h
            simp only at h
            obtain ⟨hrc, cs, htr, hseg⟩ := hg
            exact grows_step w w1 cs (.fail r w2) hrc htr hseg ((ih w1).2 r w2 h)
          | fail r1 w1 =>
            rw [hl] at hg h
            simp only [Except.error.injEq, SpawnRes.ret.injEq] at h
            obtain ⟨h1, h2⟩ := h
            subst h1 h2
            exact hg
          | fuel => rw [hl] at h; cases h


theorem spawn_ret (L : Layout) (e : SpawnEnv) (argv : List CStr) (fuel : Nat) (w : World)
    (r : Int) (w1 : World) (h : spawn L e argv fuel w = .ret r w1) :
    w1.rc = w.rc ∧
    ((r < 0 ∧ ∃ cs c, w1.trace = w.trace ++ cs ++ [c] ∧ Call.set_status ∉ cs ∧
        (c = .init_stack ∨ r = w.rc (w.trace.length + cs.length))) ∨
     (0 ≤ r ∧ r = w.rc (w.trace.length + 2) ∧
       ∃ o cs, init_stack L e.sys argv e.mem w.utemp.isSome = .ret o ∧ 0 ≤ o.ret ∧
         (∀ c ∈ cs, Call.is_seg c = true) ∧
         w1.trace = w.trace ++ [.open_prog, .read_header, .exofork, .init_stack] ++ cs ++
           [.set_trapframe { tf_eip := e.hdr.e_entry,
                             tf_esp := o.init_esp.getD e.env_tf.tf_esp,
                             tf_regs := e.env_tf.tf_regs }, .set_status] ∧
         0 ≤ w.rc (w.trace.length + 4 + cs.length) ∧
         0 ≤ w.rc (w.trace.length + 5 + cs.length))) := by
  unfold spawn at h
  simp only at h
  split at h
  · next hc =>
    injection h with hr hw
    subst hr hw
    refine ⟨rfl, Or.inl ⟨hc, [], .open_prog, by simp [World.log], by simp, Or.inr ?_⟩⟩
    simp [World.code]
  · next hc0 =>
    have hqr : (do_read_header (do_open w)).rc = w.rc := by
      unfold do_read_header do_open; split <;> rfl
    have hqt : (do_read_header (do_open w)).trace = w.trace ++ [.open_prog, .read_header] := by
      unfold do_read_header do_open; split <;> simp [World.log]
    have hqu : (do_read_header (do_open w)).utemp = w.utemp := by
      unfold do_read_header do_open; split <;> rfl
    generalize do_read_header (do_open w) = wh at h hqr hqt hqu
    split at h
    · cases h
    · split at h
      · next hc =>
        injection h with hr hw
        subst hr hw
        refine ⟨hqr, Or.inl ⟨hc, [.open_prog, .read_header], .exofork,
          by simp [World.log, hqt], by simp, Or.inr ?_⟩⟩
        simp [World.code, hqr, hqt]
      · next hc2 =>
        split at h
        · cases h
        · next o ho =>
          split at h
          · next hneg =>
            injection h with hr hw
            subst hr hw
            refine ⟨hqr, Or.inl ⟨hneg, [.open_prog, .read_header, .exofork], .init_stack,
              by simp [World.log, World.after_stack, hqt], by simp, Or.inl rfl⟩⟩
          · next hnn =>
            have hnn0 : 0 ≤ o.ret := not_lt.mp hnn
            have hw3t : ((wh.log .exofork).after_stack L o).trace
                = w.trace ++ [.open_prog, .read_header, .exofork, .init_stack] := by
              simp [World.log, World.after_stack, hqt]
            have hw3r : ((wh.log .exofork).after_stack L o).rc
                = w.rc := hqr
            have hsg := spawn_segments_grows L fuel e.hdr.phs
              ((wh.log .exofork).after_stack L o)
            cases hs : spawn_segments L fuel e.hdr.phs
                ((wh.log .exofork).after_stack L o) with
            | error res =>
              rw [hs] at h
              simp only at h
              subst h
              obtain ⟨hrc, hneg, cs, c, htr, hseg, hr⟩ := hsg.2 r w1 hs
              refine ⟨hrc.trans hw3r, Or.inl ⟨hneg,
                [.open_prog, .read_header, .exofork, .init_stack] ++ cs, c, ?_, ?_, Or.inr ?_⟩⟩
              · rw [htr, hw3t]; simp
              · intro hmem
                rcases List.mem_append.mp hmem with hm | hm
                · simp at hm
                · have := hseg _ (List.mem_append.mpr (Or.inl hm))
                  simp [Call.is_seg] at this
              · rw [hr, hw3r, hw3t]
                congr 1
                simp only [List.length_append, List.length_cons, List.length_nil]
                omega
            | ok w4 =>
              rw [hs] at h
              simp only at h
              obtain ⟨hrc, cs, htr, hseg⟩ := hsg.1 w4 hs
              have hrc4 : w4.rc = w.rc := hrc.trans hw3r
              have htr4 : w4.trace = w.trace ++ [.open_prog, .read_header, .exofork, .init_stack]
                  ++ cs := by rw [htr, hw3t]
              have hnotin : Call.set_status ∉
                  [Call.open_prog, .read_header, .exofork, .init_stack] ++ cs := by
                intro hmem
                rcases List.mem_append.mp hmem with hm | hm
                · simp at hm
                · have := hseg _ hm
                  simp [Call.is_seg] at this
              have hlen4 : w4.trace.length = w.trace.length + 4 + cs.length := by
                rw [htr4]
                simp only [List.length_append, List.length_cons, List.length_nil]
              split at h
              · next hc =>
                injection h with hr hw
                subst hr hw
                refine ⟨hrc4, Or.inl ⟨hc,
                  [.open_prog, .read_header, .exofork, .init_stack] ++ cs,
                  Call.set_trapframe ⟨e.hdr.e_entry, o.init_esp.getD e.env_tf.tf_esp,
                    e.env_tf.tf_regs⟩, ?_, hnotin, Or.inr ?_⟩⟩
                · simp [World.log, htr4]
                · simp only [World.code]
                  rw [hrc4]
                  congr 1
                  simp only [List.length_append, List.length_cons, List.length_nil, hlen4]
                  omega
              · next hc4 =>
                split at h
                · next hc =>
                  injection h with hr hw
                  subst hr hw
                  refine ⟨hrc4, Or.inl ⟨hc,
                    [.open_prog, .read_header, .exofork, .init_stack] ++ cs ++
                      [Call.set_trapframe ⟨e.hdr.e_entry, o.init_esp.getD e.env_tf.tf_esp,
                        e.env_tf.tf_regs⟩], .set_status, ?_, ?_, Or.inr ?_⟩⟩
                  · simp [World.log, htr4]
                  · intro hmem
                    rcases List.mem_append.mp hmem with hm | hm
                    · exact hnotin hm
                    · simp at hm
                  · simp only [World.code, World.log]
                    rw [hrc4]
                    congr 1
                    simp only [List.length_append, List.length_cons, List.length_nil, hlen4]
                    omega
                · next hc5 =>
                  injection h with hr hw
                  subst hr hw
                  refine ⟨hrc4, Or.inr ⟨not_lt.mp hc2, ?_, o, cs, ?_, hnn0, hseg, ?_, ?_, ?_⟩⟩
                  · simp [World.code, hqr, hqt]
                  · rw [← ho]
                    show _ = init_stack L e.sys argv e.mem wh.utemp.isSome
                    rw [hqu]
                  · simp [World.log, htr4]
                  · have := not_lt.mp hc4
                    simpa [World.code, hrc4, hlen4] using this
                  · have h5 : 0 ≤ w4.rc (w4.trace ++ [Call.set_trapframe ⟨e.hdr.e_entry,
                        o.init_esp.getD e.env_tf.tf_esp, e.env_tf.tf_regs⟩]).length := not_lt.mp hc5
                    rw [hrc4] at h5
                    have hl : (w4.trace ++ [Call.set_trapframe ⟨e.hdr.e_entry,
                        o.init_esp.getD e.env_tf.tf_esp, e.env_tf.tf_regs⟩]).length
                        = w.trace.length + 5 + cs.length := by
                      simp only [List.length_append, List.length_cons, List.length_nil, hlen4]
                      omega
                    rw [hl] at h5
                    exact h5


/-- C16. When spawn returns a negative value, every call of
`sys_env_set_status` made during that spawn failed: the child was not made
runnable. -/
theorem spawn_failure_not_runnable (L : Layout) (e : SpawnEnv) (argv : List CStr) (fuel : Nat)
    (w : World) (r : Int) (w1 : World)
    (h : spawn L e argv fuel w = .ret r w1) (hr : r < 0) :
    w1.rc = w.rc ∧
    ∀ k, w.trace.length ≤ k → w1.trace[k]? = some .set_status → w1.rc k < 0 := by
  obtain ⟨hrc, hcase⟩ := spawn_ret L e argv fuel w r w1 h
  refine ⟨hrc, ?_⟩
  rcases hcase with ⟨_, cs, c, htr, hnot, hc⟩ | ⟨hnn, _⟩
  · intro k hk hget
    rw [htr] at hget
    by_cases hlt : k < w.trace.length + cs.length
    · exfalso
      rw [List.getElem?_append_left (by simp; omega),
        List.getElem?_append_right hk] at hget
      exact hnot (List.mem_iff_getElem?.mpr ⟨_, hget⟩)
    · have hk2 : k = w.trace.length + cs.length := by
        by_contra hne
        rw [List.getElem?_eq_none (by simp; omega)] at hget
        cases hget
      subst hk2
      rw [List.getElem?_append_right (by simp)] at hget
      simp at hget
      subst hget
      rcases hc with hc | hc
      · cases hc
      · rw [hrc, ← hc]; exact hr
  · omega

theorem spawn_failure_not_runnable_witness :
    ∃ w1, spawn jos envData argvAB 4 (World.failing (fun o => o % 251) 10 (-2)) = .ret (-2) w1 ∧
      w1.trace[10]? = some .set_status ∧
      w1.rc = (World.failing (fun o => o % 251) 10 (-2)).rc ∧
      ∀ k, (World.failing (fun o => o % 251) 10 (-2)).trace.length ≤ k →
        w1.trace[k]? = some .set_status → w1.rc k < 0 :=
  ⟨_, rfl, by decide,
    spawn_failure_not_runnable jos envData argvAB 4 (World.failing (fun o => o % 251) 10 (-2))
      (-2) _ rfl (by decide)⟩

/-- C12 at the failing inputs: when `seek` (the fifth call) returns -3, and
likewise when the `read` of the header (the second call) returns -3, spawn
makes all its later calls, up to `sys_env_set_status`, and returns the envid
4097 of the child instead of -3. -/
theorem spawn_ignores_seek_and_header_read :
    callsData[4]? = some (.seek 4096) ∧
    (World.failing (fun o => o % 251) 4 (-3)).rc 4 = -3 ∧
    (spawn jos envData argvAB 4 (World.failing (fun o => o % 251) 4 (-3))).summary
      = some (4097, callsData, false) ∧
    callsData[1]? = some .read_header ∧
    (World.failing (fun o => o % 251) 1 (-3)).rc 1 = -3 ∧
    (spawn jos envData argvAB 4 (World.failing (fun o => o % 251) 1 (-3))).summary
      = some (4097, callsData, false) := by
  decide

/-- C18 at the failing inputs: when the `read` of the segment data (the seventh
call) or the `sys_page_map` into the child (the eighth call) returns -3, spawn
returns -3 at once, and the scratch page that `sys_page_alloc` mapped at UTEMP
is still mapped there in the caller. -/
theorem spawn_leaves_scratch_page :
    (spawn jos envData argvAB 4 (World.failing (fun o => o % 251) 6 (-3))).summary
      = some (-3, callsData.take 7, true) ∧
    (spawn jos envData argvAB 4 (World.failing (fun o => o % 251) 7 (-3))).summary
      = some (-3, callsData.take 8, true) ∧
    (spawn jos envData argvAB 4 (World.ready (fun o => o % 251))).summary
      = some (4097, callsData, false) := by
  decide

/-! ## pipe -/

theorem as_unmap_alloc (s : AddrSpace) (r : Int) (va n : Nat) (hr : 0 ≤ r) (hs : s va = none) :
    as_unmap (as_alloc s va n) r va = s := by
  unfold as_unmap as_alloc
  rw [if_neg (not_lt.mpr hr)]
  funext a
  by_cases h : a = va
  · subst h; simp [hs]
  · simp [h]

/-- C19. Let the descriptor pages stored by the calls of fd_alloc that succeed
and the data page address of the first be unmapped on entry, and let the calls
of sys_page_unmap at the labels `err3`, `err2`, `err1` succeed. Then whenever
pipe returns a negative value, at whichever of its six failure points, the
address space of the caller is the one on entry: every page mapped during the
call was unmapped again; and nothing was stored to `pfd`. -/
theorem pipe_failure_restores (sys : PipeSys) (s : AddrSpace) (n : Nat)
    (hfd0 : 0 ≤ sys.r_fd0 → s sys.fd0 = none)
    (hfd1 : 0 ≤ sys.r_fd1 → s sys.fd1 = none)
    (hva : 0 ≤ sys.r_fd0 → s (sys.fd2data sys.fd0) = none)
    (hu : 0 ≤ sys.r_unmap_va ∧ 0 ≤ sys.r_unmap_fd1 ∧ 0 ≤ sys.r_unmap_fd0)
    (hneg : (pipe sys s n).ret < 0) :
    (pipe sys s n).space = s ∧ (pipe sys s n).pfd = none ∧
    (pipe sys s n).ret ∈
      [sys.r_fd0, sys.r_page0, sys.r_fd1, sys.r_page1, sys.r_data, sys.r_map] := by
  obtain ⟨hu3, hu2, hu1⟩ := hu
  have hn3 := not_lt.mpr hu3
  have hn2 := not_lt.mpr hu2
  have hn1 := not_lt.mpr hu1
  unfold pipe at hneg ⊢
  simp only at hneg ⊢
  by_cases h1 : sys.r_fd0 < 0
  · simp only [if_pos h1]; simp
  · have e0 := hfd0 (not_lt.mp h1)
    have ev := hva (not_lt.mp h1)
    simp only [if_neg h1] at hneg ⊢
    by_cases h2 : sys.r_page0 < 0
    · simp only [if_pos h2]; simp
    · simp only [if_neg h2] at hneg ⊢
      by_cases h3 : sys.r_fd1 < 0
      · simp only [if_pos h3]
        exact ⟨as_unmap_alloc s _ _ _ hu1 e0, by simp⟩
      · have e1 := hfd1 (not_lt.mp h3)
        simp only [if_neg h3] at hneg ⊢
        by_cases h4 : sys.r_page1 < 0
        · simp only [if_pos h4]
          exact ⟨as_unmap_alloc s _ _ _ hu1 e0, by simp⟩
        · simp only [if_neg h4] at hneg ⊢
          by_cases h5 : sys.r_data < 0
          · simp only [if_pos h5]
            refine ⟨?_, by simp⟩
            unfold as_unmap as_alloc
            rw [if_neg hn2, if_neg hn1]
            funext a
            by_cases ha : a = sys.fd0
            · subst ha; simp [e0]
            · by_cases hb : a = sys.fd1
              · subst hb; simp [ha, e1]
              · simp [ha, hb]
          · simp only [if_neg h5] at hneg ⊢
            by_cases h6 : sys.r_map < 0
            · simp only [if_pos h6]
              refine ⟨?_, by simp⟩
              unfold as_unmap as_alloc
              rw [if_neg hn3, if_neg hn2, if_neg hn1]
              funext a
              by_cases ha : a = sys.fd0
              · subst ha; simp [e0]
              · by_cases hb : a = sys.fd1
                · subst hb; simp [ha, e1]
                · by_cases hc : a = sys.fd2data sys.fd0
                  · subst hc; simp [ha, hb, ev]
                  · simp [ha, hb, hc]
            · simp only [if_neg h6] at hneg
              omega

theorem pipe_failure_restores_witness :
    (pipe (pipeSysFail 5) (fun _ => none) 0).ret = -4 ∧
    (pipe (pipeSysFail 5) (fun _ => none) 0).calls =
      [.fd_alloc, .page_alloc 3489660928, .fd_alloc, .page_alloc 3489665024,
       .page_alloc 3493855232, .page_map 3493855232 3493859328, .page_unmap 3493855232,
       .page_unmap 3489665024, .page_unmap 3489660928] ∧
    ((pipe (pipeSysFail 5) (fun _ => none) 0).space = (fun _ => none) ∧
     (pipe (pipeSysFail 5) (fun _ => none) 0).pfd = none ∧
     (pipe (pipeSysFail 5) (fun _ => none) 0).ret ∈
      [(pipeSysFail 5).r_fd0, (pipeSysFail 5).r_page0, (pipeSysFail 5).r_fd1,
       (pipeSysFail 5).r_page1, (pipeSysFail 5).r_data, (pipeSysFail 5).r_map]) :=
  ⟨by decide, by decide,
    pipe_failure_restores (pipeSysFail 5) (fun _ => none) 0 (fun _ => rfl) (fun _ => rfl)
      (fun _ => rfl) (by decide) (by decide)⟩

/-! ## End of stream -/

theorem buffered_length (p : Pipe) : (buffered p).length = (p.p_wpos - p.p_rpos).toNat := by
  simp [buffered]

theorem piperead_of_data (p : Pipe) (n : Nat) (closed : Bool) (h0 : 0 ≤ p.p_rpos)
    (hlt : p.p_rpos < p.p_wpos) (hmax : p.p_wpos ≤ INT_MAX)
    (hcap : p.p_wpos - p.p_rpos ≤ PIPEBUFSIZ) :
    piperead p n closed =
      .ret ((min n (p.p_wpos - p.p_rpos).toNat : Nat)) ((buffered p).take n)
        { p with p_rpos := p.p_rpos + (min n (p.p_wpos - p.p_rpos).toNat : Nat) } := by
  have hout : (buffered p).take n = (List.range (min n (p.p_wpos - p.p_rpos).toNat)).map
      (fun j => p.p_buf ((p.p_rpos.toNat + j) % PIPEBUFSIZ)) := by
    unfold buffered
    rw [← List.map_take, List.take_range]
  unfold piperead
  rw [if_neg (not_le.mpr hlt), piperead_loop_eq n p [] h0 hmax]
  simp only [List.nil_append]
  rw [hout]
  have hw : wrap32 (((List.range (min n (p.p_wpos - p.p_rpos).toNat)).map
      (fun j => p.p_buf ((p.p_rpos.toNat + j) % PIPEBUFSIZ))).length : Nat)
      = (min n (p.p_wpos - p.p_rpos).toNat : Nat) := by
    rw [List.length_map, List.length_range]
    apply wrap32_of_range
    · unfold INT_MIN; omega
    · unfold INT_MAX; unfold PIPEBUFSIZ at hcap; omega
  rw [hw]

theorem buffered_after (p : Pipe) (n : Nat) (h0 : 0 ≤ p.p_rpos) (hle : p.p_rpos ≤ p.p_wpos) :
    buffered { p with p_rpos := p.p_rpos + (min n (p.p_wpos - p.p_rpos).toNat : Nat) }
      = (buffered p).drop n := by
  apply List.ext_getElem
  · simp only [buffered_length, List.length_drop]
    omega
  · intro i h1 h2
    simp only [buffered, List.getElem_map, List.getElem_range, List.getElem_drop]
    congr 2
    simp only [buffered_length, List.length_drop] at h1 h2
    omega


theorem piperead_of_empty (p : Pipe) (n : Nat) (h : p.p_wpos ≤ p.p_rpos) :
    piperead p n true = .ret 0 [] p := by
  unfold piperead
  rw [if_pos h]
  rfl

theorem buffered_of_empty (p : Pipe) (h : p.p_wpos ≤ p.p_rpos) : buffered p = [] := by
  unfold buffered
  have : (p.p_wpos - p.p_rpos).toNat = 0 := by omega
  rw [this]
  rfl

theorem pipereads_spec (ns : List Nat) : ∀ p : Pipe, 0 ≤ p.p_rpos → p.p_rpos ≤ p.p_wpos →
    p.p_wpos ≤ INT_MAX → p.p_wpos - p.p_rpos ≤ PIPEBUFSIZ → (∀ n ∈ ns, 1 ≤ n) →
    ∃ l, pipereads p ns = some l ∧ l.length = ns.length ∧
      outs l = (buffered p).take ns.sum ∧
      ∀ i r out, l[i]? = some (r, out) → r = out.length ∧
        (r = 0 → outs (l.take i) = buffered p) := by
  induction ns with
  | nil =>
    intro p _ _ _ _ _
    exact ⟨[], rfl, rfl, by simp [outs], by simp⟩
  | cons n ns ih =>
    intro p h0 hle hmax hcap hpos
    have hn : 1 ≤ n := hpos n (List.mem_cons_self _ _)
    have hpos2 : ∀ m ∈ ns, 1 ≤ m := fun m hm => hpos m (List.mem_cons_of_mem _ hm)
    by_cases hlt : p.p_rpos < p.p_wpos
    · have hrd := piperead_of_data p n true h0 hlt hmax hcap
      have hbuf := buffered_after p n h0 hle
      obtain ⟨l, hl, hlen, houts, hzero⟩ :=
        ih { p with p_rpos := p.p_rpos + (min n (p.p_wpos - p.p_rpos).toNat : Nat) }
          (by simp only; omega) (by simp only; omega) hmax (by simp only; omega) hpos2
      refine ⟨((min n (p.p_wpos - p.p_rpos).toNat : Nat), (buffered p).take n) :: l, ?_, ?_, ?_, ?_⟩
      · simp only [pipereads, hrd, hl, Option.map_some']
      · simp [hlen]
      · simp only [outs, houts, hbuf, List.sum_cons]
        rw [List.take_add]
      · intro i r out hget
        cases i with
        | zero =>
          simp only [List.getElem?_cons_zero, Option.some.injEq, Prod.mk.injEq] at hget
          obtain ⟨hr, ho⟩ := hget
          subst hr ho
          refine ⟨by simp [buffered_length], ?_⟩
          intro hz
          exfalso
          have : (min n (p.p_wpos - p.p_rpos).toNat : Nat) = 0 := by exact_mod_cast hz
          omega
        | succ i =>
          simp only [List.getElem?_cons_succ] at hget
          obtain ⟨h1, h2⟩ := hzero i r out hget
          refine ⟨h1, fun hz => ?_⟩
          simp only [List.take_succ_cons, outs, h2 hz, hbuf, List.take_append_drop]
    · have hemp : p.p_wpos ≤ p.p_rpos := not_lt.mp hlt
      have hrd := piperead_of_empty p n hemp
      have hb := buffered_of_empty p hemp
      obtain ⟨l, hl, hlen, houts, hzero⟩ := ih p h0 hle hmax hcap hpos2
      refine ⟨(0, []) :: l, ?_, ?_, ?_, ?_⟩
      · simp only [pipereads, hrd, hl, Option.map_some']
      · simp [hlen]
      · simp only [outs, houts, hb, List.take_nil, List.nil_append]
      · intro i r out hget
        cases i with
        | zero =>
          simp only [List.getElem?_cons_zero, Option.some.injEq, Prod.mk.injEq] at hget
          obtain ⟨hr, ho⟩ := hget
          subst hr ho
          exact ⟨rfl, fun _ => by simp [outs, hb]⟩
        | succ i =>
          simp only [List.getElem?_cons_succ] at hget
          obtain ⟨h1, h2⟩ := hzero i r out hget
          refine ⟨h1, fun hz => ?_⟩
          simp only [List.take_succ_cons, outs, h2 hz, List.nil_append]

/-- C13, as amended. In a pipe state with 32-bit counters satisfying
`0 <= p_rpos <= p_wpos <= p_rpos + PIPEBUFSIZ`: a piperead with `n >= 1` that
returns 0 found `p_rpos = p_wpos` and was told by `_pipeisclosed` that the peer
is closed, delivered nothing and left the pipe as it was; while
`p_rpos < p_wpos` the result of piperead does not depend on the answer of
`_pipeisclosed`; and with the peer closed, successive calls of piperead with
sizes `>= 1` return the bytes between the two positions in order, each call
returning the number of bytes it delivered, and a call returns 0 only after
all of them were delivered. -/
theorem piperead_end_of_stream (p : Pipe) (hwf : p.WF) (hinv : PipeInv p) :
    (∀ n closed out p1, 1 ≤ n → piperead p n closed = .ret 0 out p1 →
      p.p_rpos = p.p_wpos ∧ closed = true ∧ out = [] ∧ p1 = p) ∧
    (∀ n c1 c2, p.p_rpos < p.p_wpos → piperead p n c1 = piperead p n c2) ∧
    (buffered p).length = (p.p_wpos - p.p_rpos).toNat ∧
    ∀ ns : List Nat, (∀ n ∈ ns, 1 ≤ n) →
      ∃ l, pipereads p ns = some l ∧ l.length = ns.length ∧
        outs l = (buffered p).take ns.sum ∧
        ∀ i r out, l[i]? = some (r, out) → r = out.length ∧
          (r = 0 → outs (l.take i) = buffered p) := by
  obtain ⟨h0, _, _, hmax⟩ := hwf
  obtain ⟨hle, hcap⟩ := hinv
  have hle2 : p.p_rpos ≤ p.p_wpos := by omega
  refine ⟨?_, ?_, buffered_length p, fun ns hns => pipereads_spec ns p h0 hle2 hmax hcap hns⟩
  · intro n closed out p1 hn h
    by_cases hlt : p.p_rpos < p.p_wpos
    · rw [piperead_of_data p n closed h0 hlt hmax hcap] at h
      injection h with hr _ _
      exfalso
      have : (min n (p.p_wpos - p.p_rpos).toNat : Nat) = 0 := by exact_mod_cast hr
      omega
    · unfold piperead at h
      rw [if_pos (not_lt.mp hlt)] at h
      cases closed with
      | false => cases h
      | true =>
        simp only [if_true] at h
        injection h with _ ho hp
        exact ⟨by omega, rfl, ho.symm, hp.symm⟩
  · intro n c1 c2 hlt
    unfold piperead
    rw [if_neg (not_le.mpr hlt), if_neg (not_le.mpr hlt)]


theorem piperead_end_of_stream_witness :
    pipereads pipe3 [2, 5, 1] = some [(2, [130, 131]), (1, [100]), (0, [])] ∧
    (∀ n closed out p1, 1 ≤ n → piperead pipe3 n closed = .ret 0 out p1 →
      pipe3.p_rpos = pipe3.p_wpos ∧ closed = true ∧ out = [] ∧ p1 = pipe3) ∧
    (∀ n c1 c2, pipe3.p_rpos < pipe3.p_wpos → piperead pipe3 n c1 = piperead pipe3 n c2) ∧
    (buffered pipe3).length = (pipe3.p_wpos - pipe3.p_rpos).toNat ∧
    ∀ ns : List Nat, (∀ n ∈ ns, 1 ≤ n) →
      ∃ l, pipereads pipe3 ns = some l ∧ l.length = ns.length ∧
        outs l = (buffered pipe3).take ns.sum ∧
        ∀ i r out, l[i]? = some (r, out) → r = out.length ∧
          (r = 0 → outs (l.take i) = buffered pipe3) :=
  ⟨by decide, piperead_end_of_stream pipe3 (by unfold Pipe.WF INT_MAX INT_MIN; decide)
    (by unfold PipeInv PIPEBUFSIZ; decide)⟩

/-- Counterexample to C13 as stated: after 2^31 - 1 bytes have passed through
the pipe and one more byte has been written, that byte is unread, yet
`p_rpos >= p_wpos` holds (`p_wpos` has wrapped to -2^31) and a piperead with
`n = 1` and the peer closed returns 0 without delivering it. -/
theorem piperead_eof_with_byte_unread :
    ∃ h, run Hist.fresh (pairs 2147483647 ++ [Op.wr 7]) = some h ∧
      h.accepted.length = h.delivered.length + 1 ∧
      piperead h.p 1 true = .ret 0 [] h.p := by
  obtain ⟨h1, hr1, hc1, he1, hl1⟩ := run_pairs 2147483647 Hist.fresh coherent_fresh rfl
    (by simp [Hist.fresh, INT_MAX])
  obtain ⟨hr, hw, _, _, _, _⟩ := hc1
  have hlen : h1.accepted.length = 2147483647 := by simpa [Hist.fresh] using hl1
  have hw1 : h1.p.p_wpos = 2147483647 := by rw [hw, hlen]; rfl
  have hr1' : h1.p.p_rpos = 2147483647 := by rw [hr, he1, hlen]; rfl
  have hnf : ¬ pipe_full h1.p := by
    unfold pipe_full; rw [hw1, hr1']; decide
  have hcell : cell h1.p.p_wpos = some 31 := by rw [hw1]; decide
  have hwrap : wrap32 (h1.p.p_wpos + 1) = -2147483648 := by rw [hw1]; decide
  refine ⟨{ h1 with p := { h1.p with p_buf := fun j => if j = 31 then 7 else h1.p.p_buf j,
                                     p_wpos := -2147483648 },
                    accepted := h1.accepted ++ [7] }, ?_, by simp [he1], ?_⟩
  · rw [run_append, hr1]
    simp [run, exec, pipewrite_step, hnf, hcell, hwrap]
  · unfold piperead
    simp only
    rw [if_pos (by rw [hr1']; decide)]
    rfl

/-! ## Round trip -/

theorem ring_fill_other (bs : List Nat) : ∀ (buf : Nat → Nat) (pos c : Nat),
    (∀ j, j < bs.length → c ≠ (pos + j) % PIPEBUFSIZ) → ring_fill buf pos bs c = buf c := by
  induction bs with
  | nil => intro buf pos c _; rfl
  | cons b bs ih =>
    intro buf pos c h
    rw [ring_fill, ih]
    · have := h 0 (by simp)
      simp only [Nat.add_zero] at this
      simp [this]
    · intro j hj
      have := h (j + 1) (by simp; omega)
      rw [show pos + 1 + j = pos + (j + 1) by omega]
      exact this

theorem ring_fill_get (bs : List Nat) : ∀ (buf : Nat → Nat) (pos j : Nat)
    (_ : bs.length ≤ PIPEBUFSIZ) (hj : j < bs.length),
    ring_fill buf pos bs ((pos + j) % PIPEBUFSIZ) = bs[j] := by
  induction bs with
  | nil => intro buf pos j _ hj; simp at hj
  | cons b bs ih =>
    intro buf pos j hlen hj
    simp only [List.length_cons] at hlen hj
    cases j with
    | zero =>
      rw [ring_fill, ring_fill_other]
      · simp
      · intro i hi
        unfold PIPEBUFSIZ at hlen ⊢
        omega
    | succ j =>
      rw [ring_fill]
      have := ih (fun i => if i = pos % PIPEBUFSIZ then b else buf i) (pos + 1) j (by omega)
        (by omega)
      rw [show pos + (j + 1) = pos + 1 + j by omega, this]
      rfl

theorem wait_space_of_room (env : List Yield) (p : Pipe) (h : ¬ pipe_full p) :
    wait_space env p = .ready p env := by
  cases env with
  | nil => simp [wait_space, h]
  | cons y env => simp [wait_space, h]

theorem pipewrite_loop_room (bs : List Nat) : ∀ (acc : List Nat) (env : List Yield) (p : Pipe),
    0 ≤ p.p_rpos → p.p_rpos ≤ p.p_wpos →
    p.p_wpos - p.p_rpos + bs.length ≤ PIPEBUFSIZ → p.p_wpos + bs.length ≤ INT_MAX →
    pipewrite_loop bs acc env p =
      .ret (wrap32 ((acc ++ bs).length : Nat)) (acc ++ bs)
        { p with p_buf := ring_fill p.p_buf p.p_wpos.toNat bs,
                 p_wpos := p.p_wpos + bs.length } := by
  induction bs with
  | nil =>
    intro acc env p _ _ _ _
    simp [pipewrite_loop, ring_fill]
  | cons b bs ih =>
    intro acc env p h0 hle hcap hmax
    simp only [List.length_cons, Nat.cast_add, Nat.cast_one] at hcap hmax
    have hroom : p.p_wpos - p.p_rpos < PIPEBUFSIZ := by omega
    have hd : wrap32 (p.p_wpos - p.p_rpos) = p.p_wpos - p.p_rpos :=
      wrap32_of_range (by unfold INT_MIN; omega) (by unfold INT_MAX PIPEBUFSIZ at *; omega)
    have hnf : ¬ pipe_full p := by unfold pipe_full; rw [hd]; omega
    have hstep := pipewrite_step_of_room p b (by omega) hroom (by omega) (by omega)
    rw [pipewrite_loop, wait_space_of_room env p hnf]
    simp only [hstep]
    rw [ih (acc ++ [b]) env
      { p with p_buf := fun j => if j = p.p_wpos.toNat % PIPEBUFSIZ then b else p.p_buf j,
               p_wpos := p.p_wpos + 1 } h0 (by simp only; omega) (by simp only; omega)
      (by simp only; omega)]
    have ht : (p.p_wpos + 1).toNat = p.p_wpos.toNat + 1 := by omega
    have e1 : p.p_wpos + 1 + (bs.length : Int) = p.p_wpos + ((b :: bs).length : Nat) := by
      simp only [List.length_cons, Nat.cast_add, Nat.cast_one]; omega
    simp only [ht, ring_fill, List.append_assoc, List.singleton_append, e1]


/-- C14, as amended. From an empty pipe with `p_rpos = p_wpos = pos`, for any
contents of the array, and bytes `S` with `1 <= length S < PIPEBUFSIZ` and
`pos + length S <= 2^31 - 1`: pipewrite of `S` returns `length S` without
calling sys_yield, whatever `_pipeisclosed` would answer, and leaves
`p_wpos = pos + length S`; a piperead that follows with `n >= length S`
returns `length S`, delivers exactly `S`, and leaves
`p_rpos = p_wpos = pos + length S`. -/
theorem pipe_round_trip (pos : Nat) (buf : Nat → Nat) (S : List Nat) (env : List Yield)
    (n : Nat) (closed : Bool) (h1 : 1 ≤ S.length) (h2 : S.length < PIPEBUFSIZ)
    (hmax : (pos : Int) + S.length ≤ INT_MAX) (hn : S.length ≤ n) :
    ∃ p1 p2, pipewrite { p_rpos := pos, p_wpos := pos, p_buf := buf } S env
        = .ret S.length S p1 ∧
      p1.p_rpos = pos ∧ p1.p_wpos = pos + S.length ∧
      piperead p1 n closed = .ret S.length S p2 ∧
      p2.p_rpos = pos + S.length ∧ p2.p_wpos = pos + S.length := by
  have hw := pipewrite_loop_room S [] env { p_rpos := pos, p_wpos := pos, p_buf := buf }
    (by simp) (by simp) (by simp only; omega) (by simpa using hmax)
  have hlen : wrap32 (S.length : Nat) = S.length :=
    wrap32_of_range (by unfold INT_MIN; omega) (by unfold INT_MAX; unfold PIPEBUFSIZ at h2; omega)
  simp only [List.nil_append, hlen, Int.toNat_ofNat] at hw
  have hr := piperead_loop_eq n
    { p_rpos := pos, p_wpos := (pos : Int) + S.length, p_buf := ring_fill buf pos S } []
    (by simp) (by simpa using hmax)
  have hk : ((pos : Int) + S.length - pos).toNat = S.length := by omega
  simp only [hk, Nat.min_eq_right hn, List.nil_append, Int.toNat_ofNat] at hr
  have hout : (List.range S.length).map (fun j => ring_fill buf pos S ((pos + j) % PIPEBUFSIZ))
      = S := by
    apply List.ext_getElem
    · simp
    · intro i hi1 hi2
      simp only [List.getElem_map, List.getElem_range]
      exact ring_fill_get S buf pos i (by omega) hi2
  rw [hout] at hr
  refine ⟨{ p_rpos := pos, p_wpos := (pos : Int) + S.length, p_buf := ring_fill buf pos S },
    { p_rpos := (pos : Int) + S.length, p_wpos := (pos : Int) + S.length,
      p_buf := ring_fill buf pos S }, hw, rfl, rfl, ?_, rfl, rfl⟩
  unfold piperead
  simp only
  rw [if_neg (by omega), hr]
  simp only [hlen]


theorem pipe_round_trip_witness :
    ∃ p1 p2, pipewrite { p_rpos := (30 : Nat), p_wpos := (30 : Nat), p_buf := fun _ => 0 }
        [5, 6, 7] [] = .ret ([5, 6, 7] : List Nat).length [5, 6, 7] p1 ∧
      p1.p_rpos = (30 : Nat) ∧ p1.p_wpos = (30 : Nat) + ([5, 6, 7] : List Nat).length ∧
      piperead p1 5 false = .ret ([5, 6, 7] : List Nat).length [5, 6, 7] p2 ∧
      p2.p_rpos = (30 : Nat) + ([5, 6, 7] : List Nat).length ∧
      p2.p_wpos = (30 : Nat) + ([5, 6, 7] : List Nat).length :=
  pipe_round_trip 30 (fun _ => 0) [5, 6, 7] [] 5 false (by decide) (by decide) (by decide)
    (by decide)

/-- Counterexample to C14 as stated: from the empty pipe with
`p_rpos = p_wpos = 2^31 - 1`, pipewrite of one byte returns 1 and leaves
`p_wpos = -2^31`; the piperead that follows finds `p_rpos >= p_wpos` and
returns 0 when the peer is closed, and calls sys_yield when it is not: the
byte is not delivered. -/
theorem pipe_round_trip_fails_at_int_max :
    ∃ p1, pipewrite { p_rpos := 2147483647, p_wpos := 2147483647, p_buf := fun _ => 0 } [7] []
        = .ret 1 [7] p1 ∧
      p1.p_rpos = 2147483647 ∧ p1.p_wpos = -2147483648 ∧
      piperead p1 1 true = .ret 0 [] p1 ∧ piperead p1 1 false = .yield [] p1 :=
  ⟨_, rfl, rfl, rfl, rfl, rfl⟩

/-! ## The counters near 2^31 -/

/-- C20, as amended. After any sequence of byte transfers on a fresh pipe in
which at most 2^31 - 1 bytes are written, the indices `p_rpos % PIPEBUFSIZ` and
`p_wpos % PIPEBUFSIZ` lie in `[0, PIPEBUFSIZ)`, the test `p_rpos >= p_wpos`
holds exactly when no accepted byte is undelivered, the test
`p_wpos - p_rpos >= PIPEBUFSIZ` holds exactly when PIPEBUFSIZ accepted bytes
are undelivered, and `p_wpos - p_rpos` is the number of accepted bytes not yet
delivered. -/
theorem pipe_counters_in_range (ops : List Op) (hmax : (wr_count ops : Int) ≤ INT_MAX) :
    ∃ h, run Hist.fresh ops = some h ∧
      (∃ i, cell h.p.p_rpos = some i ∧ i < PIPEBUFSIZ) ∧
      (∃ j, cell h.p.p_wpos = some j ∧ j < PIPEBUFSIZ) ∧
      h.delivered.length ≤ h.accepted.length ∧
      wrap32 (h.p.p_wpos - h.p.p_rpos) = (h.accepted.length - h.delivered.length : Nat) ∧
      (h.p.p_rpos ≥ h.p.p_wpos ↔ h.accepted.length - h.delivered.length = 0) ∧
      (pipe_full h.p ↔ h.accepted.length - h.delivered.length = PIPEBUFSIZ) := by
  obtain ⟨h, hrun, hr, hw, _, hle, hcap, _⟩ := run_coherent ops Hist.fresh coherent_fresh
    (by simpa [Hist.fresh] using hmax)
  have hd : wrap32 (h.p.p_wpos - h.p.p_rpos) = (h.accepted.length - h.delivered.length : Nat) := by
    rw [hr, hw]
    have : ((h.accepted.length : Int) - h.delivered.length)
        = ((h.accepted.length - h.delivered.length : Nat) : Int) := by omega
    rw [this]
    apply wrap32_of_range
    · unfold INT_MIN; omega
    · unfold INT_MAX; unfold PIPEBUFSIZ at hcap; omega
  refine ⟨h, hrun, ⟨_, by rw [hr]; exact cell_natCast _, Nat.mod_lt _ (by decide)⟩,
    ⟨_, by rw [hw]; exact cell_natCast _, Nat.mod_lt _ (by decide)⟩, hle, hd, ?_, ?_⟩
  · rw [hr, hw]; omega
  · unfold pipe_full
    rw [hd]
    unfold PIPEBUFSIZ at hcap ⊢
    omega

theorem pipe_counters_in_range_witness :
    ∃ h, run Hist.fresh opsRing = some h ∧
      (∃ i, cell h.p.p_rpos = some i ∧ i < PIPEBUFSIZ) ∧
      (∃ j, cell h.p.p_wpos = some j ∧ j < PIPEBUFSIZ) ∧
      h.delivered.length ≤ h.accepted.length ∧
      wrap32 (h.p.p_wpos - h.p.p_rpos) = (h.accepted.length - h.delivered.length : Nat) ∧
      (h.p.p_rpos ≥ h.p.p_wpos ↔ h.accepted.length - h.delivered.length = 0) ∧
      (pipe_full h.p ↔ h.accepted.length - h.delivered.length = PIPEBUFSIZ) :=
  pipe_counters_in_range opsRing (by decide)

/-- Counterexample to C20 as stated: after 2^31 - 1 bytes have passed through
the pipe and one more byte has been written, one accepted byte is undelivered
while `p_wpos` is -2^31 and the test `p_rpos >= p_wpos` holds; a second byte is
then stored at index 0, and for the third the index `p_wpos % PIPEBUFSIZ` is
-31, outside `p_buf`. -/
theorem pipe_counters_past_int_max :
    ∃ h, run Hist.fresh (pairs 2147483647 ++ [Op.wr 7]) = some h ∧
      h.accepted.length - h.delivered.length = 1 ∧ h.p.p_rpos ≥ h.p.p_wpos ∧
      Int.tmod (h.p.p_wpos + 1) PIPEBUFSIZ = -31 ∧
      run Hist.fresh (pairs 2147483647 ++ [Op.wr 7, Op.wr 8, Op.wr 9]) = none := by
  obtain ⟨h1, hr1, hc1, he1, hl1⟩ := run_pairs 2147483647 Hist.fresh coherent_fresh rfl
    (by simp [Hist.fresh, INT_MAX])
  obtain ⟨hr, hw, _, _, _, _⟩ := hc1
  have hlen : h1.accepted.length = 2147483647 := by simpa [Hist.fresh] using hl1
  have hw1 : h1.p.p_wpos = 2147483647 := by rw [hw, hlen]; rfl
  have hr1' : h1.p.p_rpos = 2147483647 := by rw [hr, he1, hlen]; rfl
  have hnf : ¬ pipe_full h1.p := by
    unfold pipe_full; rw [hw1, hr1']; decide
  have hcell : cell h1.p.p_wpos = some 31 := by rw [hw1]; decide
  have hwrap : wrap32 (h1.p.p_wpos + 1) = -2147483648 := by rw [hw1]; decide
  have ha : exec h1 (.wr 7) = some
      { p := { p_rpos := h1.p.p_rpos, p_wpos := -2147483648,
               p_buf := fun j => if j = 31 then 7 else h1.p.p_buf j },
        delivered := h1.delivered, accepted := h1.accepted ++ [7] } := by
    simp [exec, pipewrite_step, hnf, hcell, hwrap]
  have hb : exec
      { p := { p_rpos := h1.p.p_rpos, p_wpos := -2147483648,
               p_buf := fun j => if j = 31 then 7 else h1.p.p_buf j },
        delivered := h1.delivered, accepted := h1.accepted ++ [7] } (.wr 8) = some
      { p := { p_rpos := h1.p.p_rpos, p_wpos := -2147483647,
               p_buf := fun j => if j = 0 then 8 else if j = 31 then 7 else h1.p.p_buf j },
        delivered := h1.delivered, accepted := h1.accepted ++ [7] ++ [8] } := by
    have hf : ¬ pipe_full (Pipe.mk h1.p.p_rpos (-2147483648)
        (fun j => if j = 31 then 7 else h1.p.p_buf j)) := by
      unfold pipe_full; simp only; rw [hr1']; decide
    have hc2 : cell (-2147483648) = some 0 := by decide
    have hw2 : wrap32 (-2147483648 + 1) = -2147483647 := by decide
    simp only [exec, pipewrite_step, if_neg hf, hc2, hw2]
  have hc : exec
      { p := { p_rpos := h1.p.p_rpos, p_wpos := -2147483647,
               p_buf := fun j => if j = 0 then 8 else if j = 31 then 7 else h1.p.p_buf j },
        delivered := h1.delivered, accepted := h1.accepted ++ [7] ++ [8] } (.wr 9) = none := by
    have hf : ¬ pipe_full (Pipe.mk h1.p.p_rpos (-2147483647)
        (fun j => if j = 0 then 8 else if j = 31 then 7 else h1.p.p_buf j)) := by
      unfold pipe_full; simp only; rw [hr1']; decide
    have hc3 : cell (-2147483647) = none := by decide
    simp only [exec, pipewrite_step, if_neg hf, hc3]
  refine ⟨{ p := { p_rpos := h1.p.p_rpos, p_wpos := -2147483648,
                   p_buf := fun j => if j = 31 then 7 else h1.p.p_buf j },
            delivered := h1.delivered, accepted := h1.accepted ++ [7] },
    ?_, by simp [he1], ?_, ?_, ?_⟩
  · rw [run_append, hr1]
    simp only [Option.some_bind, run, ha]
  · simp only; rw [hr1']; decide
  · show Int.tmod (-2147483648 + 1) (PIPEBUFSIZ : Int) = -31
    decide
  · rw [run_append, hr1]
    simp only [Option.some_bind, run, ha, hb, hc, Option.none_bind]

end JOS
